import Mathlib

/-! Route identity, diffing and reconciliation of the Go package `linuxroute`.

A shallow embedding of `route.go`, `diff.go`, `controller.go`, `manager.go`, `store.go`
and `memory_store.go`, together with the properties the specification states about them.

Conventions of the embedding

* A Go `string` is a Lean `String` (a text of Unicode characters; Go strings that are not
  valid UTF-8 are outside the model); the helpers work on its list of characters.
* A Go `int` is an `Int` (no arithmetic is ever done on `Table` / `Metric`).
* A Go `(T, error)` result is an `Except`; an `error` alone is an `Option`, `none` for `nil`.
* A Go `map[string]Route` is an association list with pairwise distinct keys; the order of
  the list stands for one iteration order, and the results are shown not to depend on it.
* The interfaces `RouteManager` and `RouteStore` are records of state-passing functions
  over an arbitrary state, and every call made on them is recorded.
* The standard-library functions the package calls (`strings.TrimSpace`,
  `strings.ToLower`, `net.ParseIP`, `net.ParseCIDR`, `IP.String`, `IPNet.String`,
  `fmt.Sprintf`, `sort.Slice`, `errors.Join`) are not part of the repository; they are
  given executable models below, each next to the library routine it follows.
-/

namespace LinuxRoute

/-! ## Standard library: `strings` -/

/-- White space in the sense of Go's `unicode.IsSpace`. -/
def isSpace (c : Char) : Bool :=
  c = '\t' || c = '\n' || c = Char.ofNat 0x0B || c = Char.ofNat 0x0C || c = '\r' || c = ' '
    || c = Char.ofNat 0x85 || c = Char.ofNat 0xA0 || c = Char.ofNat 0x1680
    || (0x2000 ≤ c.toNat && c.toNat ≤ 0x200A)
    || c = Char.ofNat 0x2028 || c = Char.ofNat 0x2029 || c = Char.ofNat 0x202F
    || c = Char.ofNat 0x205F || c = Char.ofNat 0x3000

/-- Character-list core of `strings.TrimSpace`: leading and trailing white space removed. -/
def trimSpaceL (l : List Char) : List Char :=
  (l.dropWhile isSpace).rdropWhile isSpace

/-- Model of `strings.TrimSpace`. -/
def trimSpace (s : String) : String := ⟨trimSpaceL s.data⟩

/-- A `unicode.CaseRange`, reduced to its lower-case column: the code points `Lo` to `Hi`
and the entry `Delta[LowerCase]`, where `none` is the marker `UpperLower` of a run in
which capitals (even offsets from `Lo`) alternate with their small letters (odd offsets). -/
structure CaseRange where
  Lo : Nat
  Hi : Nat
  Delta : Option Int
deriving DecidableEq

/-- The lower-case mapping inside one range, as in `unicode.to`: in an `UpperLower` run the
low bit of the offset is set, otherwise the delta is added. -/
def CaseRange.lower (cr : CaseRange) (r : Nat) : Nat :=
  match cr.Delta with
  | none => cr.Lo + ((r - cr.Lo) / 2 * 2 + 1)
  | some d => ((r : Int) + d).toNat

/-- Model of `unicode.to(LowerCase, r, caseRange)`: the mapping of the range that holds `r`,
and `r` itself when no range does. The ranges are disjoint, so the linear search finds the
range the binary search of the library finds. -/
def toLowerIn : List CaseRange → Nat → Nat
  | [], r => r
  | cr :: t, r => if cr.Lo ≤ r ∧ r ≤ cr.Hi then cr.lower r else toLowerIn t r

/-- The table `unicode.CaseRanges`, lower-case column, restricted to the code points that
the mapping moves (Unicode 15.0.0, the tables of Go 1.21): 1433 code points in
187 ranges. -/
def caseRanges : List CaseRange :=
  [CaseRange.mk 0x0041 0x005A (some 32), CaseRange.mk 0x00C0 0x00D6 (some 32),
    CaseRange.mk 0x00D8 0x00DE (some 32), CaseRange.mk 0x0100 0x012F none,
    CaseRange.mk 0x0130 0x0130 (some (-199)), CaseRange.mk 0x0132 0x0137 none,
    CaseRange.mk 0x0139 0x0148 none, CaseRange.mk 0x014A 0x0177 none,
    CaseRange.mk 0x0178 0x0178 (some (-121)), CaseRange.mk 0x0179 0x017E none,
    CaseRange.mk 0x0181 0x0181 (some 210), CaseRange.mk 0x0182 0x0185 none,
    CaseRange.mk 0x0186 0x0186 (some 206), CaseRange.mk 0x0187 0x0187 (some 1),
    CaseRange.mk 0x0189 0x018A (some 205), CaseRange.mk 0x018B 0x018B (some 1),
    CaseRange.mk 0x018E 0x018E (some 79), CaseRange.mk 0x018F 0x018F (some 202),
    CaseRange.mk 0x0190 0x0190 (some 203), CaseRange.mk 0x0191 0x0191 (some 1),
    CaseRange.mk 0x0193 0x0193 (some 205), CaseRange.mk 0x0194 0x0194 (some 207),
    CaseRange.mk 0x0196 0x0196 (some 211), CaseRange.mk 0x0197 0x0197 (some 209),
    CaseRange.mk 0x0198 0x0198 (some 1), CaseRange.mk 0x019C 0x019C (some 211),
    CaseRange.mk 0x019D 0x019D (some 213), CaseRange.mk 0x019F 0x019F (some 214),
    CaseRange.mk 0x01A0 0x01A5 none, CaseRange.mk 0x01A6 0x01A6 (some 218),
    CaseRange.mk 0x01A7 0x01A7 (some 1), CaseRange.mk 0x01A9 0x01A9 (some 218),
    CaseRange.mk 0x01AC 0x01AC (some 1), CaseRange.mk 0x01AE 0x01AE (some 218),
    CaseRange.mk 0x01AF 0x01AF (some 1), CaseRange.mk 0x01B1 0x01B2 (some 217),
    CaseRange.mk 0x01B3 0x01B6 none, CaseRange.mk 0x01B7 0x01B7 (some 219),
    CaseRange.mk 0x01B8 0x01B8 (some 1), CaseRange.mk 0x01BC 0x01BC (some 1),
    CaseRange.mk 0x01C4 0x01C4 (some 2), CaseRange.mk 0x01C5 0x01C5 (some 1),
    CaseRange.mk 0x01C7 0x01C7 (some 2), CaseRange.mk 0x01C8 0x01C8 (some 1),
    CaseRange.mk 0x01CA 0x01CA (some 2), CaseRange.mk 0x01CB 0x01CB (some 1),
    CaseRange.mk 0x01CD 0x01DC none, CaseRange.mk 0x01DE 0x01EF none,
    CaseRange.mk 0x01F1 0x01F1 (some 2), CaseRange.mk 0x01F2 0x01F2 (some 1),
    CaseRange.mk 0x01F4 0x01F4 (some 1), CaseRange.mk 0x01F6 0x01F6 (some (-97)),
    CaseRange.mk 0x01F7 0x01F7 (some (-56)), CaseRange.mk 0x01F8 0x021F none,
    CaseRange.mk 0x0220 0x0220 (some (-130)), CaseRange.mk 0x0222 0x0233 none,
    CaseRange.mk 0x023A 0x023A (some 10795), CaseRange.mk 0x023B 0x023B (some 1),
    CaseRange.mk 0x023D 0x023D (some (-163)), CaseRange.mk 0x023E 0x023E (some 10792),
    CaseRange.mk 0x0241 0x0241 (some 1), CaseRange.mk 0x0243 0x0243 (some (-195)),
    CaseRange.mk 0x0244 0x0244 (some 69), CaseRange.mk 0x0245 0x0245 (some 71),
    CaseRange.mk 0x0246 0x024F none, CaseRange.mk 0x0370 0x0373 none,
    CaseRange.mk 0x0376 0x0376 (some 1), CaseRange.mk 0x037F 0x037F (some 116),
    CaseRange.mk 0x0386 0x0386 (some 38), CaseRange.mk 0x0388 0x038A (some 37),
    CaseRange.mk 0x038C 0x038C (some 64), CaseRange.mk 0x038E 0x038F (some 63),
    CaseRange.mk 0x0391 0x03A1 (some 32), CaseRange.mk 0x03A3 0x03AB (some 32),
    CaseRange.mk 0x03CF 0x03CF (some 8), CaseRange.mk 0x03D8 0x03EF none,
    CaseRange.mk 0x03F4 0x03F4 (some (-60)), CaseRange.mk 0x03F7 0x03F7 (some 1),
    CaseRange.mk 0x03F9 0x03F9 (some (-7)), CaseRange.mk 0x03FA 0x03FA (some 1),
    CaseRange.mk 0x03FD 0x03FF (some (-130)), CaseRange.mk 0x0400 0x040F (some 80),
    CaseRange.mk 0x0410 0x042F (some 32), CaseRange.mk 0x0460 0x0481 none,
    CaseRange.mk 0x048A 0x04BF none, CaseRange.mk 0x04C0 0x04C0 (some 15),
    CaseRange.mk 0x04C1 0x04CE none, CaseRange.mk 0x04D0 0x052F none,
    CaseRange.mk 0x0531 0x0556 (some 48), CaseRange.mk 0x10A0 0x10C5 (some 7264),
    CaseRange.mk 0x10C7 0x10C7 (some 7264), CaseRange.mk 0x10CD 0x10CD (some 7264),
    CaseRange.mk 0x13A0 0x13EF (some 38864), CaseRange.mk 0x13F0 0x13F5 (some 8),
    CaseRange.mk 0x1C90 0x1CBA (some (-3008)), CaseRange.mk 0x1CBD 0x1CBF (some (-3008)),
    CaseRange.mk 0x1E00 0x1E95 none, CaseRange.mk 0x1E9E 0x1E9E (some (-7615)),
    CaseRange.mk 0x1EA0 0x1EFF none, CaseRange.mk 0x1F08 0x1F0F (some (-8)),
    CaseRange.mk 0x1F18 0x1F1D (some (-8)), CaseRange.mk 0x1F28 0x1F2F (some (-8)),
    CaseRange.mk 0x1F38 0x1F3F (some (-8)), CaseRange.mk 0x1F48 0x1F4D (some (-8)),
    CaseRange.mk 0x1F59 0x1F59 (some (-8)), CaseRange.mk 0x1F5B 0x1F5B (some (-8)),
    CaseRange.mk 0x1F5D 0x1F5D (some (-8)), CaseRange.mk 0x1F5F 0x1F5F (some (-8)),
    CaseRange.mk 0x1F68 0x1F6F (some (-8)), CaseRange.mk 0x1F88 0x1F8F (some (-8)),
    CaseRange.mk 0x1F98 0x1F9F (some (-8)), CaseRange.mk 0x1FA8 0x1FAF (some (-8)),
    CaseRange.mk 0x1FB8 0x1FB9 (some (-8)), CaseRange.mk 0x1FBA 0x1FBB (some (-74)),
    CaseRange.mk 0x1FBC 0x1FBC (some (-9)), CaseRange.mk 0x1FC8 0x1FCB (some (-86)),
    CaseRange.mk 0x1FCC 0x1FCC (some (-9)), CaseRange.mk 0x1FD8 0x1FD9 (some (-8)),
    CaseRange.mk 0x1FDA 0x1FDB (some (-100)), CaseRange.mk 0x1FE8 0x1FE9 (some (-8)),
    CaseRange.mk 0x1FEA 0x1FEB (some (-112)), CaseRange.mk 0x1FEC 0x1FEC (some (-7)),
    CaseRange.mk 0x1FF8 0x1FF9 (some (-128)), CaseRange.mk 0x1FFA 0x1FFB (some (-126)),
    CaseRange.mk 0x1FFC 0x1FFC (some (-9)), CaseRange.mk 0x2126 0x2126 (some (-7517)),
    CaseRange.mk 0x212A 0x212A (some (-8383)), CaseRange.mk 0x212B 0x212B (some (-8262)),
    CaseRange.mk 0x2132 0x2132 (some 28), CaseRange.mk 0x2160 0x216F (some 16),
    CaseRange.mk 0x2183 0x2183 (some 1), CaseRange.mk 0x24B6 0x24CF (some 26),
    CaseRange.mk 0x2C00 0x2C2F (some 48), CaseRange.mk 0x2C60 0x2C60 (some 1),
    CaseRange.mk 0x2C62 0x2C62 (some (-10743)), CaseRange.mk 0x2C63 0x2C63 (some (-3814)),
    CaseRange.mk 0x2C64 0x2C64 (some (-10727)), CaseRange.mk 0x2C67 0x2C6C none,
    CaseRange.mk 0x2C6D 0x2C6D (some (-10780)), CaseRange.mk 0x2C6E 0x2C6E (some (-10749)),
    CaseRange.mk 0x2C6F 0x2C6F (some (-10783)), CaseRange.mk 0x2C70 0x2C70 (some (-10782)),
    CaseRange.mk 0x2C72 0x2C72 (some 1), CaseRange.mk 0x2C75 0x2C75 (some 1),
    CaseRange.mk 0x2C7E 0x2C7F (some (-10815)), CaseRange.mk 0x2C80 0x2CE3 none,
    CaseRange.mk 0x2CEB 0x2CEE none, CaseRange.mk 0x2CF2 0x2CF2 (some 1),
    CaseRange.mk 0xA640 0xA66D none, CaseRange.mk 0xA680 0xA69B none,
    CaseRange.mk 0xA722 0xA72F none, CaseRange.mk 0xA732 0xA76F none,
    CaseRange.mk 0xA779 0xA77C none, CaseRange.mk 0xA77D 0xA77D (some (-35332)),
    CaseRange.mk 0xA77E 0xA787 none, CaseRange.mk 0xA78B 0xA78B (some 1),
    CaseRange.mk 0xA78D 0xA78D (some (-42280)), CaseRange.mk 0xA790 0xA793 none,
    CaseRange.mk 0xA796 0xA7A9 none, CaseRange.mk 0xA7AA 0xA7AA (some (-42308)),
    CaseRange.mk 0xA7AB 0xA7AB (some (-42319)), CaseRange.mk 0xA7AC 0xA7AC (some (-42315)),
    CaseRange.mk 0xA7AD 0xA7AD (some (-42305)), CaseRange.mk 0xA7AE 0xA7AE (some (-42308)),
    CaseRange.mk 0xA7B0 0xA7B0 (some (-42258)), CaseRange.mk 0xA7B1 0xA7B1 (some (-42282)),
    CaseRange.mk 0xA7B2 0xA7B2 (some (-42261)), CaseRange.mk 0xA7B3 0xA7B3 (some 928),
    CaseRange.mk 0xA7B4 0xA7C3 none, CaseRange.mk 0xA7C4 0xA7C4 (some (-48)),
    CaseRange.mk 0xA7C5 0xA7C5 (some (-42307)), CaseRange.mk 0xA7C6 0xA7C6 (some (-35384)),
    CaseRange.mk 0xA7C7 0xA7CA none, CaseRange.mk 0xA7D0 0xA7D0 (some 1),
    CaseRange.mk 0xA7D6 0xA7D9 none, CaseRange.mk 0xA7F5 0xA7F5 (some 1),
    CaseRange.mk 0xFF21 0xFF3A (some 32), CaseRange.mk 0x10400 0x10427 (some 40),
    CaseRange.mk 0x104B0 0x104D3 (some 40), CaseRange.mk 0x10570 0x1057A (some 39),
    CaseRange.mk 0x1057C 0x1058A (some 39), CaseRange.mk 0x1058C 0x10592 (some 39),
    CaseRange.mk 0x10594 0x10595 (some 39), CaseRange.mk 0x10C80 0x10CB2 (some 64),
    CaseRange.mk 0x118A0 0x118BF (some 32), CaseRange.mk 0x16E40 0x16E5F (some 32),
    CaseRange.mk 0x1E900 0x1E921 (some 34)]

/-- Model of `unicode.ToLower`: the ASCII letters are handled first, every other character
goes through the table. -/
def toLowerRune (c : Char) : Char :=
  if c.toNat ≤ 127 then
    if 65 ≤ c.toNat ∧ c.toNat ≤ 90 then Char.ofNat (c.toNat + 32) else c
  else Char.ofNat (toLowerIn caseRanges c.toNat)

/-- Model of `strings.ToLower`: `unicode.ToLower` applied to every character. -/
def toLower (s : String) : String := ⟨s.data.map toLowerRune⟩

/-! ## Standard library: decimal and hexadecimal output -/

/-- The digit table `"0123456789abcdef"` used by `net/netip` and `strconv`. -/
def digitChar (n : Nat) : Char :=
  if n < 10 then Char.ofNat (48 + n) else Char.ofNat (87 + n)

/-- Decimal digits of `n`, most significant first; the first argument bounds the recursion. -/
def decDigits : Nat → Nat → List Char
  | 0, _ => []
  | f + 1, n => if n < 10 then [digitChar n] else decDigits f (n / 10) ++ [digitChar (n % 10)]

/-- Model of `uitoa` / `strconv.Itoa` on a non-negative number. -/
def uitoa (n : Nat) : List Char := decDigits (n + 1) n

/-- Model of the verb `%d` of `fmt.Sprintf` on an `int`. -/
def fmtInt (i : Int) : List Char :=
  if i < 0 then '-' :: uitoa i.natAbs else uitoa i.toNat

/-- Model of `appendDecimal` of `net/netip` (one octet). -/
def appendDecimal (x : Nat) : List Char :=
  (if x ≥ 100 then [digitChar (x / 100)] else [])
    ++ (if x ≥ 10 then [digitChar (x / 10 % 10)] else [])
    ++ [digitChar (x % 10)]

/-- Model of `appendHex` of `net/netip` (one 16-bit group, no leading zeros). -/
def appendHex (x : Nat) : List Char :=
  (if x ≥ 0x1000 then [digitChar (x / 4096)] else [])
    ++ (if x ≥ 0x100 then [digitChar (x / 256 % 16)] else [])
    ++ (if x ≥ 0x10 then [digitChar (x / 16 % 16)] else [])
    ++ [digitChar (x % 16)]

/-! ## Standard library: `net` / `net/netip` parsing -/

/-- Value of a decimal digit character. -/
def decVal (c : Char) : Option Nat :=
  if 48 ≤ c.toNat ∧ c.toNat ≤ 57 then some (c.toNat - 48) else none

/-- Value of a hexadecimal digit character (`0-9`, `a-f`, `A-F`). -/
def hexVal (c : Char) : Option Nat :=
  if 48 ≤ c.toNat ∧ c.toNat ≤ 57 then some (c.toNat - 48)
  else if 97 ≤ c.toNat ∧ c.toNat ≤ 102 then some (c.toNat - 87)
  else if 65 ≤ c.toNat ∧ c.toNat ≤ 70 then some (c.toNat - 55)
  else none

/-- Model of `parseIPv4Fields` of `net/netip`: arguments are the remaining input, the value
and the digit count of the octet being read, and the octets already stored. -/
def parseIPv4Fields : List Char → Nat → Nat → List Nat → Option (List Nat)
  | [], val, _, fields => if fields.length < 3 then none else some (fields ++ [val])
  | c :: rest, val, digLen, fields =>
    match decVal c with
    | some v =>
      if digLen = 1 ∧ val = 0 then none
      else if val * 10 + v > 255 then none
      else parseIPv4Fields rest (val * 10 + v) (digLen + 1) fields
    | none =>
      if c = '.' then
        if digLen = 0 ∨ rest = [] then none
        else if fields.length = 3 then none
        else parseIPv4Fields rest 0 0 (fields ++ [val])
      else none

/-- The hex-number scan at the head of one iteration of `parseIPv6`: returns the number of
digits read, their value and the rest of the input. -/
def scanHex : List Char → Nat → Nat → Option (Nat × Nat × List Char)
  | [], off, acc => some (off, acc, [])
  | c :: s, off, acc =>
    match hexVal c with
    | none => some (off, acc, c :: s)
    | some v =>
      if off > 3 then none
      else if acc * 16 + v > 65535 then none
      else scanHex s (off + 1) (acc * 16 + v)

/-- The main loop of `parseIPv6`. The loop runs while `i < 16` and every iteration that
continues advances `i` by 2, so the first argument (the number of iterations left) starts
at 8. `ip` holds the `i` bytes written so far, `ell` the position of the ellipsis.
The result is the state on leaving the loop. -/
def parseIPv6Loop : Nat → List Nat → Option Nat → List Char →
    Option (List Nat × Option Nat × List Char)
  | 0, ip, ell, s => some (ip, ell, s)
  | k + 1, ip, ell, s =>
    match scanHex s 0 0 with
    | none => none
    | some (off, acc, rest) =>
      if off = 0 then none
      else if rest.head? = some '.' then
        if ell = none ∧ ip.length ≠ 12 then none
        else if ip.length + 4 > 16 then none
        else
          match parseIPv4Fields s 0 0 [] with
          | none => none
          | some f => some (ip ++ f, ell, [])
      else
        match rest with
        | [] => some (ip ++ [acc / 256, acc % 256], ell, [])
        | c :: rest1 =>
          if c ≠ ':' then none
          else
            match rest1 with
            | [] => none
            | d :: rest2 =>
              if d = ':' then
                if ell.isSome then none
                else if rest2 = [] then
                  some (ip ++ [acc / 256, acc % 256], some (ip.length + 2), [])
                else parseIPv6Loop k (ip ++ [acc / 256, acc % 256]) (some (ip.length + 2)) rest2
              else parseIPv6Loop k (ip ++ [acc / 256, acc % 256]) ell (d :: rest2)

/-- What `parseIPv6` does after its loop: the whole input must be used, and an ellipsis is
expanded to the missing zero bytes. -/
def finishIPv6 : List Nat × Option Nat × List Char → Option (List Nat)
  | (ip, ell, s) =>
    if s ≠ [] then none
    else if ip.length < 16 then
      match ell with
      | none => none
      | some e => some (ip.take e ++ List.replicate (16 - ip.length) 0 ++ ip.drop e)
    else
      match ell with
      | some _ => none
      | none => some ip

/-- Model of `parseIPv6` of `net/netip`, as used by `net.ParseIP` and `net.ParseCIDR`.
Both callers reject an address with a zone and `parseIPv6` rejects an empty zone, so an
input containing `%` never yields an address. -/
def parseIPv6 (s : List Char) : Option (List Nat) :=
  if '%' ∈ s then none
  else if s.take 2 = [':', ':'] then
    if s.drop 2 = [] then some (List.replicate 16 0)
    else (parseIPv6Loop 8 [] (some 0) (s.drop 2)).bind finishIPv6
  else (parseIPv6Loop 8 [] none s).bind finishIPv6

/-- A `netip.Addr` without zone: four bytes, or sixteen. -/
inductive Addr where
  | v4 (b : List Nat)
  | v6 (b : List Nat)
deriving DecidableEq

/-- Model of `netip.ParseAddr` (restricted to zone-free results): the first of `.`, `:`
and `%` in the input selects the parser. -/
def ParseAddr (s : List Char) : Option Addr :=
  match s.find? (fun c => c = '.' || c = ':' || c = '%') with
  | some c =>
    if c = '.' then (parseIPv4Fields s 0 0 []).map Addr.v4
    else if c = ':' then (parseIPv6 s).map Addr.v6
    else none
  | none => none

/-- The 12-byte prefix of an IPv4-mapped IPv6 address. -/
def v4InV6Prefix : List Nat := [0, 0, 0, 0, 0, 0, 0, 0, 0, 0, 0xff, 0xff]

/-- Model of `Addr.As16`. -/
def Addr.As16 : Addr → List Nat
  | .v4 b => v4InV6Prefix ++ b
  | .v6 b => b

/-- Model of `Addr.BitLen`. -/
def Addr.BitLen : Addr → Nat
  | .v4 _ => 32
  | .v6 _ => 128

/-- A `net.IP`: a byte slice of length 4 or 16. -/
abbrev IP := List Nat

/-- Model of `net.ParseIP`: `none` is Go's `nil`. -/
def ParseIP (s : String) : Option IP := (ParseAddr s.data).map Addr.As16

/-- Model of `IP.To4`. -/
def To4 (ip : IP) : Option IP :=
  if ip.length = 4 then some ip
  else if ip.length = 16 ∧ ip.take 12 = v4InV6Prefix then some (ip.drop 12)
  else none

/-- The pieces joined with one separator character between neighbours. -/
def joinWith (sep : Char) : List (List Char) → List Char
  | [] => []
  | [x] => x
  | x :: y :: t => x ++ sep :: joinWith sep (y :: t)

/-- Dotted-decimal text of four bytes (`Addr.string4`). -/
def string4 (b : List Nat) : List Char :=
  joinWith '.' (b.map appendDecimal)

/-- The 16-bit groups of a byte slice (`v6u16`). -/
def groups : List Nat → List Nat
  | hi :: lo :: t => (hi * 256 + lo) :: groups t
  | _ => []

/-- Length of the run of zero groups at the head of a list. -/
def zeroRunLen : List Nat → Nat
  | [] => 0
  | g :: t => if g = 0 then zeroRunLen t + 1 else 0

/-- First loop of `appendTo6`: with `i` the index of the head of the list, keep the first
longest run of at least two zero groups as `(zeroStart, zeroEnd)`. -/
def findZeroRun : List Nat → Nat → Nat × Nat → Nat × Nat
  | [], _, best => best
  | g :: t, i, best =>
    findZeroRun t (i + 1)
      (if zeroRunLen (g :: t) ≥ 2 ∧ zeroRunLen (g :: t) > best.2 - best.1
        then (i, i + zeroRunLen (g :: t)) else best)

/-- Text of the eight groups of an IPv6 address (`appendTo6`): groups joined by `:`, the
selected zero run replaced by `::`. -/
def string6 (gs : List Nat) : List Char :=
  let z := findZeroRun gs 0 (255, 255)
  if z.1 < 8 then
    joinWith ':' ((gs.take z.1).map appendHex) ++ [':', ':']
      ++ joinWith ':' ((gs.drop z.2).map appendHex)
  else joinWith ':' (gs.map appendHex)

/-- Character-list core of `IP.String` for a slice of length 4 or 16 (an IPv4-mapped
address is printed in dotted-decimal form). -/
def ipStringL (ip : IP) : List Char :=
  match To4 ip with
  | some p4 => string4 p4
  | none => string6 (groups ip)

/-- Model of `IP.String` on the slices that `ParseIP` and `IP.Mask` produce. -/
def ipString (ip : IP) : String := ⟨ipStringL ip⟩

/-- Model of `net.CIDRMask` for `ones ≤ bits`: the first argument is the number of bytes. -/
def CIDRMask : Nat → Nat → List Nat
  | 0, _ => []
  | l + 1, n => if n ≥ 8 then 0xff :: CIDRMask l (n - 8) else (255 - 255 / 2 ^ n) :: CIDRMask l 0

/-- Model of `IP.Mask` for a slice and a mask of equal length. -/
def maskIP (ip mask : List Nat) : List Nat := List.zipWith Nat.land ip mask

/-- Number of leading one bits of a byte (inner loop of `simpleMaskLength`), and whether
the remaining bits are zero. -/
def leadingOnes : Nat → Nat → Nat × Nat
  | 0, v => (0, v)
  | f + 1, v => if v / 128 % 2 = 1 then
      ((leadingOnes f (v * 2 % 256)).1 + 1, (leadingOnes f (v * 2 % 256)).2) else (0, v)

/-- Model of `simpleMaskLength`: `none` is Go's `-1`. -/
def simpleMaskLength : List Nat → Option Nat
  | [] => some 0
  | v :: t =>
    if v = 0xff then (simpleMaskLength t).map (· + 8)
    else if (leadingOnes 8 v).2 ≠ 0 then none
    else if t.all (· = 0) then some (leadingOnes 8 v).1 else none

/-- A `net.IPNet`. -/
structure IPNet where
  IP : List Nat
  Mask : List Nat
deriving DecidableEq

/-- Model of `dtoi` followed by the check that the whole text was consumed: the value of
a non-empty all-digit text below `0xFFFFFF`. -/
def dtoiAll : List Char → Nat → Nat → Option Nat
  | [], n, i => if i = 0 then none else some n
  | c :: s, n, i =>
    match decVal c with
    | none => none
    | some v => if n * 10 + v ≥ 0xFFFFFF then none else dtoiAll s (n * 10 + v) (i + 1)

/-- Model of `net.ParseCIDR`, second result (the network). -/
def ParseCIDR (s : String) : Option IPNet :=
  if '/' ∈ s.data then
    match ParseAddr (s.data.takeWhile (· ≠ '/')) with
    | none => none
    | some a =>
      match dtoiAll ((s.data.dropWhile (· ≠ '/')).drop 1) 0 0 with
      | none => none
      | some n =>
        if n > a.BitLen then none
        else
          match a with
          | .v4 b => some ⟨maskIP b (CIDRMask 4 n), CIDRMask 4 n⟩
          | .v6 b => some ⟨maskIP b (CIDRMask 16 n), CIDRMask 16 n⟩
  else none

/-- Model of `networkNumberAndMask`. -/
def networkNumberAndMask (n : IPNet) : Option (List Nat × List Nat) :=
  match To4 n.IP with
  | some ip =>
    if n.Mask.length = 4 then some (ip, n.Mask)
    else if n.Mask.length = 16 then some (ip, n.Mask.drop 12)
    else none
  | none =>
    if n.IP.length ≠ 16 then none
    else if n.Mask.length = 16 then some (n.IP, n.Mask)
    else none

/-- Text of a mask that is not a prefix mask (`IPMask.String`, plain hexadecimal). -/
def maskHex (m : List Nat) : List Char :=
  m.flatMap fun b => [digitChar (b / 16), digitChar (b % 16)]

/-- Model of `IPNet.String`. -/
def IPNet.String (n : IPNet) : String :=
  match networkNumberAndMask n with
  | none => "<nil>"
  | some (nn, m) =>
    match simpleMaskLength m with
    | none => ⟨ipStringL nn ++ '/' :: maskHex m⟩
    | some l => ⟨ipStringL nn ++ '/' :: uitoa l⟩

/-! ## `route.go` -/

/-- The struct `Route`. The Go field `Type` is spelled `Type_` here. -/
structure Route where
  Dst : String
  Gateway : String
  Device : String
  Table : Int
  Metric : Int
  Src : String
  Scope : String
  Type_ : String
  Proto : String
deriving DecidableEq

/-- The errors `Route.Normalize` returns, one per `fmt.Errorf` in its body. -/
inductive NormError where
  | dstRequired
  | invalidDst
  | invalidGateway
  | invalidSrc
  | tableNegative
  | metricNegative
deriving DecidableEq

/-- Canonical destination: `route.go` lines 43-53. -/
def normDst (dst : String) : Except NormError String :=
  let d := toLower (trimSpace dst)
  if d = "" then .error .dstRequired
  else if d ≠ "default" then
    match ParseCIDR d with
    | none => .error .invalidDst
    | some ipNet => .ok ipNet.String
  else .ok d

/-- Canonical optional address (gateway, src): `route.go` lines 55-69. -/
def normAddr (a : String) (e : NormError) : Except NormError String :=
  let g := trimSpace a
  if g ≠ "" then
    match ParseIP g with
    | none => .error e
    | some ip => .ok (ipString ip)
  else .ok g

/-- The method `Route.Normalize`. -/
def Route.Normalize (r : Route) : Except NormError Route :=
  match normDst r.Dst with
  | .error e => .error e
  | .ok dst =>
    match normAddr r.Gateway .invalidGateway with
    | .error e => .error e
    | .ok gw =>
      match normAddr r.Src .invalidSrc with
      | .error e => .error e
      | .ok src =>
        if r.Table < 0 then .error .tableNegative
        else if r.Metric < 0 then .error .metricNegative
        else .ok
          { Dst := dst, Gateway := gw, Device := trimSpace r.Device, Table := r.Table,
            Metric := r.Metric, Src := src, Scope := toLower (trimSpace r.Scope),
            Type_ := toLower (trimSpace r.Type_), Proto := toLower (trimSpace r.Proto) }

/-- The `fmt.Sprintf` call of `Route.Key`, applied to an already normalized route. -/
def formatKey (n : Route) : String :=
  ⟨"dst=".data ++ n.Dst.data ++ "|gw=".data ++ n.Gateway.data ++ "|dev=".data ++ n.Device.data
    ++ "|table=".data ++ fmtInt n.Table ++ "|metric=".data ++ fmtInt n.Metric
    ++ "|src=".data ++ n.Src.data ++ "|scope=".data ++ n.Scope.data
    ++ "|type=".data ++ n.Type_.data ++ "|proto=".data ++ n.Proto.data⟩

/-- The method `Route.Key`. -/
def Route.Key (r : Route) : Except NormError String :=
  match r.Normalize with
  | .error e => .error e
  | .ok n => .ok (formatKey n)

/-- Equality of two `(T, error)` results is decidable when it is for `T` and the errors. -/
instance instDecidableEqExcept {ε α : Type} [DecidableEq ε] [DecidableEq α] :
    DecidableEq (Except ε α)
  | .ok a, .ok b => if h : a = b then isTrue (by rw [h]) else isFalse (by intro h2; cases h2; exact h rfl)
  | .error a, .error b =>
    if h : a = b then isTrue (by rw [h]) else isFalse (by intro h2; cases h2; exact h rfl)
  | .ok _, .error _ => isFalse (by intro h; cases h)
  | .error _, .ok _ => isFalse (by intro h; cases h)

/-! ## Go maps, string comparison and `sort.Slice` -/

/-- Go's `<` on strings, on character lists: lexicographic (bytewise in Go, which on
valid UTF-8 text is the order of the code points). -/
def lessL : List Char → List Char → Bool
  | _, [] => false
  | [], _ :: _ => true
  | a :: s, b :: t => decide (a.toNat < b.toNat) || (decide (a = b) && lessL s t)

/-- Go's `<` on strings. -/
def strLess (a b : String) : Bool := lessL a.data b.data

/-- The pattern `k, _ := r.Key()`: the error is dropped, and on error the string is `""`. -/
def keyOf (r : Route) : String :=
  match r.Key with
  | .ok k => k
  | .error _ => ""

/-- The ordering `sort.Slice` is called with, read as "may stay in front of": `a` may
precede `b` unless the `less` closure `ki < kj` puts `b` strictly before `a`. -/
def keyLE (a b : Route) : Prop := strLess (keyOf b) (keyOf a) = false

instance instDecidableRelKeyLE : DecidableRel keyLE := fun a b =>
  inferInstanceAs (Decidable (strLess (keyOf b) (keyOf a) = false))

/-- The closure `sortRoutes` of `diff.go` (also the `sort.Slice` call of `Reconcile`):
the list ordered by key, ascending. `sort.Slice` is modelled by insertion sort; on lists
whose keys are pairwise distinct every sorting algorithm returns the same list. -/
def sortRoutes (rr : List Route) : List Route := rr.insertionSort keyLE

/-- A `map[string]Route`: its entries, with pairwise distinct keys. The order of the list
stands for one possible iteration order. -/
abbrev RouteMap := List (String × Route)

/-- The assignment `m[k] = v`. -/
def mapSet : RouteMap → String → Route → RouteMap
  | [], k, v => [(k, v)]
  | (k', v') :: t, k, v => if k' = k then (k, v) :: t else (k', v') :: mapSet t k v

/-- The test `_, ok := m[k]`. -/
def mapHas (m : RouteMap) (k : String) : Bool := m.any (fun kv => decide (kv.1 = k))

/-- The statement `delete(m, k)`. -/
def mapDelete (m : RouteMap) (k : String) : RouteMap := m.filter (fun kv => decide (kv.1 ≠ k))

/-- The values met by `for _, v := range m`. -/
def mapValues (m : RouteMap) : List Route := m.map (·.2)

/-! ## `diff.go` -/

/-- The struct `DiffResult`. -/
structure DiffResult where
  ToAdd : List Route
  ToDel : List Route
  Unchanged : List Route
deriving DecidableEq

/-- The errors of `DiffRoutes`: the offending index and the validation error. -/
inductive DiffError where
  | oldRoutes (i : Nat) (e : NormError)
  | desiredRoutes (i : Nat) (e : NormError)
deriving DecidableEq

/-- One of the two loops of `DiffRoutes` that fill a map: `i` is the index of the head of
the list, `m` the map so far. On failure the index and the error are returned. -/
def buildMap : List Route → Nat → RouteMap → Except (Nat × NormError) RouteMap
  | [], _, m => .ok m
  | r :: rs, i, m =>
    match r.Normalize with
    | .error e => .error (i, e)
    | .ok n => buildMap rs (i + 1) (mapSet m (keyOf n) n)

/-- The part of `DiffRoutes` after the two maps are built: the two `range` loops, run in
the order of the entry lists, and the three sorts. -/
def diffMaps (oldMap newMap : RouteMap) : DiffResult :=
  { Unchanged := sortRoutes (mapValues (oldMap.filter fun kv => mapHas newMap kv.1))
    ToDel := sortRoutes (mapValues (oldMap.filter fun kv => !mapHas newMap kv.1))
    ToAdd := sortRoutes (mapValues (newMap.filter fun kv => !mapHas oldMap kv.1)) }

/-- The function `DiffRoutes`. -/
def DiffRoutes (oldRoutes desiredRoutes : List Route) : Except DiffError DiffResult :=
  match buildMap oldRoutes 0 [] with
  | .error (i, e) => .error (.oldRoutes i e)
  | .ok oldMap =>
    match buildMap desiredRoutes 0 [] with
    | .error (i, e) => .error (.desiredRoutes i e)
    | .ok newMap => .ok (diffMaps oldMap newMap)

/-! ## `manager.go`, `store.go`, `memory_store.go` -/

/-- The interface `RouteManager` (the two methods `Reconcile` calls): an implementation
with state `σ` whose calls return the new state and Go's `error` (`none` is `nil`). The
context argument is part of what the implementation may look at through its state. -/
structure RouteManager (σ E : Type) where
  Add : σ → Route → σ × Option E
  Delete : σ → Route → σ × Option E

/-- The interface `RouteStore`, an implementation with state `τ`. -/
structure RouteStore (τ E : Type) where
  Load : τ → τ × Except E (List Route)
  Save : τ → List Route → τ × Option E

/-- The type `MemoryStore`: its state is the field `routes`; `Load` returns a copy of it,
`Save` replaces it by a copy of its argument, and neither fails. -/
def MemoryStore (E : Type) : RouteStore (List Route) E :=
  { Load := fun routes => (routes, .ok routes)
    Save := fun _ routes => (routes, none) }

/-! ## `controller.go` -/

/-- The struct `Controller`; `none` is a `nil` interface value. -/
structure Controller (σ τ E : Type) where
  Manager : Option (RouteManager σ E)
  Store : Option (RouteStore τ E)

/-- The struct `ReconcileResult`. -/
structure ReconcileResult where
  Diff : DiffResult
deriving DecidableEq

/-- A call `Reconcile` makes on a collaborator, with what it returned (`ok` is a `nil`
error). The list of calls is the observable behaviour of one run. -/
inductive Call where
  | load (ok : Bool)
  | delete (r : Route) (ok : Bool)
  | add (r : Route) (ok : Bool)
  | save (routes : List Route) (ok : Bool)
deriving DecidableEq

/-- One entry of `applyErrs`. -/
inductive ApplyError (E : Type) where
  | delete (r : Route) (e : E)
  | add (r : Route) (e : E)
  | save (e : E)

/-- The error `Reconcile` returns. -/
inductive ReconcileError (E : Type) where
  | managerNil
  | storeNil
  | load (e : E)
  | diff (e : DiffError)
  | joined (errs : List (ApplyError E))

/-- Model of `errors.Join`: `nil` when there is no error to join. -/
def joinErrors {E : Type} (errs : List (ApplyError E)) : Option (ReconcileError E) :=
  if errs.isEmpty then none else some (.joined errs)

/-- The state of everything outside `Reconcile`: the two collaborators and the calls made
on them so far. -/
structure World (σ τ : Type) where
  mgr : σ
  store : τ
  calls : List Call

/-- The state of the two apply loops of `Reconcile`: the manager, the map `applied`, the
slice `applyErrs` and the calls made so far. -/
structure ApplyState (σ E : Type) where
  mgr : σ
  applied : RouteMap
  applyErrs : List (ApplyError E)
  calls : List Call

/-- The loop `for _, r := range diff.ToDel` of `Reconcile`. -/
def deleteLoop {σ E : Type} (m : RouteManager σ E) : List Route → ApplyState σ E → ApplyState σ E
  | [], st => st
  | r :: rs, st =>
    match m.Delete st.mgr r with
    | (s, some e) =>
      deleteLoop m rs
        { mgr := s, applied := st.applied, applyErrs := st.applyErrs ++ [.delete r e],
          calls := st.calls ++ [.delete r false] }
    | (s, none) =>
      deleteLoop m rs
        { mgr := s, applied := mapDelete st.applied (keyOf r), applyErrs := st.applyErrs,
          calls := st.calls ++ [.delete r true] }

/-- The loop `for _, r := range diff.ToAdd` of `Reconcile`. -/
def addLoop {σ E : Type} (m : RouteManager σ E) : List Route → ApplyState σ E → ApplyState σ E
  | [], st => st
  | r :: rs, st =>
    match m.Add st.mgr r with
    | (s, some e) =>
      addLoop m rs
        { mgr := s, applied := st.applied, applyErrs := st.applyErrs ++ [.add r e],
          calls := st.calls ++ [.add r false] }
    | (s, none) =>
      addLoop m rs
        { mgr := s, applied := mapSet st.applied (keyOf r) r, applyErrs := st.applyErrs,
          calls := st.calls ++ [.add r true] }

/-- The two loops of `Reconcile` that seed the map `applied` from `Unchanged` and `ToDel`. -/
def seedApplied (rs : List Route) (m : RouteMap) : RouteMap :=
  rs.foldl (fun acc r => mapSet acc (keyOf r) r) m

/-- `Reconcile` from the computed diff on: seed, delete, add, sort, save, join. -/
def applyDiff {σ τ E : Type} (m : RouteManager σ E) (st : RouteStore τ E) (w : World σ τ)
    (diff : DiffResult) : (ReconcileResult × Option (ReconcileError E)) × World σ τ :=
  let applied := seedApplied diff.ToDel (seedApplied diff.Unchanged [])
  let s1 := deleteLoop m diff.ToDel
    { mgr := w.mgr, applied := applied, applyErrs := [], calls := w.calls }
  let s2 := addLoop m diff.ToAdd s1
  let appliedRoutes := sortRoutes (mapValues s2.applied)
  match st.Save w.store appliedRoutes with
  | (t, some e) =>
    (({ Diff := diff }, joinErrors (s2.applyErrs ++ [.save e])),
      { mgr := s2.mgr, store := t, calls := s2.calls ++ [.save appliedRoutes false] })
  | (t, none) =>
    (({ Diff := diff }, joinErrors s2.applyErrs),
      { mgr := s2.mgr, store := t, calls := s2.calls ++ [.save appliedRoutes true] })

/-- The zero value of `ReconcileResult`, returned with every early error. -/
def emptyResult : ReconcileResult := { Diff := { ToAdd := [], ToDel := [], Unchanged := [] } }

/-- The method `Controller.Reconcile`: the result, the returned error (`none` is `nil`)
and the world after the run. -/
def Controller.Reconcile {σ τ E : Type} (c : Controller σ τ E) (w : World σ τ)
    (desiredRoutes : List Route) : (ReconcileResult × Option (ReconcileError E)) × World σ τ :=
  match c.Manager with
  | none => ((emptyResult, some .managerNil), w)
  | some m =>
    match c.Store with
    | none => ((emptyResult, some .storeNil), w)
    | some st =>
      match st.Load w.store with
      | (t, .error e) =>
        ((emptyResult, some (.load e)), { w with store := t, calls := w.calls ++ [.load false] })
      | (t, .ok oldRoutes) =>
        match DiffRoutes oldRoutes desiredRoutes with
        | .error e =>
          ((emptyResult, some (.diff e)),
            { w with store := t, calls := w.calls ++ [.load true] })
        | .ok diff =>
          applyDiff m st { w with store := t, calls := w.calls ++ [.load true] } diff

/-! ## Notions used in the statements and proofs -/

/-- The characters that the address printers emit: decimal digits, `a`..`f`, `.` and `:`. -/
def plainChar (c : Char) : Bool :=
  (decide (48 ≤ c.toNat) && decide (c.toNat ≤ 58)) || (decide (97 ≤ c.toNat) && decide (c.toNat ≤ 102))
    || decide (c.toNat = 46)

/-- The bytes of a list of 16-bit groups, high byte first. -/
def bytesOf : List Nat → List Nat
  | [] => []
  | g :: t => g / 256 :: g % 256 :: bytesOf t

/-- The number a list of decimal digit characters stands for. -/
def decValue (l : List Char) : Nat := l.foldl (fun a c => a * 10 + (c.toNat - 48)) 0

/-- The nine fields of a `Route`. -/
inductive Field where
  | dst
  | gateway
  | device
  | table
  | metric
  | src
  | scope
  | type_
  | proto
deriving DecidableEq

/-- Two routes have the same value in the given field. -/
def agreeOn (f : Field) (a b : Route) : Prop :=
  match f with
  | .dst => a.Dst = b.Dst
  | .gateway => a.Gateway = b.Gateway
  | .device => a.Device = b.Device
  | .table => a.Table = b.Table
  | .metric => a.Metric = b.Metric
  | .src => a.Src = b.Src
  | .scope => a.Scope = b.Scope
  | .type_ => a.Type_ = b.Type_
  | .proto => a.Proto = b.Proto

/-- Two routes differ in the given field and in no other. -/
def differOnlyIn (f : Field) (a b : Route) : Prop :=
  ¬ agreeOn f a b ∧ ∀ g, g ≠ f → agreeOn g a b

/-- The image of the first range lies outside the second, or both are the same alternating
run, where the image sits at the odd offsets. -/
def CaseRange.settles (cr cr2 : CaseRange) : Bool :=
  decide (cr.lower cr.Hi < cr2.Lo) || decide (cr2.Hi < cr.lower cr.Lo)
    || (cr.Delta.isNone && cr2.Delta.isNone && decide (cr2.Lo = cr.Lo))

/-- Every image of a range of the list is left alone by every range of the list. -/
def settled (L : List CaseRange) : Bool := L.all fun cr => L.all fun cr2 => cr.settles cr2

/-- The code points of white space outside the block `U+2000`..`U+200A`. -/
def spaceCodes : List Nat :=
  [9, 10, 11, 12, 13, 32, 0x85, 0xA0, 0x1680, 0x2028, 0x2029, 0x202F, 0x205F, 0x3000]

/-- The image of the range holds code points only, and neither the range nor its image
holds white space. -/
def CaseRange.clean (cr : CaseRange) : Bool :=
  (decide (cr.lower cr.Hi < 0xD800)
      || (decide (0xE000 ≤ cr.lower cr.Lo) && decide (cr.lower cr.Hi < 0x110000)))
    && (decide (0x200A < cr.Lo) || decide (cr.Hi < 0x2000))
    && (decide (0x200A < cr.lower cr.Lo) || decide (cr.lower cr.Hi < 0x2000))
    && spaceCodes.all fun s =>
      (decide (s < cr.Lo) || decide (cr.Hi < s))
        && (decide (s < cr.lower cr.Lo) || decide (cr.lower cr.Hi < s))

/-- The keys of a list of routes, in order. -/
def keysOf (rs : List Route) : List String := rs.map keyOf

/-- The normalized forms of the routes of a list that normalize, in order. -/
def normList (rs : List Route) : List Route :=
  rs.filterMap fun r =>
    match r.Normalize with
    | .ok n => some n
    | .error _ => none

/-- The route passes validation: `Normalize` returns no error. -/
def Normalizes (r : Route) : Prop := ∃ n, r.Normalize = .ok n

instance instDecidablePredNormalizes : DecidablePred Normalizes := fun r =>
  match h : r.Normalize with
  | .ok n => isTrue ⟨n, h⟩
  | .error _ => isFalse (by rintro ⟨n, hn⟩; rw [h] at hn; cases hn)

/-- The baseline of the scenario in the tests: a route written with host bits, and a
default route. -/
def sampleOld : List Route :=
  [Route.mk "10.0.0.1/24" "192.168.1.1" "eth0" 100 0 "" "" "" "",
    Route.mk "default" "10.0.0.1" "eth0" 0 0 "" "" "" ""]

/-- The desired set of the scenario in the tests. -/
def sampleDesired : List Route :=
  [Route.mk "10.0.0.0/24" "192.168.1.1" "eth0" 100 0 "" "" "" "",
    Route.mk "192.168.2.0/24" "10.0.0.2" "eth0" 0 0 "" "" "" ""]

/-- Strictly ascending key order. -/
def keyLT (a b : Route) : Prop := strLess (keyOf a) (keyOf b) = true

/-- The keys of a map, in the order of its entries. -/
def mapKeys (m : RouteMap) : List String := m.map (·.1)

/-- Every entry of the map is stored under the key of its route. -/
def Keyed (m : RouteMap) : Prop := ∀ kv ∈ m, kv.1 = keyOf kv.2

/-- The lookup `m[k]`. -/
def mapGet : RouteMap → String → Option Route
  | [], _ => none
  | (k', v) :: t, k => if k' = k then some v else mapGet t k

/-- The last route of a list that has the given key. -/
def lastWithKey (rs : List Route) (k : String) : Option Route :=
  rs.reverse.find? fun r => decide (keyOf r = k)

/-- The first result of `DiffRoutes`: the zero `DiffResult` when an error is returned. -/
def resultOf (x : Except DiffError DiffResult) : DiffResult :=
  match x with
  | .ok d => d
  | .error _ => { ToAdd := [], ToDel := [], Unchanged := [] }

/-- No two routes of the list with the same key have different normalized forms. -/
def NoClash (rs : List Route) : Prop :=
  ∀ a ∈ normList rs, ∀ b ∈ normList rs, keyOf a = keyOf b → a = b

instance instDecidablePredNoClash : DecidablePred NoClash := fun rs =>
  inferInstanceAs (Decidable (∀ a ∈ normList rs, ∀ b ∈ normList rs, keyOf a = keyOf b → a = b))

/-- A route whose scope contains the separator of the key format. -/
def clashA : Route := Route.mk "default" "" "" 0 0 "" "a|type=b" "" ""

/-- A route with another scope and type, and the same key as `clashA`. -/
def clashB : Route := Route.mk "default" "" "" 0 0 "" "a" "b|type=" ""

/-- The routes of the calls that returned no error, given each route with its outcome. -/
def okRoutes (res : List (Route × Bool)) : List Route := (res.filter (·.2)).map (·.1)

/-- The calls one run of `Reconcile` makes: those added to the record of the world. -/
def runCalls {σ τ E : Type} (c : Controller σ τ E) (w : World σ τ) (desiredRoutes : List Route) :
    List Call :=
  ((c.Reconcile w desiredRoutes).2.calls).drop w.calls.length

/-- The call is one on the Manager (`Delete` or `Add`). -/
def Call.isManager : Call → Bool
  | .delete _ _ => true
  | .add _ _ => true
  | _ => false

/-- A manager whose calls all succeed. -/
def okManager : RouteManager Unit String :=
  { Add := fun s _ => (s, none), Delete := fun s _ => (s, none) }

/-- A manager whose `Delete` succeeds and whose `Add` fails. -/
def addFailsManager : RouteManager Unit String :=
  { Add := fun s _ => (s, some "add failed"), Delete := fun s _ => (s, none) }

/-- A manager whose calls all fail. -/
def failManager : RouteManager Unit String :=
  { Add := fun s _ => (s, some "add failed"), Delete := fun s _ => (s, some "delete failed") }

/-- A controller on a `MemoryStore`. -/
def memController (m : RouteManager Unit String) : Controller Unit (List Route) String :=
  { Manager := some m, Store := some (MemoryStore String) }

/-- The diff of the scenario in the tests. -/
def sampleDiff : DiffResult :=
  { ToAdd := [Route.mk "192.168.2.0/24" "10.0.0.2" "eth0" 0 0 "" "" "" ""]
    ToDel := [Route.mk "default" "10.0.0.1" "eth0" 0 0 "" "" "" ""]
    Unchanged := [Route.mk "10.0.0.0/24" "192.168.1.1" "eth0" 100 0 "" "" "" ""] }

/-- A world whose store holds the given baseline and in which no call was made yet. -/
def memWorld (baseline : List Route) : World Unit (List Route) :=
  { mgr := (), store := baseline, calls := [] }

/-- The call returned no error. -/
def Call.ok : Call → Bool
  | .load b => b
  | .delete _ b => b
  | .add _ b => b
  | .save _ b => b

/-- The diff from the baseline of the tests, given in reverse order, to the empty set. -/
def sampleDrop : DiffResult :=
  { ToAdd := []
    ToDel := [Route.mk "10.0.0.0/24" "192.168.1.1" "eth0" 100 0 "" "" "" "",
      Route.mk "default" "10.0.0.1" "eth0" 0 0 "" "" "" ""]
    Unchanged := [] }

/-- The normalising loop of `FileStore.Save` in `store.go`: the slice `norm` that is
marshalled and written, or the index and the error of the first route that does not
normalize (reported as `routes[i]`). -/
def saveNorm : List Route → Nat → List Route → Except (Nat × NormError) (List Route)
  | [], _, norm => .ok norm
  | r :: rs, i, norm =>
    match r.Normalize with
    | .error e => .error (i, e)
    | .ok n => saveNorm rs (i + 1) (norm ++ [n])

/-- A route written with host bits in its destination. -/
def hostBitsRoute : Route := Route.mk "10.0.0.1/24" "" "" 0 0 "" "" "" ""

/-- The parsing half of `net.ParseCIDR`: the address before the `/` and the prefix length
after it, when both are well formed and the length fits the address family. -/
def cidrParts (s : String) : Option (Addr × Nat) :=
  if '/' ∈ s.data then
    match ParseAddr (s.data.takeWhile (· ≠ '/')) with
    | none => none
    | some a =>
      match dtoiAll ((s.data.dropWhile (· ≠ '/')).drop 1) 0 0 with
      | none => none
      | some n => if n > a.BitLen then none else some (a, n)
  else none

/-- The bytes of an address: four for IPv4, sixteen for IPv6. -/
def Addr.bytes : Addr → List Nat
  | .v4 b => b
  | .v6 b => b

/-- The number a byte slice denotes, most significant byte first. -/
def bytesToNat : List Nat → Nat
  | [] => 0
  | x :: t => x * 256 ^ t.length + bytesToNat t

/-- Route `r` is the normalized form of the element of `rs` that has the largest index among
the elements with key `k`. -/
def lastWins (rs : List Route) (k : String) (r : Route) : Prop :=
  ∃ (i : Nat) (x : Route), rs[i]? = some x ∧ x.Normalize = .ok r ∧ keyOf x = k
    ∧ ∀ (j : Nat) (y : Route), i < j → rs[j]? = some y → keyOf y ≠ k

/-- The digit loop of `strconv.Atoi` and `strconv.ParseUint` in base 10: the value of a
text of decimal digits, `none` at the first other character. -/
def atoiDigits : List Char → Nat → Option Nat
  | [], n => some n
  | c :: s, n =>
    match decVal c with
    | none => none
    | some v => atoiDigits s (n * 10 + v)

/-- Model of `strconv.Atoi` with a 64-bit `int`: an optional sign `+` or `-`, then at least
one decimal digit and nothing else; `none` is a non-nil error (syntax or range). The fast
path of `Atoi` and its fallback `ParseInt(s, 10, 0)` agree on every input. -/
def Atoi (s : String) : Option Int :=
  match s.data with
  | [] => none
  | c :: rest =>
    if (if c = '-' ∨ c = '+' then rest else c :: rest) = [] then none
    else
      match atoiDigits (if c = '-' ∨ c = '+' then rest else c :: rest) 0 with
      | none => none
      | some v =>
        if c = '-' then (if v ≤ 2 ^ 63 then some (-(v : Int)) else none)
        else if v < 2 ^ 63 then some (v : Int) else none

/-- The constant `unix.RTPROT_KERNEL`. -/
def RTPROT_KERNEL : Int := 2

/-- The constant `unix.RTPROT_BOOT`. -/
def RTPROT_BOOT : Int := 3

/-- The constant `unix.RTPROT_STATIC`. -/
def RTPROT_STATIC : Int := 4

/-- The constant `unix.RTPROT_DHCP`. -/
def RTPROT_DHCP : Int := 16

/-- The function `parseProtocol` of `ip_manager_linux.go`. -/
def parseProtocol (p : String) : Int × Bool :=
  let p := toLower (trimSpace p)
  if p = "" then (0, true)
  else
    match Atoi p with
    | some n => if n < 0 ∨ n > 255 then (0, false) else (n, true)
    | none =>
      if p = "kernel" then (RTPROT_KERNEL, true)
      else if p = "boot" then (RTPROT_BOOT, true)
      else if p = "static" then (RTPROT_STATIC, true)
      else if p = "dhcp" then (RTPROT_DHCP, true)
      else (0, false)

/-- The character is one of the decimal digits `0` to `9`. -/
def isDigit (c : Char) : Prop := 48 ≤ c.toNat ∧ c.toNat ≤ 57

instance instDecidablePredIsDigit : DecidablePred isDigit := fun c =>
  inferInstanceAs (Decidable (48 ≤ c.toNat ∧ c.toNat ≤ 57))

end LinuxRoute

/-! # Lemmas -/

namespace LinuxRoute

/-! ## Facts about the string model -/

theorem lessL_irrefl (a : List Char) : lessL a a = false := by
  induction a with
  | nil => rfl
  | cons c t ih => simp [lessL, ih]

theorem char_eq_of_toNat_eq {a b : Char} (h : a.toNat = b.toNat) : a = b := by
  apply Char.ext
  apply UInt32.ext
  exact h

theorem lessL_trans : ∀ (a b c : List Char), lessL a b = true → lessL b c = true →
    lessL a c = true
  | _, [], _, h, _ => by cases ‹List Char› <;> simp [lessL] at h
  | _, _ :: _, [], _, h => by simp [lessL] at h
  | [], _ :: _, _ :: _, _, _ => by simp [lessL]
  | x :: s, y :: t, z :: u, h1, h2 => by
    simp only [lessL, Bool.or_eq_true, Bool.and_eq_true, decide_eq_true_eq] at h1 h2 ⊢
    rcases h1 with h1 | ⟨rfl, h1⟩
    · rcases h2 with h2 | ⟨rfl, _⟩
      · left; omega
      · left; exact h1
    · rcases h2 with h2 | ⟨rfl, h2⟩
      · left; exact h2
      · right; exact ⟨rfl, lessL_trans s t u h1 h2⟩

theorem lessL_total : ∀ (a b : List Char), lessL a b = false → lessL b a = false → a = b
  | [], [], _, _ => rfl
  | [], _ :: _, h, _ => by simp [lessL] at h
  | _ :: _, [], _, h => by simp [lessL] at h
  | x :: s, y :: t, h1, h2 => by
    simp only [lessL, Bool.or_eq_false_iff, Bool.and_eq_false_iff, decide_eq_false_iff_not] at h1 h2
    have hxy : x = y := char_eq_of_toNat_eq (by omega)
    subst hxy
    have h1' : lessL s t = false := by simpa using h1.2
    have h2' : lessL t s = false := by simpa using h2.2
    rw [lessL_total s t h1' h2']

/-! ## The lower-case table -/

set_option maxRecDepth 1000000 in
theorem caseRanges_settled : settled caseRanges = true := by
  decide

set_option maxRecDepth 1000000 in
theorem caseRanges_clean : caseRanges.all CaseRange.clean = true := by
  decide

theorem toNat_ofNat_valid (n : Nat) (h : n < 0xD800 ∨ (0xE000 ≤ n ∧ n < 0x110000)) :
    (Char.ofNat n).toNat = n := by
  have hv : n.isValidChar := by
    rcases h with h | ⟨h1, h2⟩
    · exact Or.inl h
    · exact Or.inr ⟨by omega, h2⟩
  have hlt : n < 4294967296 := by
    rcases h with h | ⟨_, h2⟩ <;> omega
  simp only [Char.ofNat, hv, dite_true, Char.ofNatAux, Char.toNat, UInt32.toNat,
    BitVec.toNat_ofNatLt]

theorem char_eq_iff (c d : Char) (k : Nat) (hd : d.toNat = k) : c = d ↔ c.toNat = k := by
  constructor
  · rintro rfl
    exact hd
  · intro h
    exact char_eq_of_toNat_eq (by rw [h, hd])

/-- The code points of white space. -/
theorem isSpace_iff (c : Char) :
    isSpace c = true ↔ c.toNat ∈ spaceCodes ∨ (0x2000 ≤ c.toNat ∧ c.toNat ≤ 0x200A) := by
  simp only [isSpace, spaceCodes, Bool.or_eq_true, Bool.and_eq_true, decide_eq_true_eq,
    char_eq_iff c '\t' 9 (by decide), char_eq_iff c '\n' 10 (by decide),
    char_eq_iff c '\r' 13 (by decide), char_eq_iff c ' ' 32 (by decide),
    char_eq_iff c (Char.ofNat 0x0B) 11 (by decide), char_eq_iff c (Char.ofNat 0x0C) 12 (by decide),
    char_eq_iff c (Char.ofNat 0x85) 0x85 (by decide),
    char_eq_iff c (Char.ofNat 0xA0) 0xA0 (by decide),
    char_eq_iff c (Char.ofNat 0x1680) 0x1680 (by decide),
    char_eq_iff c (Char.ofNat 0x2028) 0x2028 (by decide),
    char_eq_iff c (Char.ofNat 0x2029) 0x2029 (by decide),
    char_eq_iff c (Char.ofNat 0x202F) 0x202F (by decide),
    char_eq_iff c (Char.ofNat 0x205F) 0x205F (by decide),
    char_eq_iff c (Char.ofNat 0x3000) 0x3000 (by decide), List.mem_cons, List.mem_singleton,
    List.not_mem_nil, or_false]
  tauto

theorem toLowerIn_cases : ∀ (L : List CaseRange) (r : Nat),
    ((∀ cr ∈ L, ¬ (cr.Lo ≤ r ∧ r ≤ cr.Hi)) ∧ toLowerIn L r = r)
      ∨ ∃ cr ∈ L, (cr.Lo ≤ r ∧ r ≤ cr.Hi) ∧ toLowerIn L r = cr.lower r
  | [], r => Or.inl ⟨by simp, rfl⟩
  | cr :: t, r => by
    by_cases h : cr.Lo ≤ r ∧ r ≤ cr.Hi
    · exact Or.inr ⟨cr, by simp, h, by simp only [toLowerIn, if_pos h]⟩
    · rcases toLowerIn_cases t r with ⟨h1, h2⟩ | ⟨cr2, hm, h1, h2⟩
      · refine Or.inl ⟨?_, by simp only [toLowerIn, if_neg h, h2]⟩
        intro x hx
        rcases List.mem_cons.1 hx with rfl | hx
        · exact h
        · exact h1 x hx
      · exact Or.inr ⟨cr2, by simp [hm], h1, by simp only [toLowerIn, if_neg h, h2]⟩

theorem toLowerIn_fixed : ∀ (L : List CaseRange) (x : Nat),
    (∀ cr ∈ L, cr.Lo ≤ x ∧ x ≤ cr.Hi → cr.lower x = x) → toLowerIn L x = x
  | [], _, _ => rfl
  | cr :: t, x, h => by
    by_cases hx : cr.Lo ≤ x ∧ x ≤ cr.Hi
    · simp only [toLowerIn, if_pos hx]
      exact h cr (by simp) hx
    · simp only [toLowerIn, if_neg hx]
      exact toLowerIn_fixed t x (fun c hc => h c (by simp [hc]))

theorem lower_mono (cr : CaseRange) (r : Nat) (h : cr.Lo ≤ r ∧ r ≤ cr.Hi) :
    cr.lower cr.Lo ≤ cr.lower r ∧ cr.lower r ≤ cr.lower cr.Hi := by
  unfold CaseRange.lower
  rcases cr.Delta with _ | d
  · simp only
    omega
  · simp only
    omega

/-- The table maps the image of each of its ranges to itself. -/
theorem toLowerIn_settled (L : List CaseRange) (hs : settled L = true) (cr : CaseRange)
    (hcr : cr ∈ L) (r : Nat) (hr : cr.Lo ≤ r ∧ r ≤ cr.Hi) :
    toLowerIn L (cr.lower r) = cr.lower r := by
  apply toLowerIn_fixed
  intro cr2 hcr2 hx
  have hm := lower_mono cr r hr
  have hok := List.all_eq_true.1 (List.all_eq_true.1 hs cr hcr) cr2 hcr2
  simp only [CaseRange.settles, Bool.or_eq_true, Bool.and_eq_true, decide_eq_true_eq,
    Option.isNone_iff_eq_none] at hok
  rcases hok with (h1 | h1) | ⟨⟨h1, h2⟩, h3⟩
  · omega
  · omega
  · unfold CaseRange.lower
    rw [h1, h2]
    simp only
    omega

/-- The table is idempotent. -/
theorem toLowerIn_idem (L : List CaseRange) (hs : settled L = true) (r : Nat) :
    toLowerIn L (toLowerIn L r) = toLowerIn L r := by
  rcases toLowerIn_cases L r with ⟨_, h⟩ | ⟨cr, hcr, hr, h⟩
  · rw [h, h]
  · rw [h]
    exact toLowerIn_settled L hs cr hcr r hr

theorem clean_spec (cr : CaseRange) (h : cr.clean = true) :
    (cr.lower cr.Hi < 0xD800 ∨ (0xE000 ≤ cr.lower cr.Lo ∧ cr.lower cr.Hi < 0x110000))
      ∧ ∀ s, s ∈ spaceCodes ∨ (0x2000 ≤ s ∧ s ≤ 0x200A) →
          (s < cr.Lo ∨ cr.Hi < s) ∧ (s < cr.lower cr.Lo ∨ cr.lower cr.Hi < s) := by
  simp only [CaseRange.clean, Bool.and_eq_true, Bool.or_eq_true, decide_eq_true_eq,
    List.all_eq_true] at h
  obtain ⟨⟨⟨h1, h2⟩, h3⟩, h4⟩ := h
  refine ⟨h1, ?_⟩
  rintro s (hs | hs)
  · exact h4 s hs
  · omega

theorem upper_facts (c : Char) (h : 65 ≤ c.toNat ∧ c.toNat ≤ 90) :
    isSpace c = false ∧ isSpace (Char.ofNat (c.toNat + 32)) = false
      ∧ ¬ (65 ≤ (Char.ofNat (c.toNat + 32)).toNat ∧ (Char.ofNat (c.toNat + 32)).toNat ≤ 90) := by
  obtain ⟨n, hn⟩ : ∃ n, c.toNat = n := ⟨_, rfl⟩
  have hc : c = Char.ofNat n := by rw [← hn, Char.ofNat_toNat]
  rw [hn] at h ⊢
  subst hc
  obtain ⟨h1, h2⟩ := h
  interval_cases n <;> decide

/-- What `toLowerRune` does to a character outside ASCII: it leaves it alone, or the
character lies in a range of the table and moves to its image there. -/
theorem toLowerRune_table (c : Char) (hc : ¬ c.toNat ≤ 127) :
    toLowerRune c = c
      ∨ ∃ cr ∈ caseRanges, (cr.Lo ≤ c.toNat ∧ c.toNat ≤ cr.Hi)
          ∧ (toLowerRune c).toNat = cr.lower c.toNat := by
  unfold toLowerRune
  rw [if_neg hc]
  rcases toLowerIn_cases caseRanges c.toNat with ⟨_, h⟩ | ⟨cr, hcr, hr, h⟩
  · left
    rw [h, Char.ofNat_toNat]
  · right
    refine ⟨cr, hcr, hr, ?_⟩
    rw [h]
    have hcl := (clean_spec cr (List.all_eq_true.1 caseRanges_clean cr hcr)).1
    have hm := lower_mono cr c.toNat hr
    apply toNat_ofNat_valid
    omega

theorem not_space_of_range (c : Char) (lo hi : Nat) (h : lo ≤ c.toNat ∧ c.toNat ≤ hi)
    (hs : ∀ s, s ∈ spaceCodes ∨ (0x2000 ≤ s ∧ s ≤ 0x200A) → s < lo ∨ hi < s) :
    isSpace c = false := by
  rcases hb : isSpace c with _ | _
  · rfl
  · have := hs c.toNat ((isSpace_iff c).1 hb)
    omega

theorem isSpace_toLowerRune (c : Char) : isSpace (toLowerRune c) = isSpace c := by
  by_cases hc : c.toNat ≤ 127
  · unfold toLowerRune
    rw [if_pos hc]
    split
    · next h => rw [(upper_facts c h).1, (upper_facts c h).2.1]
    · rfl
  · rcases toLowerRune_table c hc with h | ⟨cr, hcr, hr, h⟩
    · rw [h]
    · have hcl := (clean_spec cr (List.all_eq_true.1 caseRanges_clean cr hcr)).2
      have hm := lower_mono cr c.toNat hr
      rw [not_space_of_range c cr.Lo cr.Hi hr (fun s hs => (hcl s hs).1),
        not_space_of_range (toLowerRune c) (cr.lower cr.Lo) (cr.lower cr.Hi)
          (by rw [h]; exact hm) (fun s hs => (hcl s hs).2)]

theorem toLowerIn_ascii (x : Nat) (h : 65 ≤ x ∧ x ≤ 90) : toLowerIn caseRanges x = x + 32 := by
  have e : caseRanges = CaseRange.mk 0x41 0x5A (some 32) :: caseRanges.tail := rfl
  rw [e, toLowerIn, if_pos (by simpa using h)]
  simp only [CaseRange.lower]
  omega

theorem toLowerRune_idem (c : Char) : toLowerRune (toLowerRune c) = toLowerRune c := by
  by_cases hc : c.toNat ≤ 127
  · by_cases h : 65 ≤ c.toNat ∧ c.toNat ≤ 90
    · have h3 := (upper_facts c h).2.2
      have e : toLowerRune c = Char.ofNat (c.toNat + 32) := by
        simp only [toLowerRune, if_pos hc, if_pos h]
      have hn : (Char.ofNat (c.toNat + 32)).toNat = c.toNat + 32 :=
        toNat_ofNat_valid _ (by omega)
      rw [e]
      simp only [toLowerRune, if_neg h3]
      rw [if_pos (by rw [hn]; omega)]
    · have e : toLowerRune c = c := by
        simp only [toLowerRune, if_pos hc, if_neg h]
      rw [e]
      exact e
  · rcases toLowerRune_table c hc with h | ⟨cr, hcr, hr, h⟩
    · rw [h]
      exact h
    · have hfix := toLowerIn_settled caseRanges caseRanges_settled cr hcr c.toNat hr
      rw [← h] at hfix
      generalize toLowerRune c = d at hfix ⊢
      unfold toLowerRune
      by_cases hd : d.toNat ≤ 127
      · rw [if_pos hd]
        by_cases hu : 65 ≤ d.toNat ∧ d.toNat ≤ 90
        · have := toLowerIn_ascii d.toNat hu
          omega
        · rw [if_neg hu]
      · rw [if_neg hd, hfix, Char.ofNat_toNat]

theorem rdropWhile_cons_of_neg (p : Char → Bool) (a : Char) (ha : p a = false) (t : List Char) :
    (a :: t).rdropWhile p = a :: t.rdropWhile p := by
  induction t using List.reverseRecOn with
  | nil => simp [List.rdropWhile, ha]
  | append_singleton u x ih =>
    rw [← List.cons_append, List.rdropWhile_concat, List.rdropWhile_concat]
    by_cases hx : p x = true
    · simp [hx, ih]
    · simp [hx]

theorem trimSpaceL_cases (l : List Char) :
    trimSpaceL l = [] ∨ ∃ a t, isSpace a = false ∧ trimSpaceL l = a :: t := by
  unfold trimSpaceL
  rcases hdw : l.dropWhile isSpace with _ | ⟨a, t⟩
  · left; rfl
  · right
    have ha : isSpace a = false := by
      have := List.head_dropWhile_not isSpace l (by rw [hdw]; simp)
      simpa [hdw] using this
    exact ⟨a, _, ha, rdropWhile_cons_of_neg isSpace a ha t⟩

theorem trimSpaceL_idem (l : List Char) : trimSpaceL (trimSpaceL l) = trimSpaceL l := by
  rcases trimSpaceL_cases l with h | ⟨a, t, ha, h⟩
  · rw [h]; rfl
  · have h2 : (trimSpaceL l).dropWhile isSpace = trimSpaceL l := by
      rw [h]; simp [List.dropWhile, ha]
    have h3 : (trimSpaceL l).rdropWhile isSpace = trimSpaceL l := by
      conv_lhs => unfold trimSpaceL
      rw [List.rdropWhile_idempotent]
      rfl
    show ((trimSpaceL l).dropWhile isSpace).rdropWhile isSpace = trimSpaceL l
    rw [h2, h3]

theorem trimSpaceL_of_noSpace (l : List Char) (h : ∀ c ∈ l, isSpace c = false) :
    trimSpaceL l = l := by
  unfold trimSpaceL
  have h1 : l.dropWhile isSpace = l := by
    cases l with
    | nil => rfl
    | cons a t => simp [List.dropWhile, h a (List.mem_cons_self _ _)]
  rw [h1, List.rdropWhile_eq_self_iff]
  intro hl
  simpa using h _ (List.getLast_mem hl)

theorem trimSpaceL_map_lower (l : List Char) :
    trimSpaceL (l.map toLowerRune) = (trimSpaceL l).map toLowerRune := by
  have hcomp : (isSpace ∘ toLowerRune) = isSpace := by
    funext c; exact isSpace_toLowerRune c
  have hd : ∀ m : List Char, (m.map toLowerRune).dropWhile isSpace
      = (m.dropWhile isSpace).map toLowerRune := by
    intro m; rw [List.dropWhile_map, hcomp]
  unfold trimSpaceL
  rw [hd]
  simp only [List.rdropWhile]
  rw [← List.map_reverse, hd, List.map_reverse]

theorem trimSpace_idem (s : String) : trimSpace (trimSpace s) = trimSpace s := by
  simp [trimSpace, trimSpaceL_idem]

theorem toLower_idem (s : String) : toLower (toLower s) = toLower s := by
  have h : (toLowerRune ∘ toLowerRune) = toLowerRune := by
    funext c; exact toLowerRune_idem c
  simp [toLower, h]

theorem trimSpace_toLower_trimSpace (s : String) :
    trimSpace (toLower (trimSpace s)) = toLower (trimSpace s) := by
  simp only [trimSpace, toLower, trimSpaceL_map_lower, trimSpaceL_idem]

/-! ## Characters of printed addresses -/

theorem plainChar_facts (c : Char) (h : plainChar c = true) :
    isSpace c = false ∧ toLowerRune c = c ∧ c ≠ '/' ∧ c ≠ '%' := by
  obtain ⟨n, hn⟩ : ∃ n, c.toNat = n := ⟨_, rfl⟩
  have hc : c = Char.ofNat n := by rw [← hn, Char.ofNat_toNat]
  simp only [plainChar, hn, Bool.or_eq_true, Bool.and_eq_true, decide_eq_true_eq] at h
  subst hc
  have hb : 46 ≤ n ∧ n ≤ 102 := by omega
  obtain ⟨h1, h2⟩ := hb
  interval_cases n <;> first | omega | decide

theorem plain_digitChar : ∀ n, n < 16 → plainChar (digitChar n) = true := by decide

theorem decVal_digitChar : ∀ n, n < 10 → decVal (digitChar n) = some n := by decide

theorem hexVal_digitChar : ∀ n, n < 16 → hexVal (digitChar n) = some n := by decide

theorem plain_appendDecimal (x : Nat) (hx : x < 256) : ∀ c ∈ appendDecimal x, plainChar c = true := by
  intro c hc
  simp only [appendDecimal, List.mem_append, List.mem_singleton] at hc
  rcases hc with (hc | hc) | hc
  · split at hc
    · rw [List.mem_singleton.1 hc]; exact plain_digitChar _ (by omega)
    · simp at hc
  · split at hc
    · rw [List.mem_singleton.1 hc]; exact plain_digitChar _ (by omega)
    · simp at hc
  · rw [hc]; exact plain_digitChar _ (by omega)

theorem plain_appendHex (x : Nat) (hx : x < 65536) : ∀ c ∈ appendHex x, plainChar c = true := by
  intro c hc
  simp only [appendHex, List.mem_append, List.mem_singleton] at hc
  rcases hc with ((hc | hc) | hc) | hc
  · split at hc
    · rw [List.mem_singleton.1 hc]; exact plain_digitChar _ (by omega)
    · simp at hc
  · split at hc
    · rw [List.mem_singleton.1 hc]; exact plain_digitChar _ (by omega)
    · simp at hc
  · split at hc
    · rw [List.mem_singleton.1 hc]; exact plain_digitChar _ (by omega)
    · simp at hc
  · rw [hc]; exact plain_digitChar _ (by omega)

theorem plain_decDigits : ∀ (f n : Nat), ∀ c ∈ decDigits f n, plainChar c = true
  | 0, _, c, hc => by simp [decDigits] at hc
  | f + 1, n, c, hc => by
    simp only [decDigits] at hc
    split at hc
    · rw [List.mem_singleton.1 hc]; exact plain_digitChar _ (by omega)
    · rcases List.mem_append.1 hc with hc | hc
      · exact plain_decDigits f _ c hc
      · rw [List.mem_singleton.1 hc]; exact plain_digitChar _ (by omega)

theorem mem_joinWith (sep : Char) : ∀ (ls : List (List Char)) (c : Char),
    c ∈ joinWith sep ls → c = sep ∨ ∃ l ∈ ls, c ∈ l
  | [], c, h => by simp [joinWith] at h
  | [x], c, h => by right; exact ⟨x, by simp, by simpa [joinWith] using h⟩
  | x :: y :: t, c, h => by
    simp only [joinWith, List.mem_append, List.mem_cons] at h
    rcases h with h | h | h
    · right; exact ⟨x, by simp, h⟩
    · left; exact h
    · rcases mem_joinWith sep (y :: t) c h with h | ⟨l, hl, hc⟩
      · left; exact h
      · right; exact ⟨l, List.mem_cons_of_mem _ hl, hc⟩

theorem plain_string4 (b : List Nat) (hb : ∀ x ∈ b, x < 256) :
    ∀ c ∈ string4 b, plainChar c = true := by
  intro c hc
  rcases mem_joinWith _ _ c hc with h | ⟨l, hl, hcl⟩
  · rw [h]; decide
  · obtain ⟨x, hx, rfl⟩ := List.mem_map.1 hl
    exact plain_appendDecimal x (hb x hx) c hcl

theorem plain_joinHex (gs : List Nat) (hg : ∀ x ∈ gs, x < 65536) :
    ∀ c ∈ joinWith ':' (gs.map appendHex), plainChar c = true := by
  intro c hc
  rcases mem_joinWith _ _ c hc with h | ⟨l, hl, hcl⟩
  · rw [h]; decide
  · obtain ⟨x, hx, rfl⟩ := List.mem_map.1 hl
    exact plain_appendHex x (hg x hx) c hcl

theorem plain_string6 (gs : List Nat) (hg : ∀ x ∈ gs, x < 65536) :
    ∀ c ∈ string6 gs, plainChar c = true := by
  intro c hc
  unfold string6 at hc
  simp only at hc
  split at hc
  · simp only [List.mem_append, List.mem_cons, List.mem_singleton] at hc
    rcases hc with (hc | hc) | hc
    · exact plain_joinHex _ (fun x hx => hg x (List.mem_of_mem_take hx)) c hc
    · rcases hc with rfl | rfl | hc
      · decide
      · decide
      · simp at hc
    · exact plain_joinHex _ (fun x hx => hg x (List.mem_of_mem_drop hx)) c hc
  · exact plain_joinHex _ hg c hc

theorem groups_lt : ∀ (b : List Nat), (∀ x ∈ b, x < 256) → ∀ g ∈ groups b, g < 65536
  | [], _, g, hg => by simp [groups] at hg
  | [_], _, g, hg => by simp [groups] at hg
  | hi :: lo :: t, hb, g, hg => by
    simp only [groups, List.mem_cons] at hg
    rcases hg with rfl | hg
    · have h1 := hb hi (by simp)
      have h2 := hb lo (by simp)
      omega
    · exact groups_lt t (fun x hx => hb x (by simp [hx])) g hg

theorem To4_bytes (ip p4 : IP) (h : To4 ip = some p4) (hb : ∀ x ∈ ip, x < 256) :
    p4.length = 4 ∧ ∀ x ∈ p4, x < 256 := by
  unfold To4 at h
  split at h
  · cases h; exact ⟨by assumption, hb⟩
  · split at h
    · next h16 =>
      cases h
      refine ⟨by simp [h16.1], fun x hx => hb x (List.mem_of_mem_drop hx)⟩
    · cases h

theorem plain_ipStringL (ip : IP) (hb : ∀ x ∈ ip, x < 256) :
    ∀ c ∈ ipStringL ip, plainChar c = true := by
  unfold ipStringL
  split
  · next p4 h4 => exact plain_string4 p4 (To4_bytes ip p4 h4 hb).2
  · exact plain_string6 _ (groups_lt ip hb)

theorem trimSpaceL_plain (l : List Char) (h : ∀ c ∈ l, plainChar c = true) : trimSpaceL l = l :=
  trimSpaceL_of_noSpace l fun c hc => (plainChar_facts c (h c hc)).1

theorem lower_plain (l : List Char) (h : ∀ c ∈ l, plainChar c = true) :
    l.map toLowerRune = l := by
  conv_rhs => rw [← List.map_id l]
  exact List.map_congr_left fun c hc => (plainChar_facts c (h c hc)).2.1

/-! ## IPv4 text round trip -/

theorem appendDecimal_mem (x : Nat) (hx : x < 256) (c : Char) (hc : c ∈ appendDecimal x) :
    ∃ n, n < 10 ∧ c = digitChar n := by
  simp only [appendDecimal, List.mem_append, List.mem_singleton] at hc
  rcases hc with (hc | hc) | hc
  · split at hc
    · exact ⟨_, by omega, List.mem_singleton.1 hc⟩
    · simp at hc
  · split at hc
    · exact ⟨_, by omega, List.mem_singleton.1 hc⟩
    · simp at hc
  · exact ⟨_, by omega, hc⟩

theorem appendHex_mem (x : Nat) (hx : x < 65536) (c : Char) (hc : c ∈ appendHex x) :
    ∃ n, n < 16 ∧ c = digitChar n := by
  simp only [appendHex, List.mem_append, List.mem_singleton] at hc
  rcases hc with ((hc | hc) | hc) | hc
  · split at hc
    · exact ⟨_, by omega, List.mem_singleton.1 hc⟩
    · simp at hc
  · split at hc
    · exact ⟨_, by omega, List.mem_singleton.1 hc⟩
    · simp at hc
  · split at hc
    · exact ⟨_, by omega, List.mem_singleton.1 hc⟩
    · simp at hc
  · exact ⟨_, by omega, hc⟩

theorem digitChar_not_sep : ∀ n, n < 16 →
    digitChar n ≠ '.' ∧ digitChar n ≠ ':' ∧ digitChar n ≠ '%' ∧ digitChar n ≠ '/' := by decide

theorem appendDecimal_ne_nil (x : Nat) : appendDecimal x ≠ [] := by
  simp [appendDecimal]

theorem decVal_dot : decVal '.' = none := by decide

theorem parse4_octet_dot (x : Nat) (hx : x < 256) (rest : List Char) (fields : List Nat) :
    parseIPv4Fields (appendDecimal x ++ '.' :: rest) 0 0 fields
      = if rest = [] then none else if fields.length = 3 then none
        else parseIPv4Fields rest 0 0 (fields ++ [x]) := by
  have d1 := decVal_digitChar (x % 10) (by omega)
  by_cases h10 : x < 10
  · have e : appendDecimal x = [digitChar x] := by
      simp [appendDecimal, h10, show ¬ 100 ≤ x by omega, show ¬ 10 ≤ x by omega,
        Nat.mod_eq_of_lt h10]
    have d0 := decVal_digitChar x h10
    simp [e, parseIPv4Fields, d0, decVal_dot, show ¬ 255 < x by omega]
  · by_cases h100 : x < 100
    · have e : appendDecimal x = [digitChar (x / 10 % 10), digitChar (x % 10)] := by
        simp [appendDecimal, show ¬ 100 ≤ x by omega, show 10 ≤ x by omega]
      have d2 := decVal_digitChar (x / 10 % 10) (by omega)
      have hv : x / 10 % 10 * 10 + x % 10 = x := by omega
      simp [e, parseIPv4Fields, d1, d2, decVal_dot, hv, show ¬ 255 < x by omega,
        show ¬ 255 < x / 10 % 10 by omega, show ¬ x / 10 % 10 = 0 by omega]
    · have e : appendDecimal x
          = [digitChar (x / 100), digitChar (x / 10 % 10), digitChar (x % 10)] := by
        simp [appendDecimal, show 100 ≤ x by omega, show 10 ≤ x by omega]
      have d2 := decVal_digitChar (x / 10 % 10) (by omega)
      have d3 := decVal_digitChar (x / 100) (by omega)
      have hv : (x / 100 * 10 + x / 10 % 10) * 10 + x % 10 = x := by omega
      simp [e, parseIPv4Fields, d1, d2, d3, decVal_dot, hv, show ¬ 255 < x by omega,
        show ¬ 255 < x / 100 by omega, show ¬ x / 100 = 0 by omega,
        show ¬ 255 < x / 100 * 10 + x / 10 % 10 by omega]

theorem parse4_octet_end (x : Nat) (hx : x < 256) (fields : List Nat) :
    parseIPv4Fields (appendDecimal x) 0 0 fields
      = if fields.length < 3 then none else some (fields ++ [x]) := by
  have d1 := decVal_digitChar (x % 10) (by omega)
  by_cases h10 : x < 10
  · have e : appendDecimal x = [digitChar x] := by
      simp [appendDecimal, h10, show ¬ 100 ≤ x by omega, show ¬ 10 ≤ x by omega,
        Nat.mod_eq_of_lt h10]
    have d0 := decVal_digitChar x h10
    simp [e, parseIPv4Fields, d0, show ¬ 255 < x by omega]
  · by_cases h100 : x < 100
    · have e : appendDecimal x = [digitChar (x / 10 % 10), digitChar (x % 10)] := by
        simp [appendDecimal, show ¬ 100 ≤ x by omega, show 10 ≤ x by omega]
      have d2 := decVal_digitChar (x / 10 % 10) (by omega)
      have hv : x / 10 % 10 * 10 + x % 10 = x := by omega
      simp [e, parseIPv4Fields, d1, d2, hv, show ¬ 255 < x by omega,
        show ¬ 255 < x / 10 % 10 by omega, show ¬ x / 10 % 10 = 0 by omega]
    · have e : appendDecimal x
          = [digitChar (x / 100), digitChar (x / 10 % 10), digitChar (x % 10)] := by
        simp [appendDecimal, show 100 ≤ x by omega, show 10 ≤ x by omega]
      have d2 := decVal_digitChar (x / 10 % 10) (by omega)
      have d3 := decVal_digitChar (x / 100) (by omega)
      have hv : (x / 100 * 10 + x / 10 % 10) * 10 + x % 10 = x := by omega
      simp [e, parseIPv4Fields, d1, d2, d3, hv, show ¬ 255 < x by omega,
        show ¬ 255 < x / 100 by omega, show ¬ x / 100 = 0 by omega,
        show ¬ 255 < x / 100 * 10 + x / 10 % 10 by omega]

/-- Reading back the dotted-decimal text of four bytes gives the four bytes. -/
theorem parseIPv4Fields_string4 (a b c d : Nat) (ha : a < 256) (hb : b < 256) (hc : c < 256)
    (hd : d < 256) : parseIPv4Fields (string4 [a, b, c, d]) 0 0 [] = some [a, b, c, d] := by
  have e : string4 [a, b, c, d] = appendDecimal a ++ '.' :: (appendDecimal b ++ '.' ::
      (appendDecimal c ++ '.' :: appendDecimal d)) := by
    simp [string4, joinWith]
  rw [e, parse4_octet_dot a ha, parse4_octet_dot b hb, parse4_octet_dot c hc,
    parse4_octet_end d hd]
  simp [appendDecimal_ne_nil]

theorem find_sep_of_prefix (p : Char → Bool) (a : Char) (ha : p a = true) :
    ∀ (l r : List Char), (∀ c ∈ l, p c = false) → (l ++ a :: r).find? p = some a
  | [], r, _ => by simp [List.find?, ha]
  | x :: l, r, h => by
    have hx : p x = false := h x (by simp)
    simp only [List.cons_append, List.find?, hx]
    exact find_sep_of_prefix p a ha l r (fun c hc => h c (by simp [hc]))

theorem length_four (b : List Nat) (h : b.length = 4) : ∃ a0 a1 a2 a3, b = [a0, a1, a2, a3] := by
  match b, h with
  | [a0, a1, a2, a3], _ => exact ⟨a0, a1, a2, a3, rfl⟩

/-- The text of an IPv4 address parses back to that address. -/
theorem ParseAddr_string4 (b : List Nat) (hl : b.length = 4) (hb : ∀ x ∈ b, x < 256) :
    ParseAddr (string4 b) = some (.v4 b) := by
  obtain ⟨a0, a1, a2, a3, rfl⟩ := length_four b hl
  have h0 : a0 < 256 := hb a0 (by simp)
  have e : string4 [a0, a1, a2, a3] = appendDecimal a0 ++ '.' :: (appendDecimal a1 ++ '.' ::
      (appendDecimal a2 ++ '.' :: appendDecimal a3)) := by
    simp [string4, joinWith]
  have hf : (string4 [a0, a1, a2, a3]).find? (fun c => c = '.' || c = ':' || c = '%')
      = some '.' := by
    rw [e]
    apply find_sep_of_prefix _ _ (by decide)
    intro c hc
    obtain ⟨n, hn, rfl⟩ := appendDecimal_mem a0 h0 c hc
    have := digitChar_not_sep n (by omega)
    simp [this.1, this.2.1, this.2.2.1]
  unfold ParseAddr
  rw [hf]
  simp [parseIPv4Fields_string4 a0 a1 a2 a3 h0 (hb a1 (by simp)) (hb a2 (by simp))
    (hb a3 (by simp))]

/-! ## IPv6 parsing loop -/

theorem scanHex_stop (rest : List Char) (hr : ∀ c, rest.head? = some c → hexVal c = none)
    (off acc : Nat) : scanHex rest off acc = some (off, acc, rest) := by
  cases rest with
  | nil => rfl
  | cons c t => simp [scanHex, hr c rfl]

theorem scanHex_appendHex (x : Nat) (hx : x < 65536) (rest : List Char)
    (hr : ∀ c, rest.head? = some c → hexVal c = none) :
    ∃ off, off ≠ 0 ∧ scanHex (appendHex x ++ rest) 0 0 = some (off, x, rest) := by
  have d0 := hexVal_digitChar (x % 16) (by omega)
  have d1 := hexVal_digitChar (x / 16 % 16) (by omega)
  have d2 := hexVal_digitChar (x / 256 % 16) (by omega)
  have d3 := hexVal_digitChar (x / 4096) (by omega)
  by_cases h1 : x < 16
  · refine ⟨1, by omega, ?_⟩
    have e : appendHex x = [digitChar (x % 16)] := by
      simp [appendHex, show ¬ 4096 ≤ x by omega, show ¬ 256 ≤ x by omega,
        show ¬ 16 ≤ x by omega]
    have d0x := hexVal_digitChar x (by omega)
    simp [e, scanHex, d0x, scanHex_stop rest hr, show ¬ 65535 < x by omega,
      Nat.mod_eq_of_lt h1]
  · by_cases h2 : x < 256
    · refine ⟨2, by omega, ?_⟩
      have e : appendHex x = [digitChar (x / 16 % 16), digitChar (x % 16)] := by
        simp [appendHex, show ¬ 4096 ≤ x by omega, show ¬ 256 ≤ x by omega,
          show 16 ≤ x by omega]
      have hv : x / 16 % 16 * 16 + x % 16 = x := by omega
      simp [e, scanHex, d0, d1, scanHex_stop rest hr, hv, show ¬ 65535 < x by omega,
        show ¬ 65535 < x / 16 % 16 by omega]
    · by_cases h3 : x < 4096
      · refine ⟨3, by omega, ?_⟩
        have e : appendHex x
            = [digitChar (x / 256 % 16), digitChar (x / 16 % 16), digitChar (x % 16)] := by
          simp [appendHex, show ¬ 4096 ≤ x by omega, show 256 ≤ x by omega,
            show 16 ≤ x by omega]
        have hv : (x / 256 % 16 * 16 + x / 16 % 16) * 16 + x % 16 = x := by omega
        simp [e, scanHex, d0, d1, d2, scanHex_stop rest hr, hv, show ¬ 65535 < x by omega,
          show ¬ 65535 < x / 256 % 16 by omega,
          show ¬ 65535 < x / 256 % 16 * 16 + x / 16 % 16 by omega]
      · refine ⟨4, by omega, ?_⟩
        have e : appendHex x = [digitChar (x / 4096), digitChar (x / 256 % 16),
            digitChar (x / 16 % 16), digitChar (x % 16)] := by
          simp [appendHex, show 4096 ≤ x by omega, show 256 ≤ x by omega,
            show 16 ≤ x by omega]
        have hv : ((x / 4096 * 16 + x / 256 % 16) * 16 + x / 16 % 16) * 16 + x % 16 = x := by
          omega
        simp [e, scanHex, d0, d1, d2, d3, scanHex_stop rest hr, hv, show ¬ 65535 < x by omega,
          show ¬ 65535 < x / 4096 by omega,
          show ¬ 65535 < x / 4096 * 16 + x / 256 % 16 by omega,
          show ¬ 65535 < (x / 4096 * 16 + x / 256 % 16) * 16 + x / 16 % 16 by omega]

theorem appendHex_head (x : Nat) (hx : x < 65536) :
    ∃ d u, appendHex x = d :: u ∧ d ≠ ':' := by
  rcases hh : appendHex x with _ | ⟨d, u⟩
  · simp [appendHex] at hh
  · refine ⟨d, u, rfl, ?_⟩
    obtain ⟨n, hn, rfl⟩ := appendHex_mem x hx d (by rw [hh]; simp)
    exact (digitChar_not_sep n hn).2.1

theorem joinHex_head (y : Nat) (t : List Nat) (hy : y < 65536) :
    ∃ d u, joinWith ':' ((y :: t).map appendHex) = d :: u ∧ d ≠ ':' := by
  obtain ⟨d, u, hd, hne⟩ := appendHex_head y hy
  cases t with
  | nil => exact ⟨d, u, by simp [joinWith, hd], hne⟩
  | cons z t =>
    exact ⟨d, u ++ ':' :: joinWith ':' ((z :: t).map appendHex), by simp [joinWith, hd], hne⟩

theorem hexVal_colon : hexVal ':' = none := by decide

theorem loop_end : ∀ (xs : List Nat) (k : Nat) (ip : List Nat) (ell : Option Nat),
    xs ≠ [] → xs.length ≤ k → (∀ x ∈ xs, x < 65536) →
    parseIPv6Loop k ip ell (joinWith ':' (xs.map appendHex)) = some (ip ++ bytesOf xs, ell, [])
  | [], _, _, _, h, _, _ => absurd rfl h
  | [x], k, ip, ell, _, hk, hx => by
    obtain ⟨k, rfl⟩ : ∃ j, k = j + 1 := ⟨k - 1, by simp at hk; omega⟩
    obtain ⟨off, hoff, hs⟩ := scanHex_appendHex x (hx x (by simp)) [] (by simp)
    simp only [List.append_nil] at hs
    simp [joinWith, parseIPv6Loop, hs, hoff, bytesOf]
  | x :: y :: t, k, ip, ell, _, hk, hx => by
    obtain ⟨k, rfl⟩ : ∃ j, k = j + 1 := ⟨k - 1, by simp at hk; omega⟩
    obtain ⟨d, u, hd, hne⟩ := joinHex_head y t (hx y (by simp))
    obtain ⟨off, hoff, hs⟩ := scanHex_appendHex x (hx x (by simp))
      (':' :: joinWith ':' ((y :: t).map appendHex)) (by simp [hexVal_colon])
    have ih := loop_end (y :: t) k (ip ++ [x / 256, x % 256]) ell (by simp)
      (by simp at hk ⊢; omega) (fun z hz => hx z (by simp [List.mem_cons.1 hz]))
    rw [hd] at ih hs
    have e : joinWith ':' ((x :: y :: t).map appendHex) = appendHex x ++ ':' :: d :: u := by
      rw [← hd]; simp [joinWith]
    rw [e]
    simp [parseIPv6Loop, hs, hoff, hne, ih, bytesOf]

theorem loop_ell : ∀ (xs : List Nat) (k : Nat) (ip : List Nat) (rest : List Char),
    xs ≠ [] → xs.length ≤ k → (∀ x ∈ xs, x < 65536) →
    parseIPv6Loop k ip none (joinWith ':' (xs.map appendHex) ++ ':' :: ':' :: rest)
      = if rest = [] then some (ip ++ bytesOf xs, some (ip ++ bytesOf xs).length, [])
        else parseIPv6Loop (k - xs.length) (ip ++ bytesOf xs)
          (some (ip ++ bytesOf xs).length) rest
  | [], _, _, _, h, _, _ => absurd rfl h
  | [x], k, ip, rest, _, hk, hx => by
    obtain ⟨k, rfl⟩ : ∃ j, k = j + 1 := ⟨k - 1, by simp at hk; omega⟩
    obtain ⟨off, hoff, hs⟩ := scanHex_appendHex x (hx x (by simp)) (':' :: ':' :: rest)
      (by simp [hexVal_colon])
    simp [joinWith, parseIPv6Loop, hs, hoff, bytesOf]
  | x :: y :: t, k, ip, rest, _, hk, hx => by
    obtain ⟨k, rfl⟩ : ∃ j, k = j + 1 := ⟨k - 1, by simp at hk; omega⟩
    obtain ⟨d, u, hd, hne⟩ := joinHex_head y t (hx y (by simp))
    obtain ⟨off, hoff, hs⟩ := scanHex_appendHex x (hx x (by simp))
      (':' :: (joinWith ':' ((y :: t).map appendHex) ++ ':' :: ':' :: rest))
      (by simp [hexVal_colon])
    have ih := loop_ell (y :: t) k (ip ++ [x / 256, x % 256]) rest (by simp)
      (by simp at hk ⊢; omega) (fun z hz => hx z (by simp [List.mem_cons.1 hz]))
    rw [hd] at ih hs
    simp only [List.cons_append] at ih hs
    have e : joinWith ':' ((x :: y :: t).map appendHex) ++ ':' :: ':' :: rest
        = appendHex x ++ ':' :: (d :: u ++ ':' :: ':' :: rest) := by
      rw [← hd]; simp [joinWith]
    rw [e]
    have hk2 : k + 1 - (t.length + 1 + 1) = k - (t.length + 1) := by omega
    simp [parseIPv6Loop, hs, hoff, hne, bytesOf, hk2]
    simpa [bytesOf] using ih

/-! ## IPv6 text round trip -/

theorem zeroRun_split : ∀ (l : List Nat),
    l = List.replicate (zeroRunLen l) 0 ++ l.drop (zeroRunLen l)
  | [] => by simp [zeroRunLen]
  | g :: t => by
    by_cases hg : g = 0
    · subst hg
      have ih := zeroRun_split t
      simp only [zeroRunLen, if_true, List.replicate_succ, List.drop_succ_cons, List.cons_append]
      rw [← ih]
    · simp [zeroRunLen, hg]

theorem findZeroRun_inv (gs : List Nat) : ∀ (l pre0 : List Nat) (best : Nat × Nat),
    gs = pre0 ++ l →
    (best = (255, 255) ∨ ∃ pre post n, gs = pre ++ (List.replicate n 0 ++ post)
      ∧ best = (pre.length, pre.length + n) ∧ 2 ≤ n) →
    (findZeroRun l pre0.length best = (255, 255) ∨ ∃ pre post n,
      gs = pre ++ (List.replicate n 0 ++ post)
        ∧ findZeroRun l pre0.length best = (pre.length, pre.length + n) ∧ 2 ≤ n)
  | [], _, _, _, hb => by simpa [findZeroRun] using hb
  | g :: t, pre0, best, hgs, hb => by
    simp only [findZeroRun]
    have hlen : pre0.length + 1 = (pre0 ++ [g]).length := by simp
    rw [hlen]
    apply findZeroRun_inv gs t (pre0 ++ [g]) _ (by simp [hgs])
    split
    · next hc =>
      right
      refine ⟨pre0, (g :: t).drop (zeroRunLen (g :: t)), zeroRunLen (g :: t), ?_, rfl, hc.1⟩
      rw [← zeroRun_split (g :: t)]
      exact hgs
    · exact hb

theorem bytesOf_append : ∀ (a b : List Nat), bytesOf (a ++ b) = bytesOf a ++ bytesOf b
  | [], _ => rfl
  | g :: t, b => by simp [bytesOf, bytesOf_append t b]

theorem bytesOf_zeros : ∀ (n : Nat), bytesOf (List.replicate n 0) = List.replicate (2 * n) 0
  | 0 => rfl
  | n + 1 => by
    have e : 2 * (n + 1) = (2 * n + 1) + 1 := by omega
    rw [e]
    simp [List.replicate_succ, bytesOf, bytesOf_zeros n]

theorem length_bytesOf : ∀ (a : List Nat), (bytesOf a).length = 2 * a.length
  | [] => rfl
  | g :: t => by simp [bytesOf, length_bytesOf t]; omega

theorem bytesOf_groups : ∀ (b : List Nat), b.length % 2 = 0 → (∀ x ∈ b, x < 256) →
    bytesOf (groups b) = b
  | [], _, _ => rfl
  | [_], h, _ => by simp at h
  | hi :: lo :: t, h, hb => by
    have h1 := hb hi (by simp)
    have h2 := hb lo (by simp)
    have ih := bytesOf_groups t (by simp at h; omega) (fun x hx => hb x (by simp [hx]))
    simp only [groups, bytesOf, ih]
    congr 1
    · omega
    · congr 1; omega

theorem length_groups : ∀ (b : List Nat), (groups b).length = b.length / 2
  | [] => rfl
  | [_] => by simp [groups]
  | hi :: lo :: t => by simp [groups, length_groups t]; omega

theorem joinHex_ne_nil (xs : List Nat) (hne : xs ≠ []) (hx : ∀ x ∈ xs, x < 65536) :
    ∃ d u, joinWith ':' (xs.map appendHex) = d :: u ∧ d ≠ ':' := by
  cases xs with
  | nil => exact absurd rfl hne
  | cons y t => exact joinHex_head y t (hx y (by simp))

theorem finish_ell (a b : List Nat) (n : Nat) (h : 16 - (a ++ b).length = n)
    (h16 : (a ++ b).length < 16) :
    finishIPv6 (a ++ b, some a.length, []) = some (a ++ (List.replicate n 0 ++ b)) := by
  simp only [finishIPv6, ne_eq, not_true_eq_false, if_false, h16, if_true, List.take_left,
    List.drop_left, h, List.append_assoc]

/-- Reading back the text of eight groups gives their sixteen bytes. -/
theorem parseIPv6_string6 (gs : List Nat) (hl : gs.length = 8) (hg : ∀ x ∈ gs, x < 65536) :
    parseIPv6 (string6 gs) = some (bytesOf gs) := by
  have hpct : ¬ '%' ∈ string6 gs := fun h =>
    (plainChar_facts _ (plain_string6 gs hg _ h)).2.2.2 rfl
  have hlb : (bytesOf gs).length = 16 := by rw [length_bytesOf, hl]
  unfold parseIPv6
  rw [if_neg hpct]
  have hz := findZeroRun_inv gs gs [] (255, 255) rfl (Or.inl rfl)
  simp only [List.length_nil] at hz
  rcases hz with hz | ⟨pre, post, n, hgs, hz, hn⟩
  · have e : string6 gs = joinWith ':' (gs.map appendHex) := by
      simp [string6, hz]
    obtain ⟨d, u, hd, hne⟩ := joinHex_ne_nil gs (by intro h; simp [h] at hl) hg
    have hloop := loop_end gs 8 [] none (by intro h; simp [h] at hl) (by omega) hg
    rw [e]
    have ht : ¬ (joinWith ':' (gs.map appendHex)).take 2 = [':', ':'] := by
      rw [hd]; intro h; simp at h; exact hne h.1
    rw [if_neg ht, hloop]
    simp [finishIPv6, hlb]
  · have hlen : pre.length + (n + post.length) = 8 := by
      rw [hgs] at hl; simpa using hl
    have hpre : ∀ x ∈ pre, x < 65536 := fun x hx => hg x (by rw [hgs]; simp [hx])
    have hpost : ∀ x ∈ post, x < 65536 := fun x hx => hg x (by rw [hgs]; simp [hx])
    have htake : gs.take pre.length = pre := by rw [hgs]; simp
    have hdrop : gs.drop (pre.length + n) = post := by
      rw [hgs, ← List.append_assoc]
      have : pre.length + n = (pre ++ List.replicate n 0).length := by simp
      rw [this, List.drop_left]
    have e : string6 gs = joinWith ':' (pre.map appendHex) ++ ':' :: ':' ::
        joinWith ':' (post.map appendHex) := by
      simp [string6, hz, htake, hdrop, show pre.length < 8 by omega]
    have hb : bytesOf gs = bytesOf pre ++ (List.replicate (2 * n) 0 ++ bytesOf post) := by
      rw [hgs, bytesOf_append, bytesOf_append, bytesOf_zeros]
    have hlpre := length_bytesOf pre
    have hlpost := length_bytesOf post
    rw [e, hb]
    by_cases hp : pre = []
    · subst hp
      simp only [List.map_nil, joinWith, List.nil_append, List.take_succ_cons, List.take_zero,
        if_true, List.drop_succ_cons, List.drop_zero, bytesOf]
      by_cases hq : post = []
      · subst hq
        simp only [List.length_nil] at hlen
        simp [joinWith, bytesOf, show 2 * n = 16 by omega]
      · obtain ⟨d, u, hd, _⟩ := joinHex_ne_nil post hq hpost
        have hloop := loop_end post 8 [] (some 0) hq (by omega) hpost
        rw [if_neg (by rw [hd]; simp), hloop]
        simp only [List.length_nil] at hlen
        have h16 : (bytesOf post).length < 16 := by omega
        have hf := finish_ell [] (bytesOf post) (2 * n) (by simp; omega) (by simpa using h16)
        simpa using hf
    · obtain ⟨d, u, hd, hne⟩ := joinHex_ne_nil pre hp hpre
      have ht : ¬ (joinWith ':' (pre.map appendHex) ++ ':' :: ':' ::
          joinWith ':' (post.map appendHex)).take 2 = [':', ':'] := by
        rw [hd]; intro h; simp at h; exact hne h.1
      rw [if_neg ht, loop_ell pre 8 [] _ hp (by omega) hpre]
      by_cases hq : post = []
      · subst hq
        simp only [List.length_nil] at hlen
        have h16 : (bytesOf pre).length < 16 := by omega
        have hf := finish_ell (bytesOf pre) [] (2 * n) (by simp; omega) (by simpa using h16)
        simpa [joinWith, bytesOf] using hf
      · obtain ⟨d2, u2, hd2, _⟩ := joinHex_ne_nil post hq hpost
        have hloop := loop_end post (8 - pre.length) ([] ++ bytesOf pre)
          (some ([] ++ bytesOf pre).length) hq (by omega) hpost
        rw [if_neg (by rw [hd2]; simp), hloop]
        have h16 : (bytesOf pre ++ bytesOf post).length < 16 := by
          rw [List.length_append]; omega
        have hf := finish_ell (bytesOf pre) (bytesOf post) (2 * n)
          (by rw [List.length_append]; omega) h16
        simpa using hf

theorem joinHex_chars (gs : List Nat) (hg : ∀ x ∈ gs, x < 65536) (c : Char)
    (hc : c ∈ joinWith ':' (gs.map appendHex)) : c ≠ '.' ∧ c ≠ '%' := by
  rcases mem_joinWith _ _ c hc with h | ⟨l, hl, hcl⟩
  · rw [h]; decide
  · obtain ⟨x, hx, rfl⟩ := List.mem_map.1 hl
    obtain ⟨n, hn, rfl⟩ := appendHex_mem x (hg x hx) c hcl
    exact ⟨(digitChar_not_sep n hn).1, (digitChar_not_sep n hn).2.2.1⟩

theorem string6_chars (gs : List Nat) (hg : ∀ x ∈ gs, x < 65536) (c : Char)
    (hc : c ∈ string6 gs) : c ≠ '.' ∧ c ≠ '%' := by
  unfold string6 at hc
  simp only at hc
  split at hc
  · simp only [List.mem_append, List.mem_cons, List.mem_singleton] at hc
    rcases hc with (hc | hc) | hc
    · exact joinHex_chars _ (fun x hx => hg x (List.mem_of_mem_take hx)) c hc
    · rcases hc with rfl | rfl | hc
      · decide
      · decide
      · simp at hc
    · exact joinHex_chars _ (fun x hx => hg x (List.mem_of_mem_drop hx)) c hc
  · exact joinHex_chars _ hg c hc

theorem string6_colon (gs : List Nat) (hl : gs.length = 8) : ':' ∈ string6 gs := by
  unfold string6
  simp only
  split
  · simp
  · match gs, hl with
    | x :: y :: t, _ => simp [joinWith]

theorem find_colon : ∀ (l : List Char), (∀ c ∈ l, c ≠ '.' ∧ c ≠ '%') → ':' ∈ l →
    l.find? (fun c => c = '.' || c = ':' || c = '%') = some ':'
  | [], _, h => by simp at h
  | x :: l, hno, h => by
    by_cases hx : x = ':'
    · subst hx; simp [List.find?]
    · have h1 := hno x (by simp)
      have hmem : ':' ∈ l := by
        rcases List.mem_cons.1 h with h | h
        · exact absurd h.symm hx
        · exact h
      have ih := find_colon l (fun c hc => hno c (by simp [hc])) hmem
      simp [List.find?, hx, h1.1, h1.2, ih]

/-- The text of an IPv6 address parses back to that address. -/
theorem ParseAddr_string6 (b : List Nat) (hl : b.length = 16) (hb : ∀ x ∈ b, x < 256) :
    ParseAddr (string6 (groups b)) = some (.v6 b) := by
  have hg := groups_lt b hb
  have hgl : (groups b).length = 8 := by rw [length_groups, hl]
  have hparse := parseIPv6_string6 (groups b) hgl hg
  rw [bytesOf_groups b (by rw [hl]) hb] at hparse
  have hf := find_colon _ (string6_chars (groups b) hg) (string6_colon _ hgl)
  unfold ParseAddr
  rw [hf]
  simp [hparse]

/-- The text `IP.String` gives for a 16-byte address parses back to the same 16 bytes. -/
theorem ParseIP_ipString (b : List Nat) (hl : b.length = 16) (hb : ∀ x ∈ b, x < 256) :
    ParseIP (ipString b) = some b := by
  unfold ParseIP ipString ipStringL
  simp only
  rcases h4 : To4 b with _ | p4
  · simp [ParseAddr_string6 b hl hb, Addr.As16]
  · have hp := To4_bytes b p4 h4 hb
    simp only [ParseAddr_string4 p4 hp.1 hp.2, Option.map_some', Addr.As16]
    unfold To4 at h4
    rw [if_neg (by omega)] at h4
    split at h4
    · next h16 =>
      cases h4
      rw [← h16.2, List.take_append_drop]
    · cases h4

/-! ## Parsed addresses are well formed -/

theorem decVal_lt (c : Char) (v : Nat) (h : decVal c = some v) : v < 10 := by
  unfold decVal at h
  split at h
  · cases h; omega
  · cases h

theorem hexVal_lt (c : Char) (v : Nat) (h : hexVal c = some v) : v < 16 := by
  unfold hexVal at h
  split at h
  · cases h; omega
  · split at h
    · cases h; omega
    · split at h
      · cases h; omega
      · cases h

theorem parseIPv4Fields_wf : ∀ (s : List Char) (val digLen : Nat) (fields r : List Nat),
    parseIPv4Fields s val digLen fields = some r → val < 256 → fields.length ≤ 3 →
    (∀ x ∈ fields, x < 256) → r.length = 4 ∧ ∀ x ∈ r, x < 256
  | [], val, _, fields, r, h, hv, hl, hf => by
    simp only [parseIPv4Fields] at h
    split at h
    · cases h
    · cases h
      refine ⟨by simp; omega, ?_⟩
      intro x hx
      rcases List.mem_append.1 hx with hx | hx
      · exact hf x hx
      · rw [List.mem_singleton.1 hx]; exact hv
  | c :: rest, val, digLen, fields, r, h, hv, hl, hf => by
    simp only [parseIPv4Fields] at h
    split at h
    · split at h
      · cases h
      · split at h
        · cases h
        · exact parseIPv4Fields_wf rest _ _ fields r h (by omega) hl hf
    · split at h
      · split at h
        · cases h
        · split at h
          · cases h
          · refine parseIPv4Fields_wf rest 0 0 _ r h (by omega) (by simp; omega) ?_
            intro x hx
            rcases List.mem_append.1 hx with hx | hx
            · exact hf x hx
            · rw [List.mem_singleton.1 hx]; exact hv
      · cases h

theorem scanHex_wf : ∀ (s : List Char) (off acc off2 acc2 : Nat) (rest : List Char),
    scanHex s off acc = some (off2, acc2, rest) → acc < 65536 → acc2 < 65536
  | [], _, _, _, _, _, h, ha => by
    simp only [scanHex] at h; cases h; exact ha
  | c :: s, off, acc, off2, acc2, rest, h, ha => by
    simp only [scanHex] at h
    split at h
    · cases h; exact ha
    · split at h
      · cases h
      · split at h
        · cases h
        · exact scanHex_wf s _ _ off2 acc2 rest h (by omega)

theorem bytes_append_pair (ip : List Nat) (acc : Nat) (hip : ∀ x ∈ ip, x < 256)
    (ha : acc < 65536) : ∀ x ∈ ip ++ [acc / 256, acc % 256], x < 256 := by
  intro x hx
  rcases List.mem_append.1 hx with hx | hx
  · exact hip x hx
  · simp only [List.mem_cons, List.mem_singleton, List.not_mem_nil, or_false] at hx
    rcases hx with rfl | rfl <;> omega

theorem parseIPv6Loop_wf : ∀ (k : Nat) (ip : List Nat) (ell : Option Nat) (s : List Char)
    (ip2 : List Nat) (ell2 : Option Nat) (s2 : List Char),
    parseIPv6Loop k ip ell s = some (ip2, ell2, s2) → ip.length + 2 * k ≤ 16 →
    (∀ x ∈ ip, x < 256) → ip2.length ≤ 16 ∧ ∀ x ∈ ip2, x < 256
  | 0, ip, ell, s, ip2, ell2, s2, h, hl, hip => by
    simp only [parseIPv6Loop] at h
    cases h
    exact ⟨by omega, hip⟩
  | k + 1, ip, ell, s, ip2, ell2, s2, h, hl, hip => by
    simp only [parseIPv6Loop] at h
    split at h
    · cases h
    · next off acc rest hs =>
      have hacc := scanHex_wf s 0 0 off acc rest hs (by omega)
      have hpair := bytes_append_pair ip acc hip hacc
      split at h
      · cases h
      · split at h
        · split at h
          · cases h
          · split at h
            · cases h
            · split at h
              · cases h
              · next f hf =>
                cases h
                have hw := parseIPv4Fields_wf s 0 0 [] f hf (by omega) (by simp) (by simp)
                refine ⟨by simp [hw.1]; omega, ?_⟩
                intro x hx
                rcases List.mem_append.1 hx with hx | hx
                · exact hip x hx
                · exact hw.2 x hx
        · split at h
          · cases h
            exact ⟨by simp; omega, hpair⟩
          · split at h
            · cases h
            · split at h
              · cases h
              · split at h
                · split at h
                  · cases h
                  · split at h
                    · cases h
                      exact ⟨by simp; omega, hpair⟩
                    · exact parseIPv6Loop_wf k _ _ _ ip2 ell2 s2 h (by simp; omega) hpair
                · exact parseIPv6Loop_wf k _ _ _ ip2 ell2 s2 h (by simp; omega) hpair

theorem finishIPv6_wf (ip : List Nat) (ell : Option Nat) (s : List Char) (r : List Nat)
    (h : finishIPv6 (ip, ell, s) = some r) (hl : ip.length ≤ 16) (hip : ∀ x ∈ ip, x < 256) :
    r.length = 16 ∧ ∀ x ∈ r, x < 256 := by
  simp only [finishIPv6] at h
  split at h
  · cases h
  · split at h
    · split at h
      · cases h
      · next e =>
        cases h
        constructor
        · have h1 : (ip.take e).length + (ip.drop e).length = ip.length := by
            rw [← List.length_append, List.take_append_drop]
          simp only [List.length_append, List.length_replicate]
          omega
        · intro x hx
          simp only [List.mem_append, List.mem_replicate] at hx
          rcases hx with (hx | hx) | hx
          · exact hip x (List.mem_of_mem_take hx)
          · omega
          · exact hip x (List.mem_of_mem_drop hx)
    · split at h
      · cases h
      · cases h
        exact ⟨by omega, hip⟩

theorem parseIPv6_wf (s : List Char) (r : List Nat) (h : parseIPv6 s = some r) :
    r.length = 16 ∧ ∀ x ∈ r, x < 256 := by
  unfold parseIPv6 at h
  split at h
  · cases h
  · split at h
    · split at h
      · cases h
        exact ⟨by simp, by intro x hx; rw [List.mem_replicate] at hx; omega⟩
      · rcases hloop : parseIPv6Loop 8 [] (some 0) (s.drop 2) with _ | ⟨ip2, ell2, s2⟩
        · rw [hloop] at h; cases h
        · rw [hloop] at h
          have hw := parseIPv6Loop_wf 8 [] _ _ ip2 ell2 s2 hloop (by simp) (by simp)
          exact finishIPv6_wf ip2 ell2 s2 r h hw.1 hw.2
    · rcases hloop : parseIPv6Loop 8 [] none s with _ | ⟨ip2, ell2, s2⟩
      · rw [hloop] at h; cases h
      · rw [hloop] at h
        have hw := parseIPv6Loop_wf 8 [] _ _ ip2 ell2 s2 hloop (by simp) (by simp)
        exact finishIPv6_wf ip2 ell2 s2 r h hw.1 hw.2

theorem ParseAddr_wf (s : List Char) (a : Addr) (h : ParseAddr s = some a) :
    (∃ b, a = .v4 b ∧ b.length = 4 ∧ ∀ x ∈ b, x < 256)
      ∨ (∃ b, a = .v6 b ∧ b.length = 16 ∧ ∀ x ∈ b, x < 256) := by
  unfold ParseAddr at h
  split at h
  · split at h
    · rcases h4 : parseIPv4Fields s 0 0 [] with _ | b
      · rw [h4] at h; cases h
      · rw [h4] at h; cases h
        exact Or.inl ⟨b, rfl, parseIPv4Fields_wf s 0 0 [] b h4 (by omega) (by simp) (by simp)⟩
    · split at h
      · rcases h6 : parseIPv6 s with _ | b
        · rw [h6] at h; cases h
        · rw [h6] at h; cases h
          exact Or.inr ⟨b, rfl, parseIPv6_wf s b h6⟩
      · cases h
  · cases h

theorem ParseIP_wf (s : String) (ip : IP) (h : ParseIP s = some ip) :
    ip.length = 16 ∧ ∀ x ∈ ip, x < 256 := by
  unfold ParseIP at h
  rcases ha : ParseAddr s.data with _ | a
  · rw [ha] at h; cases h
  · rw [ha] at h
    cases h
    rcases ParseAddr_wf s.data a ha with ⟨b, rfl, hl, hb⟩ | ⟨b, rfl, hl, hb⟩
    · refine ⟨by simp [Addr.As16, v4InV6Prefix, hl], ?_⟩
      intro x hx
      simp only [Addr.As16, v4InV6Prefix, List.mem_append, List.mem_cons] at hx
      rcases hx with hx | hx
      · rcases hx with rfl | rfl | rfl | rfl | rfl | rfl | rfl | rfl | rfl | rfl | rfl | hx
        all_goals first | omega | skip
        rcases hx with rfl | hx
        · omega
        · simp at hx
      · exact hb x hx
    · exact ⟨hl, hb⟩

/-- A canonical optional address is a fixed point of its canonicalization. -/
theorem normAddr_idem (a : String) (e : NormError) (g : String) (h : normAddr a e = .ok g) :
    normAddr g e = .ok g := by
  unfold normAddr at h
  simp only at h
  split at h
  · rcases hp : ParseIP (trimSpace a) with _ | ip
    · rw [hp] at h; cases h
    · rw [hp] at h
      cases h
      have hw := ParseIP_wf _ ip hp
      have ht : trimSpace (ipString ip) = ipString ip := by
        simp only [trimSpace, ipString]
        rw [trimSpaceL_plain _ (plain_ipStringL ip hw.2)]
      unfold normAddr
      simp only [ht]
      split
      · rw [ParseIP_ipString ip hw.1 hw.2]
      · rfl
  · next hne =>
    cases h
    have hempty : trimSpace a = "" := by simpa using hne
    unfold normAddr
    simp only [trimSpace_idem, hempty]
    rfl

/-! ## CIDR text round trip -/

theorem dtoiAll_uitoa : ∀ l, l ≤ 128 → dtoiAll (uitoa l) 0 0 = some l := by decide

theorem simpleMaskLength_CIDRMask4 : ∀ n, n ≤ 32 → simpleMaskLength (CIDRMask 4 n) = some n := by
  decide

theorem simpleMaskLength_CIDRMask16 :
    ∀ n, n ≤ 128 → simpleMaskLength (CIDRMask 16 n) = some n := by
  decide

theorem CIDRMask_drop12 : ∀ n, n ≤ 128 → (CIDRMask 16 n).drop 12 = CIDRMask 4 (n - 96) := by
  decide

theorem length_CIDRMask : ∀ (l n : Nat), (CIDRMask l n).length = l
  | 0, _ => rfl
  | l + 1, n => by
    simp only [CIDRMask]
    split <;> simp [length_CIDRMask l]

theorem maskIP_idem : ∀ (b m : List Nat), maskIP (maskIP b m) m = maskIP b m
  | [], _ => by simp [maskIP]
  | _ :: _, [] => by simp [maskIP]
  | x :: b, y :: m => by
    have ih := maskIP_idem b m
    simp only [maskIP, List.zipWith_cons_cons] at ih ⊢
    rw [ih]
    congr 1
    show (x &&& y) &&& y = x &&& y
    rw [Nat.and_assoc, Nat.and_self]

theorem maskIP_lt : ∀ (b m : List Nat), (∀ x ∈ b, x < 256) → ∀ x ∈ maskIP b m, x < 256
  | [], _, _, x, hx => by simp [maskIP] at hx
  | _ :: _, [], _, x, hx => by simp [maskIP] at hx
  | y :: b, z :: m, hb, x, hx => by
    simp only [maskIP, List.zipWith_cons_cons, List.mem_cons] at hx
    rcases hx with rfl | hx
    · have h1 : y &&& z ≤ y := Nat.and_le_left
      have h2 := hb y (by simp)
      show y &&& z < 256
      omega
    · exact maskIP_lt b m (fun w hw => hb w (by simp [hw])) x hx

theorem length_maskIP (b m : List Nat) (h : b.length = m.length) :
    (maskIP b m).length = b.length := by
  simp [maskIP, h]

theorem takeWhile_slash : ∀ (l r : List Char), (∀ c ∈ l, c ≠ '/') →
    (l ++ '/' :: r).takeWhile (· ≠ '/') = l ∧ (l ++ '/' :: r).dropWhile (· ≠ '/') = '/' :: r
  | [], r, _ => by simp [List.takeWhile, List.dropWhile]
  | x :: l, r, h => by
    have hx : x ≠ '/' := h x (by simp)
    have ih := takeWhile_slash l r (fun c hc => h c (by simp [hc]))
    simp only [ne_eq, decide_not] at ih
    simp [List.takeWhile, List.dropWhile, hx, ih.1, ih.2]

/-- What `ParseCIDR` can return: the masked bytes of an IPv4 or an IPv6 address together
with the prefix mask. -/
theorem ParseCIDR_cases (s : String) (ipNet : IPNet) (h : ParseCIDR s = some ipNet) :
    ∃ b n, (∀ x ∈ b, x < 256) ∧
      ((b.length = 4 ∧ n ≤ 32 ∧ ipNet = ⟨maskIP b (CIDRMask 4 n), CIDRMask 4 n⟩)
        ∨ (b.length = 16 ∧ n ≤ 128 ∧ ipNet = ⟨maskIP b (CIDRMask 16 n), CIDRMask 16 n⟩)) := by
  unfold ParseCIDR at h
  split at h
  · split at h
    · cases h
    · next a ha =>
      split at h
      · cases h
      · next n hn =>
        split at h
        · cases h
        · next hle =>
          rcases ParseAddr_wf _ a ha with ⟨b, rfl, hl, hb⟩ | ⟨b, rfl, hl, hb⟩
          · simp only [Addr.BitLen] at hle
            cases h
            exact ⟨b, n, hb, Or.inl ⟨hl, by omega, rfl⟩⟩
          · simp only [Addr.BitLen] at hle
            cases h
            exact ⟨b, n, hb, Or.inr ⟨hl, by omega, rfl⟩⟩
  · cases h

/-- The canonical text of a network: address text, `/`, prefix length. -/
theorem canonical_text (nn : List Nat) (l : Nat) (hb : ∀ x ∈ nn, x < 256)
    (hm : maskIP nn (CIDRMask nn.length l) = nn)
    (h : (nn.length = 4 ∧ l ≤ 32) ∨ (nn.length = 16 ∧ l ≤ 128 ∧ To4 nn = none)) :
    (IPNet.mk nn (CIDRMask nn.length l)).String = ⟨ipStringL nn ++ '/' :: uitoa l⟩
      ∧ ParseCIDR ⟨ipStringL nn ++ '/' :: uitoa l⟩ = some ⟨nn, CIDRMask nn.length l⟩ := by
  have hplain := plain_ipStringL nn hb
  have hns : ∀ c ∈ ipStringL nn, c ≠ '/' := fun c hc => (plainChar_facts c (hplain c hc)).2.2.1
  have htw := takeWhile_slash (ipStringL nn) (uitoa l) hns
  have hl128 : l ≤ 128 := by rcases h with h | h <;> omega
  rcases h with ⟨h4, hl⟩ | ⟨h16, hl, hto4⟩
  · have hto4 : To4 nn = some nn := by simp [To4, h4]
    have hstr : ipStringL nn = string4 nn := by simp [ipStringL, hto4]
    constructor
    · simp [IPNet.String, networkNumberAndMask, hto4, h4, length_CIDRMask,
        simpleMaskLength_CIDRMask4 l hl]
    · unfold ParseCIDR
      simp only [List.mem_append, List.mem_cons, true_or, or_true, if_true, htw.1, htw.2,
        List.drop_succ_cons, List.drop_zero, dtoiAll_uitoa l hl128]
      rw [hstr, ParseAddr_string4 nn h4 hb]
      simp only [Addr.BitLen, show ¬ l > 32 by omega, if_false]
      rw [← h4, hm]
  · have hstr : ipStringL nn = string6 (groups nn) := by simp [ipStringL, hto4]
    constructor
    · simp [IPNet.String, networkNumberAndMask, hto4, h16, length_CIDRMask,
        simpleMaskLength_CIDRMask16 l hl, hstr, ipStringL]
    · unfold ParseCIDR
      simp only [List.mem_append, List.mem_cons, true_or, or_true, if_true, htw.1, htw.2,
        List.drop_succ_cons, List.drop_zero, dtoiAll_uitoa l hl128]
      rw [hstr, ParseAddr_string6 nn h16 hb]
      simp only [Addr.BitLen, show ¬ l > 128 by omega, if_false]
      rw [← h16, hm]

/-- Every text `ParseCIDR` followed by `IPNet.String` produces is a canonical text. -/
theorem ParseCIDR_String (s : String) (ipNet : IPNet) (h : ParseCIDR s = some ipNet) :
    ∃ nn l, (∀ x ∈ nn, x < 256) ∧ maskIP nn (CIDRMask nn.length l) = nn
      ∧ ((nn.length = 4 ∧ l ≤ 32) ∨ (nn.length = 16 ∧ l ≤ 128 ∧ To4 nn = none))
      ∧ ipNet.String = ⟨ipStringL nn ++ '/' :: uitoa l⟩ := by
  obtain ⟨b, n, hb, hc⟩ := ParseCIDR_cases s ipNet h
  rcases hc with ⟨h4, hn, rfl⟩ | ⟨h16, hn, rfl⟩
  · have hlen : (maskIP b (CIDRMask 4 n)).length = 4 := by
      rw [length_maskIP _ _ (by rw [h4, length_CIDRMask]), h4]
    have hm : maskIP (maskIP b (CIDRMask 4 n)) (CIDRMask (maskIP b (CIDRMask 4 n)).length n)
        = maskIP b (CIDRMask 4 n) := by rw [hlen, maskIP_idem]
    have hct := canonical_text (maskIP b (CIDRMask 4 n)) n (maskIP_lt _ _ hb) hm
      (Or.inl ⟨hlen, hn⟩)
    rw [hlen] at hct
    exact ⟨_, n, maskIP_lt _ _ hb, hm, Or.inl ⟨hlen, hn⟩, hct.1⟩
  · have hlen : (maskIP b (CIDRMask 16 n)).length = 16 := by
      rw [length_maskIP _ _ (by rw [h16, length_CIDRMask]), h16]
    have hm : maskIP (maskIP b (CIDRMask 16 n)) (CIDRMask (maskIP b (CIDRMask 16 n)).length n)
        = maskIP b (CIDRMask 16 n) := by rw [hlen, maskIP_idem]
    rcases hto4 : To4 (maskIP b (CIDRMask 16 n)) with _ | p4
    · have hct := canonical_text (maskIP b (CIDRMask 16 n)) n (maskIP_lt _ _ hb) hm
        (Or.inr ⟨hlen, hn, hto4⟩)
      rw [hlen] at hct
      exact ⟨_, n, maskIP_lt _ _ hb, hm, Or.inr ⟨hlen, hn, hto4⟩, hct.1⟩
    · have hp := To4_bytes _ p4 hto4 (maskIP_lt _ _ hb)
      have hp4 : p4 = maskIP (b.drop 12) (CIDRMask 4 (n - 96)) := by
        unfold To4 at hto4
        rw [if_neg (by omega)] at hto4
        split at hto4
        · cases hto4
          rw [maskIP, List.drop_zipWith, CIDRMask_drop12 n hn]
          rfl
        · cases hto4
      have hm4 : maskIP p4 (CIDRMask p4.length (n - 96)) = p4 := by
        rw [hp.1, hp4, maskIP_idem]
      refine ⟨p4, n - 96, hp.2, hm4, Or.inl ⟨hp.1, by omega⟩, ?_⟩
      have hto4p : To4 p4 = some p4 := by simp [To4, hp.1]
      simp [IPNet.String, networkNumberAndMask, hto4, length_CIDRMask, CIDRMask_drop12 n hn,
        simpleMaskLength_CIDRMask4 (n - 96) (by omega)]

/-- A canonical destination is a fixed point of its canonicalization. -/
theorem normDst_idem (d c : String) (h : normDst d = .ok c) : normDst c = .ok c := by
  unfold normDst at h
  simp only at h
  split at h
  · cases h
  · split at h
    · rcases hp : ParseCIDR (toLower (trimSpace d)) with _ | ipNet
      · rw [hp] at h; cases h
      · rw [hp] at h
        cases h
        obtain ⟨nn, l, hb, hm, hc, hs⟩ := ParseCIDR_String _ ipNet hp
        have hct := canonical_text nn l hb hm hc
        have hchars : ∀ x ∈ ipStringL nn ++ '/' :: uitoa l,
            isSpace x = false ∧ toLowerRune x = x := by
          intro x hx
          simp only [List.mem_append, List.mem_cons] at hx
          rcases hx with hx | rfl | hx
          · exact ⟨(plainChar_facts x (plain_ipStringL nn hb x hx)).1,
              (plainChar_facts x (plain_ipStringL nn hb x hx)).2.1⟩
          · decide
          · exact ⟨(plainChar_facts x (plain_decDigits _ _ x hx)).1,
              (plainChar_facts x (plain_decDigits _ _ x hx)).2.1⟩
        have hfix : toLower (trimSpace ipNet.String) = ipNet.String := by
          rw [hs]
          simp only [toLower, trimSpace]
          rw [trimSpaceL_of_noSpace _ (fun x hx => (hchars x hx).1)]
          congr 1
          conv_rhs => rw [← List.map_id (ipStringL nn ++ '/' :: uitoa l)]
          exact List.map_congr_left fun x hx => (hchars x hx).2
        unfold normDst
        simp only [hfix]
        have hne1 : ipNet.String ≠ "" := by
          rw [hs]; intro he
          have := congrArg String.data he
          simp at this
        have hne2 : ipNet.String ≠ "default" := by
          rw [hs]; intro he
          have := congrArg String.data he
          simp only at this
          have h2 : '/' ∈ ['d', 'e', 'f', 'a', 'u', 'l', 't'] := by rw [← this]; simp
          exact absurd h2 (by decide)
        rw [if_neg hne1, if_pos hne2]
        simp only [hs, hct.2, hct.1]
    · next hdef =>
      cases h
      have hd : toLower (trimSpace d) = "default" := by simpa using hdef
      rw [hd]
      decide

/-! ## Normalization -/

theorem Normalize_fields (r n : Route) (h : r.Normalize = .ok n) :
    normDst r.Dst = .ok n.Dst ∧ normAddr r.Gateway .invalidGateway = .ok n.Gateway
      ∧ normAddr r.Src .invalidSrc = .ok n.Src ∧ n.Device = trimSpace r.Device
      ∧ n.Table = r.Table ∧ n.Metric = r.Metric ∧ 0 ≤ r.Table ∧ 0 ≤ r.Metric
      ∧ n.Scope = toLower (trimSpace r.Scope) ∧ n.Type_ = toLower (trimSpace r.Type_)
      ∧ n.Proto = toLower (trimSpace r.Proto) := by
  unfold Route.Normalize at h
  split at h
  · cases h
  · next dst hd =>
    split at h
    · cases h
    · next gw hg =>
      split at h
      · cases h
      · next src hs =>
        split at h
        · cases h
        · split at h
          · cases h
          · cases h
            exact ⟨hd, hg, hs, rfl, rfl, rfl, by omega, by omega, rfl, rfl, rfl⟩

theorem Normalize_of_fields (r : Route) (dst gw src : String)
    (hd : normDst r.Dst = .ok dst) (hg : normAddr r.Gateway .invalidGateway = .ok gw)
    (hs : normAddr r.Src .invalidSrc = .ok src) (ht : 0 ≤ r.Table) (hm : 0 ≤ r.Metric) :
    r.Normalize = .ok
      { Dst := dst, Gateway := gw, Device := trimSpace r.Device, Table := r.Table,
        Metric := r.Metric, Src := src, Scope := toLower (trimSpace r.Scope),
        Type_ := toLower (trimSpace r.Type_), Proto := toLower (trimSpace r.Proto) } := by
  unfold Route.Normalize
  simp only [hd, hg, hs]
  rw [if_neg (by omega), if_neg (by omega)]

theorem lower_trim_fix (s : String) :
    toLower (trimSpace (toLower (trimSpace s))) = toLower (trimSpace s) := by
  rw [trimSpace_toLower_trimSpace, toLower_idem]

/-- A normalized route is a fixed point of `Normalize`. -/
theorem Normalize_idem (r n : Route) (h : r.Normalize = .ok n) : n.Normalize = .ok n := by
  obtain ⟨hd, hg, hs, hdev, ht, hm, ht0, hm0, hsc, hty, hpr⟩ := Normalize_fields r n h
  have h2 := Normalize_of_fields n n.Dst n.Gateway n.Src (normDst_idem _ _ hd)
    (normAddr_idem _ _ _ hg) (normAddr_idem _ _ _ hs) (by omega) (by omega)
  rw [h2]
  congr 1
  cases n
  simp only [Route.mk.injEq] at *
  subst hdev hsc hty hpr
  simp [trimSpace_idem, lower_trim_fix]

/-! ## The identity key -/

theorem decValue_decDigits : ∀ (f n : Nat), n < f → decValue (decDigits f n) = n
  | 0, _, h => by omega
  | f + 1, n, h => by
    simp only [decDigits]
    split
    · next h10 =>
      have := decVal_digitChar n h10
      simp only [decVal] at this
      split at this
      · simp only [decValue, List.foldl]
        simp only [Option.some.injEq] at this
        omega
      · cases this
    · next h10 =>
      have ih := decValue_decDigits f (n / 10) (by omega)
      have hd := decVal_digitChar (n % 10) (by omega)
      simp only [decVal] at hd
      split at hd
      · simp only [Option.some.injEq] at hd
        simp only [decValue, List.foldl_append, List.foldl] at ih ⊢
        rw [ih]
        omega
      · cases hd

theorem uitoa_inj (a b : Nat) (h : uitoa a = uitoa b) : a = b := by
  have ha := decValue_decDigits (a + 1) a (by omega)
  have hb := decValue_decDigits (b + 1) b (by omega)
  unfold uitoa at h
  rw [h, hb] at ha
  exact ha.symm

theorem uitoa_no_minus (n : Nat) : ¬ '-' ∈ uitoa n := by
  intro h
  have := plain_decDigits _ _ _ h
  exact absurd this (by decide)

theorem fmtInt_inj (a b : Int) : fmtInt a = fmtInt b ↔ a = b := by
  constructor
  · intro h
    unfold fmtInt at h
    split at h <;> split at h
    · have := uitoa_inj _ _ (List.cons.inj h).2
      omega
    · exact absurd (by rw [← h]; simp) (uitoa_no_minus b.toNat)
    · exact absurd (by rw [h]; simp) (uitoa_no_minus a.toNat)
    · have := uitoa_inj _ _ h
      omega
  · intro h; rw [h]

theorem Key_of_Normalize (r n : Route) (h : r.Normalize = .ok n) : r.Key = .ok (formatKey n) := by
  simp [Route.Key, h]

theorem data_inj (a b : String) : a.data = b.data ↔ a = b := by
  constructor
  · intro h; exact String.ext h
  · intro h; rw [h]

theorem formatKey_differ (f : Field) (a b : Route) (h : differOnlyIn f a b) :
    formatKey a ≠ formatKey b := by
  obtain ⟨hne, hall⟩ := h
  intro hk
  apply hne
  have hdst := hall .dst
  have hgw := hall .gateway
  have hdev := hall .device
  have htab := hall .table
  have hmet := hall .metric
  have hsrc := hall .src
  have hsco := hall .scope
  have htyp := hall .type_
  have hpro := hall .proto
  obtain ⟨d1, g1, v1, t1, m1, s1, c1, y1, p1⟩ := a
  obtain ⟨d2, g2, v2, t2, m2, s2, c2, y2, p2⟩ := b
  simp only [agreeOn] at hdst hgw hdev htab hmet hsrc hsco htyp hpro
  have hk := congrArg String.data hk
  simp only [formatKey, List.append_assoc] at hk
  cases f
  case dst =>
    obtain rfl := hgw (by decide); obtain rfl := hdev (by decide); obtain rfl := htab (by decide)
    obtain rfl := hmet (by decide); obtain rfl := hsrc (by decide); obtain rfl := hsco (by decide)
    obtain rfl := htyp (by decide); obtain rfl := hpro (by decide)
    simpa only [agreeOn, List.append_cancel_left_eq, List.append_cancel_right_eq, data_inj,
      fmtInt_inj] using hk
  case gateway =>
    obtain rfl := hdst (by decide); obtain rfl := hdev (by decide); obtain rfl := htab (by decide)
    obtain rfl := hmet (by decide); obtain rfl := hsrc (by decide); obtain rfl := hsco (by decide)
    obtain rfl := htyp (by decide); obtain rfl := hpro (by decide)
    simpa only [agreeOn, List.append_cancel_left_eq, List.append_cancel_right_eq, data_inj,
      fmtInt_inj] using hk
  case device =>
    obtain rfl := hdst (by decide); obtain rfl := hgw (by decide); obtain rfl := htab (by decide)
    obtain rfl := hmet (by decide); obtain rfl := hsrc (by decide); obtain rfl := hsco (by decide)
    obtain rfl := htyp (by decide); obtain rfl := hpro (by decide)
    simpa only [agreeOn, List.append_cancel_left_eq, List.append_cancel_right_eq, data_inj,
      fmtInt_inj] using hk
  case table =>
    obtain rfl := hdst (by decide); obtain rfl := hgw (by decide); obtain rfl := hdev (by decide)
    obtain rfl := hmet (by decide); obtain rfl := hsrc (by decide); obtain rfl := hsco (by decide)
    obtain rfl := htyp (by decide); obtain rfl := hpro (by decide)
    simpa only [agreeOn, List.append_cancel_left_eq, List.append_cancel_right_eq, data_inj,
      fmtInt_inj] using hk
  case metric =>
    obtain rfl := hdst (by decide); obtain rfl := hgw (by decide); obtain rfl := hdev (by decide)
    obtain rfl := htab (by decide); obtain rfl := hsrc (by decide); obtain rfl := hsco (by decide)
    obtain rfl := htyp (by decide); obtain rfl := hpro (by decide)
    simpa only [agreeOn, List.append_cancel_left_eq, List.append_cancel_right_eq, data_inj,
      fmtInt_inj] using hk
  case src =>
    obtain rfl := hdst (by decide); obtain rfl := hgw (by decide); obtain rfl := hdev (by decide)
    obtain rfl := htab (by decide); obtain rfl := hmet (by decide); obtain rfl := hsco (by decide)
    obtain rfl := htyp (by decide); obtain rfl := hpro (by decide)
    simpa only [agreeOn, List.append_cancel_left_eq, List.append_cancel_right_eq, data_inj,
      fmtInt_inj] using hk
  case scope =>
    obtain rfl := hdst (by decide); obtain rfl := hgw (by decide); obtain rfl := hdev (by decide)
    obtain rfl := htab (by decide); obtain rfl := hmet (by decide); obtain rfl := hsrc (by decide)
    obtain rfl := htyp (by decide); obtain rfl := hpro (by decide)
    simpa only [agreeOn, List.append_cancel_left_eq, List.append_cancel_right_eq, data_inj,
      fmtInt_inj] using hk
  case type_ =>
    obtain rfl := hdst (by decide); obtain rfl := hgw (by decide); obtain rfl := hdev (by decide)
    obtain rfl := htab (by decide); obtain rfl := hmet (by decide); obtain rfl := hsrc (by decide)
    obtain rfl := hsco (by decide); obtain rfl := hpro (by decide)
    simpa only [agreeOn, List.append_cancel_left_eq, List.append_cancel_right_eq, data_inj,
      fmtInt_inj] using hk
  case proto =>
    obtain rfl := hdst (by decide); obtain rfl := hgw (by decide); obtain rfl := hdev (by decide)
    obtain rfl := htab (by decide); obtain rfl := hmet (by decide); obtain rfl := hsrc (by decide)
    obtain rfl := hsco (by decide); obtain rfl := htyp (by decide)
    simpa only [agreeOn, List.append_cancel_left_eq, List.append_cancel_right_eq, data_inj,
      fmtInt_inj] using hk

theorem Route_eq_of_agree (a b : Route) (h : ∀ f, agreeOn f a b) : a = b := by
  obtain ⟨d1, g1, v1, t1, m1, s1, c1, y1, p1⟩ := a
  obtain ⟨d2, g2, v2, t2, m2, s2, c2, y2, p2⟩ := b
  have h1 := h .dst; have h2 := h .gateway; have h3 := h .device; have h4 := h .table
  have h5 := h .metric; have h6 := h .src; have h7 := h .scope; have h8 := h .type_
  have h9 := h .proto
  simp only [agreeOn] at h1 h2 h3 h4 h5 h6 h7 h8 h9
  simp [h1, h2, h3, h4, h5, h6, h7, h8, h9]

/-! ## Maps -/

theorem mapHas_iff (m : RouteMap) (k : String) : mapHas m k = true ↔ k ∈ mapKeys m := by
  simp only [mapHas, mapKeys, List.any_eq_true, decide_eq_true_eq, List.mem_map]

theorem mapKeys_mapSet : ∀ (m : RouteMap) (k : String) (v : Route),
    mapKeys (mapSet m k v) = if k ∈ mapKeys m then mapKeys m else mapKeys m ++ [k]
  | [], k, v => by simp [mapSet, mapKeys]
  | (k', v') :: t, k, v => by
    have ih := mapKeys_mapSet t k v
    simp only [mapKeys] at ih ⊢
    by_cases h : k' = k
    · subst h; simp [mapSet]
    · have h' : ¬ k = k' := fun e => h e.symm
      simp only [mapSet, if_neg h, List.map_cons, ih, List.mem_cons, h', false_or]
      split <;> simp

theorem mem_mapKeys_mapSet (m : RouteMap) (k : String) (v : Route) (k' : String) :
    k' ∈ mapKeys (mapSet m k v) ↔ k' = k ∨ k' ∈ mapKeys m := by
  rw [mapKeys_mapSet]
  split
  · next h =>
    constructor
    · intro h'; exact Or.inr h'
    · rintro (rfl | h')
      · exact h
      · exact h'
  · simp [or_comm]

theorem nodup_mapSet (m : RouteMap) (k : String) (v : Route) (h : (mapKeys m).Nodup) :
    (mapKeys (mapSet m k v)).Nodup := by
  rw [mapKeys_mapSet]
  split
  · exact h
  · next hk =>
    rw [List.nodup_append]
    refine ⟨h, by simp, ?_⟩
    intro a ha hb
    rw [List.mem_singleton] at hb
    subst hb
    exact hk ha

theorem mapGet_mapSet : ∀ (m : RouteMap) (k : String) (v : Route) (k' : String),
    mapGet (mapSet m k v) k' = if k' = k then some v else mapGet m k'
  | [], k, v, k' => by
    simp only [mapSet, mapGet]
    by_cases h : k = k'
    · subst h; simp
    · have h' : ¬ k' = k := fun e => h e.symm
      simp [h, h']
  | (k0, v0) :: t, k, v, k' => by
    have ih := mapGet_mapSet t k v k'
    by_cases h : k0 = k
    · subst h
      simp only [mapSet, if_true, mapGet]
      by_cases h2 : k0 = k'
      · subst h2; simp
      · have h2' : ¬ k' = k0 := fun e => h2 e.symm
        simp [h2, h2']
    · simp only [mapSet, if_neg h, mapGet, ih]
      by_cases h2 : k0 = k'
      · subst h2; simp [h]
      · simp [h2]

theorem mapGet_none_iff : ∀ (m : RouteMap) (k : String), mapGet m k = none ↔ ¬ k ∈ mapKeys m
  | [], k => by simp [mapGet, mapKeys]
  | (k0, v0) :: t, k => by
    have ih := mapGet_none_iff t k
    simp only [mapKeys] at ih
    by_cases h : k0 = k
    · subst h; simp [mapGet, mapKeys]
    · have h' : ¬ k = k0 := fun e => h e.symm
      simp [mapGet, mapKeys, h, h', ih]

theorem mem_iff_mapGet : ∀ (m : RouteMap), (mapKeys m).Nodup → ∀ (k : String) (v : Route),
    (k, v) ∈ m ↔ mapGet m k = some v
  | [], _, k, v => by simp [mapGet]
  | (k0, v0) :: t, hnd, k, v => by
    simp only [mapKeys, List.map_cons, List.nodup_cons] at hnd
    have ih := mem_iff_mapGet t hnd.2 k v
    by_cases h : k0 = k
    · subst h
      simp only [List.mem_cons, Prod.mk.injEq, true_and, mapGet, if_true, Option.some.injEq]
      constructor
      · rintro (h | h)
        · exact h.symm
        · exact absurd (List.mem_map.2 ⟨(k0, v), h, rfl⟩) hnd.1
      · intro h; exact Or.inl h.symm
    · have h' : ¬ k = k0 := fun e => h e.symm
      simp only [List.mem_cons, Prod.mk.injEq, h', false_and, false_or, mapGet, if_neg h, ih]

theorem mapGet_mapDelete : ∀ (m : RouteMap) (k k' : String),
    mapGet (mapDelete m k) k' = if k' = k then none else mapGet m k'
  | [], k, k' => by simp [mapDelete, mapGet]
  | (k0, v0) :: t, k, k' => by
    have ih := mapGet_mapDelete t k k'
    simp only [mapDelete] at ih ⊢
    by_cases h : k0 = k
    · subst h
      simp only [List.filter, ne_eq, not_true_eq_false, decide_False, ih, mapGet]
      by_cases h2 : k' = k0
      · simp [h2]
      · have h2' : ¬ k0 = k' := fun e => h2 e.symm
        simp [h2, h2']
    · simp only [List.filter, ne_eq, h, not_false_eq_true, decide_True, mapGet, ih]
      by_cases h2 : k0 = k'
      · subst h2; simp [h]
      · simp [h2]

theorem nodup_mapDelete (m : RouteMap) (k : String) (h : (mapKeys m).Nodup) :
    (mapKeys (mapDelete m k)).Nodup := by
  have hs : List.Sublist (mapKeys (mapDelete m k)) (mapKeys m) := by
    simp only [mapKeys, mapDelete]
    exact List.Sublist.map _ (List.filter_sublist _)
  exact hs.nodup h

theorem Keyed_iff (m : RouteMap) (hnd : (mapKeys m).Nodup) :
    Keyed m ↔ ∀ k v, mapGet m k = some v → k = keyOf v := by
  constructor
  · intro h k v hg
    exact h (k, v) ((mem_iff_mapGet m hnd k v).2 hg)
  · intro h kv hkv
    exact h kv.1 kv.2 ((mem_iff_mapGet m hnd kv.1 kv.2).1 hkv)

/-- A map holding the routes of a list under their keys, later routes overwriting earlier
ones: as built by the loops of `DiffRoutes` and `Reconcile`. -/
theorem seedApplied_spec : ∀ (ns : List Route) (m : RouteMap), (mapKeys m).Nodup →
    (mapKeys (seedApplied ns m)).Nodup
      ∧ (∀ k, k ∈ mapKeys (seedApplied ns m) ↔ k ∈ mapKeys m ∨ k ∈ keysOf ns)
      ∧ ∀ k, mapGet (seedApplied ns m) k
          = match lastWithKey ns k with
            | some n => some n
            | none => mapGet m k
  | [], m, h => by simpa [seedApplied, keysOf, lastWithKey] using h
  | n :: ns, m, h => by
    have ih := seedApplied_spec ns (mapSet m (keyOf n) n) (nodup_mapSet m _ _ h)
    simp only [seedApplied, List.foldl_cons] at ih ⊢
    refine ⟨ih.1, ?_, ?_⟩
    · intro k
      rw [ih.2.1 k, mem_mapKeys_mapSet]
      simp only [keysOf, List.map_cons, List.mem_cons]
      tauto
    · intro k
      rw [ih.2.2 k]
      simp only [lastWithKey, List.reverse_cons, List.find?_append]
      rcases hl : List.find? (fun r => decide (keyOf r = k)) ns.reverse with _ | r
      · simp only [Option.none_or, mapGet_mapSet]
        by_cases hk : keyOf n = k
        · simp [List.find?, hk]
        · have hk' : ¬ k = keyOf n := fun e => hk e.symm
          simp [List.find?, hk, hk']
      · simp

/-! ## Key order and sorting -/

theorem strLess_irrefl (a : String) : strLess a a = false := lessL_irrefl a.data

theorem strLess_trans (a b c : String) (h1 : strLess a b = true) (h2 : strLess b c = true) :
    strLess a c = true := lessL_trans _ _ _ h1 h2

theorem strLess_total (a b : String) (h1 : strLess a b = false) (h2 : strLess b a = false) :
    a = b := String.ext (lessL_total _ _ h1 h2)

theorem strLess_asymm (a b : String) (h : strLess a b = true) : strLess b a = false := by
  by_contra h2
  have h3 := strLess_trans a b a h (by simpa using h2)
  rw [strLess_irrefl] at h3
  cases h3

theorem keyLE_total : IsTotal Route keyLE :=
  ⟨fun a b => by
    unfold keyLE
    by_cases h : strLess (keyOf b) (keyOf a) = true
    · exact Or.inr (strLess_asymm _ _ h)
    · exact Or.inl (by simpa using h)⟩

theorem keyLE_trans : IsTrans Route keyLE :=
  ⟨fun a b c hab hbc => by
    unfold keyLE at *
    by_contra hca
    have hca : strLess (keyOf c) (keyOf a) = true := by simpa using hca
    by_cases hbc2 : strLess (keyOf b) (keyOf c) = true
    · have := strLess_trans _ _ _ hbc2 hca
      rw [hab] at this
      cases this
    · have heq := strLess_total _ _ (by simpa using hbc2) hbc
      rw [← heq, hab] at hca
      cases hca⟩

theorem sortRoutes_perm (l : List Route) : (sortRoutes l).Perm l :=
  List.perm_insertionSort _ _

theorem mem_sortRoutes (l : List Route) (r : Route) : r ∈ sortRoutes l ↔ r ∈ l :=
  (sortRoutes_perm l).mem_iff

theorem keysOf_sortRoutes (l : List Route) : (keysOf (sortRoutes l)).Perm (keysOf l) :=
  (sortRoutes_perm l).map _

theorem sortRoutes_sorted (l : List Route) : List.Sorted keyLE (sortRoutes l) :=
  @List.sorted_insertionSort Route keyLE _ keyLE_total keyLE_trans l

theorem nodup_keysOf_sortRoutes (l : List Route) (h : (keysOf l).Nodup) :
    (keysOf (sortRoutes l)).Nodup :=
  (keysOf_sortRoutes l).nodup_iff.2 h

/-- On a list with pairwise distinct keys the sorted list is strictly ascending. -/
theorem sortRoutes_strict (l : List Route) (h : (keysOf l).Nodup) :
    List.Pairwise keyLT (sortRoutes l) := by
  have hs : List.Pairwise keyLE (sortRoutes l) := sortRoutes_sorted l
  have hn : List.Pairwise (fun a b => keyOf a ≠ keyOf b) (sortRoutes l) := by
    have := nodup_keysOf_sortRoutes l h
    simpa [keysOf, List.Nodup, List.pairwise_map] using this
  refine (hs.and hn).imp ?_
  intro a b hab
  unfold keyLE at hab
  unfold keyLT
  by_contra hlt
  exact hab.2 (strLess_total _ _ (by simpa using hlt) hab.1)

theorem strict_unique (l1 l2 : List Route) (hp : l1.Perm l2) (h1 : List.Pairwise keyLT l1)
    (h2 : List.Pairwise keyLT l2) : l1 = l2 := by
  have hanti : IsAntisymm Route keyLT :=
    ⟨fun a b hab hba => by
      unfold keyLT at hab hba
      rw [strLess_asymm _ _ hab] at hba
      cases hba⟩
  exact List.eq_of_perm_of_sorted hp h1 h2

/-- Sorting does not depend on the order of a list whose keys are pairwise distinct: the
outcome of `sort.Slice` is the same for every iteration order of the map it came from. -/
theorem sortRoutes_congr (l1 l2 : List Route) (hp : l1.Perm l2) (h : (keysOf l1).Nodup) :
    sortRoutes l1 = sortRoutes l2 := by
  have h2 : (keysOf l2).Nodup := (hp.map keyOf).nodup_iff.1 h
  exact strict_unique _ _ (((sortRoutes_perm l1).trans hp).trans (sortRoutes_perm l2).symm)
    (sortRoutes_strict l1 h) (sortRoutes_strict l2 h2)

theorem sortRoutes_of_strict (l : List Route) (h : List.Pairwise keyLT l) : sortRoutes l = l := by
  have hn : (keysOf l).Nodup := by
    simp only [keysOf, List.Nodup, List.pairwise_map]
    refine h.imp ?_
    intro a b hab heq
    unfold keyLT at hab
    rw [heq, strLess_irrefl] at hab
    cases hab
  exact strict_unique _ _ (sortRoutes_perm l) (sortRoutes_strict l hn) h

/-! ## The diff engine -/

theorem keyOf_eq (r n : Route) (h : r.Normalize = .ok n) :
    keyOf r = formatKey n ∧ keyOf n = formatKey n := by
  have h2 := Normalize_idem r n h
  simp [keyOf, Route.Key, h, h2]

theorem keyOf_normalized (r n : Route) (h : r.Normalize = .ok n) : keyOf n = keyOf r := by
  rw [(keyOf_eq r n h).1, (keyOf_eq r n h).2]

theorem mem_normList (rs : List Route) (n : Route) :
    n ∈ normList rs ↔ ∃ r ∈ rs, r.Normalize = .ok n := by
  simp only [normList, List.mem_filterMap]
  constructor
  · rintro ⟨r, hr, h⟩
    refine ⟨r, hr, ?_⟩
    split at h
    · next n' hn => cases h; exact hn
    · cases h
  · rintro ⟨r, hr, h⟩
    exact ⟨r, hr, by simp [h]⟩

theorem normList_cons_ok (r n : Route) (rs : List Route) (h : r.Normalize = .ok n) :
    normList (r :: rs) = n :: normList rs := by
  simp [normList, List.filterMap_cons, h]

theorem keysOf_normList : ∀ (rs : List Route), (∀ r ∈ rs, Normalizes r) →
    keysOf (normList rs) = keysOf rs
  | [], _ => rfl
  | r :: rs, h => by
    obtain ⟨n, hn⟩ := h r (by simp)
    rw [normList_cons_ok r n rs hn]
    simp only [keysOf, List.map_cons]
    have ih := keysOf_normList rs (fun x hx => h x (by simp [hx]))
    simp only [keysOf] at ih
    rw [ih, keyOf_normalized r n hn]

theorem normList_normalized (rs : List Route) (n : Route) (h : n ∈ normList rs) :
    n.Normalize = .ok n := by
  obtain ⟨r, _, hr⟩ := (mem_normList rs n).1 h
  exact Normalize_idem r n hr

theorem buildMap_ok : ∀ (rs : List Route) (i : Nat) (m : RouteMap),
    (∀ r ∈ rs, Normalizes r) →
    buildMap rs i m = .ok (seedApplied (normList rs) m)
  | [], _, _, _ => rfl
  | r :: rs, i, m, h => by
    obtain ⟨n, hn⟩ := h r (by simp)
    rw [normList_cons_ok r n rs hn]
    simp only [buildMap, hn, seedApplied, List.foldl_cons]
    exact buildMap_ok rs (i + 1) _ (fun x hx => h x (by simp [hx]))

theorem buildMap_ok_inv : ∀ (rs : List Route) (i : Nat) (m m2 : RouteMap),
    buildMap rs i m = .ok m2 → ∀ r ∈ rs, Normalizes r
  | [], _, _, _, _, r, hr => by simp at hr
  | x :: rs, i, m, m2, h, r, hr => by
    simp only [buildMap] at h
    split at h
    · cases h
    · next n hn =>
      rcases List.mem_cons.1 hr with rfl | hr
      · exact ⟨n, hn⟩
      · exact buildMap_ok_inv rs _ _ m2 h r hr

/-- The two maps `DiffRoutes` builds when every input element normalizes. -/
theorem DiffRoutes_ok (old desired : List Route) (ho : ∀ r ∈ old, Normalizes r)
    (hd : ∀ r ∈ desired, Normalizes r) :
    DiffRoutes old desired
      = .ok (diffMaps (seedApplied (normList old) []) (seedApplied (normList desired) [])) := by
  simp [DiffRoutes, buildMap_ok old 0 [] ho, buildMap_ok desired 0 [] hd]

/-- `DiffRoutes` succeeds only when every input element normalizes. -/
theorem DiffRoutes_ok_inv (old desired : List Route) (d : DiffResult)
    (h : DiffRoutes old desired = .ok d) :
    (∀ r ∈ old, Normalizes r) ∧ (∀ r ∈ desired, Normalizes r) := by
  unfold DiffRoutes at h
  split at h
  · cases h
  · next oldMap ho =>
    split at h
    · cases h
    · next newMap hn =>
      exact ⟨buildMap_ok_inv old 0 [] oldMap ho, buildMap_ok_inv desired 0 [] newMap hn⟩

theorem lastWithKey_some (ns : List Route) (k : String) (n : Route)
    (h : lastWithKey ns k = some n) : n ∈ ns ∧ keyOf n = k := by
  unfold lastWithKey at h
  have h1 := List.find?_some h
  have h2 := List.mem_of_find?_eq_some h
  exact ⟨by simpa using h2, by simpa using h1⟩

theorem lastWithKey_none (ns : List Route) (k : String) (h : lastWithKey ns k = none) :
    ¬ k ∈ keysOf ns := by
  unfold lastWithKey at h
  rw [List.find?_eq_none] at h
  intro hk
  obtain ⟨r, hr, rfl⟩ := List.mem_map.1 hk
  exact absurd (by simp) (h r (by simpa using hr))

/-- The map built from a list of routes: its keys are pairwise distinct, they are the keys
of the list, every entry sits under the key of its route, and the route under a key is
the last route of the list with that key. -/
theorem builtMap_spec (ns : List Route) :
    (mapKeys (seedApplied ns [])).Nodup
      ∧ (∀ k, k ∈ mapKeys (seedApplied ns []) ↔ k ∈ keysOf ns)
      ∧ (∀ k, mapGet (seedApplied ns []) k = lastWithKey ns k)
      ∧ Keyed (seedApplied ns []) := by
  obtain ⟨h1, h2, h3⟩ := seedApplied_spec ns [] (by simp [mapKeys])
  have h3' : ∀ k, mapGet (seedApplied ns []) k = lastWithKey ns k := by
    intro k
    rw [h3 k]
    cases lastWithKey ns k <;> simp [mapGet]
  refine ⟨h1, by simpa [mapKeys] using h2, h3', ?_⟩
  rw [Keyed_iff _ h1]
  intro k v hg
  rw [h3'] at hg
  exact (lastWithKey_some ns k v hg).2.symm

/-- The routes a `range` loop of `DiffRoutes` collects from a map whose entries sit under
their keys: their keys are pairwise distinct, and a route is collected exactly when it is
the entry of its key and the key passes the test. -/
theorem filter_spec (m : RouteMap) (hnd : (mapKeys m).Nodup) (hk : Keyed m)
    (p : String → Bool) :
    keysOf (mapValues (m.filter fun kv => p kv.1)) = (mapKeys m).filter p
      ∧ (keysOf (mapValues (m.filter fun kv => p kv.1))).Nodup
      ∧ ∀ r, r ∈ mapValues (m.filter fun kv => p kv.1)
          ↔ mapGet m (keyOf r) = some r ∧ p (keyOf r) = true := by
  have hkeys : keysOf (mapValues (m.filter fun kv => p kv.1)) = (mapKeys m).filter p := by
    simp only [keysOf, mapValues, mapKeys, List.map_map, List.filter_map]
    apply List.map_congr_left
    intro kv hkv
    exact (hk kv (List.mem_of_mem_filter hkv)).symm
  refine ⟨hkeys, ?_, ?_⟩
  · rw [hkeys]; exact hnd.filter _
  · intro r
    simp only [mapValues, List.mem_map, List.mem_filter]
    constructor
    · rintro ⟨kv, ⟨hkv, hp⟩, rfl⟩
      have hkey := hk kv hkv
      rw [← hkey]
      exact ⟨(mem_iff_mapGet m hnd kv.1 kv.2).1 hkv, hp⟩
    · rintro ⟨hg, hp⟩
      exact ⟨(keyOf r, r), ⟨(mem_iff_mapGet m hnd _ _).2 hg, hp⟩, rfl⟩

theorem not_mapHas_iff (m : RouteMap) (k : String) : (!mapHas m k) = true ↔ ¬ k ∈ mapKeys m := by
  rw [← mapHas_iff]
  cases mapHas m k <;> simp

/-- What `DiffRoutes` returns, in terms of its two inputs: each output list is strictly
ascending in key order; a route is in `ToDel` (`Unchanged`) exactly when it is the last
normalized old route of its key and that key is not (is) a desired key; a route is in
`ToAdd` exactly when it is the last normalized desired route of its key and that key is
not an old key. -/
theorem DiffRoutes_spec (old desired : List Route) (d : DiffResult)
    (h : DiffRoutes old desired = .ok d) :
    (List.Pairwise keyLT d.ToDel ∧ List.Pairwise keyLT d.Unchanged ∧ List.Pairwise keyLT d.ToAdd)
      ∧ (∀ r, r ∈ d.ToDel ↔
          lastWithKey (normList old) (keyOf r) = some r ∧ ¬ keyOf r ∈ keysOf desired)
      ∧ (∀ r, r ∈ d.Unchanged ↔
          lastWithKey (normList old) (keyOf r) = some r ∧ keyOf r ∈ keysOf desired)
      ∧ (∀ r, r ∈ d.ToAdd ↔
          lastWithKey (normList desired) (keyOf r) = some r ∧ ¬ keyOf r ∈ keysOf old) := by
  obtain ⟨ho, hd⟩ := DiffRoutes_ok_inv old desired d h
  rw [DiffRoutes_ok old desired ho hd] at h
  cases h
  obtain ⟨ond, oks, og, oK⟩ := builtMap_spec (normList old)
  obtain ⟨nnd, nks, ng, nK⟩ := builtMap_spec (normList desired)
  rw [keysOf_normList old ho] at oks
  rw [keysOf_normList desired hd] at nks
  have f1 := filter_spec (seedApplied (normList old) []) ond oK
    (fun k => !mapHas (seedApplied (normList desired) []) k)
  have f2 := filter_spec (seedApplied (normList old) []) ond oK
    (fun k => mapHas (seedApplied (normList desired) []) k)
  have f3 := filter_spec (seedApplied (normList desired) []) nnd nK
    (fun k => !mapHas (seedApplied (normList old) []) k)
  refine ⟨⟨sortRoutes_strict _ f1.2.1, sortRoutes_strict _ f2.2.1, sortRoutes_strict _ f3.2.1⟩,
    ?_, ?_, ?_⟩
  · intro r
    simp only [diffMaps, mem_sortRoutes]
    rw [f1.2.2 r, og, not_mapHas_iff, nks]
  · intro r
    simp only [diffMaps, mem_sortRoutes]
    rw [f2.2.2 r, og, mapHas_iff, nks]
  · intro r
    simp only [diffMaps, mem_sortRoutes]
    rw [f3.2.2 r, ng, not_mapHas_iff, oks]

theorem lastWithKey_of_mem (ns : List Route) (k : String) (h : k ∈ keysOf ns) :
    ∃ n, lastWithKey ns k = some n := by
  rcases hl : lastWithKey ns k with _ | n
  · exact absurd h (lastWithKey_none ns k hl)
  · exact ⟨n, rfl⟩

theorem keys_of_last (ns : List Route) (l : List Route) (p : String → Prop)
    (hl : ∀ r, r ∈ l ↔ lastWithKey ns (keyOf r) = some r ∧ p (keyOf r)) (k : String) :
    k ∈ keysOf l ↔ k ∈ keysOf ns ∧ p k := by
  constructor
  · intro hk
    obtain ⟨r, hr, rfl⟩ := List.mem_map.1 hk
    obtain ⟨h1, h2⟩ := (hl r).1 hr
    exact ⟨List.mem_map.2 ⟨r, (lastWithKey_some ns _ r h1).1, rfl⟩, h2⟩
  · rintro ⟨hk, hp⟩
    obtain ⟨n, hn⟩ := lastWithKey_of_mem ns k hk
    have hkn := (lastWithKey_some ns k n hn).2
    subst hkn
    exact List.mem_map.2 ⟨n, (hl n).2 ⟨hn, hp⟩, rfl⟩

theorem pairwise_keyLT_nodup (l : List Route) (h : List.Pairwise keyLT l) :
    (keysOf l).Nodup := by
  simp only [keysOf, List.Nodup, List.pairwise_map]
  refine h.imp ?_
  intro a b hab heq
  unfold keyLT at hab
  rw [heq, strLess_irrefl] at hab
  cases hab

/-- The keys of the three lists of a diff, in terms of the keys of the two inputs. -/
theorem DiffRoutes_keys (old desired : List Route) (d : DiffResult)
    (h : DiffRoutes old desired = .ok d) :
    (∀ k, k ∈ keysOf d.ToDel ↔ k ∈ keysOf old ∧ ¬ k ∈ keysOf desired)
      ∧ (∀ k, k ∈ keysOf d.ToAdd ↔ k ∈ keysOf desired ∧ ¬ k ∈ keysOf old)
      ∧ (∀ k, k ∈ keysOf d.Unchanged ↔ k ∈ keysOf old ∧ k ∈ keysOf desired) := by
  obtain ⟨ho, hd⟩ := DiffRoutes_ok_inv old desired d h
  obtain ⟨_, h1, h2, h3⟩ := DiffRoutes_spec old desired d h
  have ko := keysOf_normList old ho
  have kd := keysOf_normList desired hd
  refine ⟨?_, ?_, ?_⟩
  · intro k
    rw [keys_of_last (normList old) _ (fun k => ¬ k ∈ keysOf desired) h1 k, ko]
  · intro k
    rw [keys_of_last (normList desired) _ (fun k => ¬ k ∈ keysOf old) h3 k, kd]
  · intro k
    rw [keys_of_last (normList old) _ (fun k => k ∈ keysOf desired) h2 k, ko]

/-- The routes of a diff are normalized forms of input elements. -/
theorem DiffRoutes_origin (old desired : List Route) (d : DiffResult)
    (h : DiffRoutes old desired = .ok d) :
    (∀ n ∈ d.ToDel, ∃ r ∈ old, r.Normalize = .ok n)
      ∧ (∀ n ∈ d.Unchanged, ∃ r ∈ old, r.Normalize = .ok n)
      ∧ (∀ n ∈ d.ToAdd, ∃ r ∈ desired, r.Normalize = .ok n) := by
  obtain ⟨_, h1, h2, h3⟩ := DiffRoutes_spec old desired d h
  refine ⟨?_, ?_, ?_⟩
  · intro n hn
    exact (mem_normList old n).1 (lastWithKey_some _ _ n ((h1 n).1 hn).1).1
  · intro n hn
    exact (mem_normList old n).1 (lastWithKey_some _ _ n ((h2 n).1 hn).1).1
  · intro n hn
    exact (mem_normList desired n).1 (lastWithKey_some _ _ n ((h3 n).1 hn).1).1

theorem count_keys (l : List Route) (h : List.Pairwise keyLT l) (k : String) :
    (keysOf l).count k = if k ∈ keysOf l then 1 else 0 := by
  split
  · next hk => exact List.count_eq_one_of_mem (pairwise_keyLT_nodup l h) hk
  · next hk => exact List.count_eq_zero_of_not_mem hk

theorem normList_perm (l1 l2 : List Route) (h : l1.Perm l2) :
    (normList l1).Perm (normList l2) :=
  h.filterMap _

theorem lastWithKey_noClash (ns : List Route) (hc : ∀ a ∈ ns, ∀ b ∈ ns, keyOf a = keyOf b → a = b)
    (k : String) (r : Route) : lastWithKey ns k = some r ↔ r ∈ ns ∧ keyOf r = k := by
  constructor
  · exact lastWithKey_some ns k r
  · rintro ⟨hr, rfl⟩
    obtain ⟨n, hn⟩ := lastWithKey_of_mem ns (keyOf r) (List.mem_map.2 ⟨r, hr, rfl⟩)
    have h2 := lastWithKey_some ns _ n hn
    rw [hn, hc n h2.1 r hr h2.2]

theorem strict_ext (l1 l2 : List Route) (h1 : List.Pairwise keyLT l1)
    (h2 : List.Pairwise keyLT l2) (h : ∀ r, r ∈ l1 ↔ r ∈ l2) : l1 = l2 := by
  have n1 : l1.Nodup := List.Nodup.of_map _ (pairwise_keyLT_nodup l1 h1)
  have n2 : l2.Nodup := List.Nodup.of_map _ (pairwise_keyLT_nodup l2 h2)
  exact strict_unique l1 l2 ((List.perm_ext_iff_of_nodup n1 n2).2 h) h1 h2

/-- Diff determinism where keys tell routes apart: when in each input list the elements
that share a key have the same normalized form, `DiffRoutes` returns the same `ToAdd`,
`ToDel` and `Unchanged` (same routes, same order) for every reordering of the two input
lists. -/
theorem DiffRoutes_permutation (old desired old2 desired2 : List Route)
    (hco : NoClash old) (hcd : NoClash desired)
    (hp : old2.Perm old) (hq : desired2.Perm desired) :
    resultOf (DiffRoutes old2 desired2) = resultOf (DiffRoutes old desired) := by
  rcases h1 : DiffRoutes old desired with e | d
  · rcases h2 : DiffRoutes old2 desired2 with e2 | d2
    · rfl
    · obtain ⟨ho2, hd2⟩ := DiffRoutes_ok_inv old2 desired2 d2 h2
      rw [DiffRoutes_ok old desired (fun r hr => ho2 r (hp.symm.mem_iff.1 hr))
        (fun r hr => hd2 r (hq.symm.mem_iff.1 hr))] at h1
      cases h1
  · obtain ⟨ho, hd⟩ := DiffRoutes_ok_inv old desired d h1
    have h2 := DiffRoutes_ok old2 desired2 (fun r hr => ho r (hp.mem_iff.1 hr))
      (fun r hr => hd r (hq.mem_iff.1 hr))
    rw [h2]
    simp only [resultOf]
    obtain ⟨⟨s1, s2, s3⟩, m1, m2, m3⟩ := DiffRoutes_spec old desired d h1
    obtain ⟨⟨t1, t2, t3⟩, n1, n2, n3⟩ := DiffRoutes_spec old2 desired2 _ h2
    have po := normList_perm old2 old hp
    have pd := normList_perm desired2 desired hq
    have hco2 : NoClash old2 := fun a ha b hb =>
      hco a (po.mem_iff.1 ha) b (po.mem_iff.1 hb)
    have hcd2 : NoClash desired2 := fun a ha b hb =>
      hcd a (pd.mem_iff.1 ha) b (pd.mem_iff.1 hb)
    have ko : ∀ k, k ∈ keysOf old2 ↔ k ∈ keysOf old := fun k => (hp.map keyOf).mem_iff
    have kd : ∀ k, k ∈ keysOf desired2 ↔ k ∈ keysOf desired := fun k => (hq.map keyOf).mem_iff
    have e1 := strict_ext _ _ t1 s1 (fun r => by
      rw [n1, m1, lastWithKey_noClash _ hco2, lastWithKey_noClash _ hco, po.mem_iff, kd])
    have e2 := strict_ext _ _ t2 s2 (fun r => by
      rw [n2, m2, lastWithKey_noClash _ hco2, lastWithKey_noClash _ hco, po.mem_iff, kd])
    have e3 := strict_ext _ _ t3 s3 (fun r => by
      rw [n3, m3, lastWithKey_noClash _ hcd2, lastWithKey_noClash _ hcd, pd.mem_iff, ko])
    generalize diffMaps (seedApplied (normList old2) []) (seedApplied (normList desired2) [])
      = d2 at e1 e2 e3
    cases d2; cases d
    simp only at e1 e2 e3
    rw [e1, e2, e3]

theorem DiffRoutes_permutation_witness :
    resultOf (DiffRoutes sampleOld.reverse sampleDesired.reverse)
      = resultOf (DiffRoutes sampleOld sampleDesired) :=
  DiffRoutes_permutation sampleOld sampleDesired sampleOld.reverse sampleDesired.reverse
    (by decide) (by decide) (List.reverse_perm _) (List.reverse_perm _)

/-! ## The reconcile orchestrator -/

theorem okRoutes_cons (r : Route) (b : Bool) (res : List (Route × Bool)) :
    okRoutes ((r, b) :: res) = if b then r :: okRoutes res else okRoutes res := by
  cases b <;> simp [okRoutes]

theorem deleteLoop_spec {σ E : Type} (m : RouteManager σ E) :
    ∀ (L : List Route) (st : ApplyState σ E), ∃ (res : List (Route × Bool))
      (es : List (ApplyError E)),
      res.map (·.1) = L
        ∧ (deleteLoop m L st).calls = st.calls ++ res.map (fun p => Call.delete p.1 p.2)
        ∧ (∀ k, mapGet (deleteLoop m L st).applied k
            = if k ∈ keysOf (okRoutes res) then none else mapGet st.applied k)
        ∧ ((mapKeys st.applied).Nodup → (mapKeys (deleteLoop m L st).applied).Nodup)
        ∧ (deleteLoop m L st).applyErrs = st.applyErrs ++ es
        ∧ (es = [] ↔ ∀ p ∈ res, p.2 = true)
  | [], st => ⟨[], [], by simp [deleteLoop, okRoutes, keysOf]⟩
  | r :: rs, st => by
    rcases hm : m.Delete st.mgr r with ⟨s, _ | e⟩
    · obtain ⟨res, es, h1, h2, h3, h4, h5, h6⟩ := deleteLoop_spec m rs
        { mgr := s, applied := mapDelete st.applied (keyOf r), applyErrs := st.applyErrs,
          calls := st.calls ++ [.delete r true] }
      refine ⟨(r, true) :: res, es, by simp [h1], ?_, ?_, ?_, ?_, ?_⟩
      · simp [deleteLoop, hm, h2]
      · intro k
        simp only [deleteLoop, hm, h3, mapGet_mapDelete, okRoutes_cons, if_true, keysOf,
          List.map_cons, List.mem_cons]
        by_cases hk : k = keyOf r
        · simp [hk]
        · simp [hk]
      · intro hn
        simp only [deleteLoop, hm]
        exact h4 (nodup_mapDelete _ _ hn)
      · simp [deleteLoop, hm, h5]
      · simp [h6]
    · obtain ⟨res, es, h1, h2, h3, h4, h5, h6⟩ := deleteLoop_spec m rs
        { mgr := s, applied := st.applied, applyErrs := st.applyErrs ++ [.delete r e],
          calls := st.calls ++ [.delete r false] }
      refine ⟨(r, false) :: res, ApplyError.delete r e :: es, by simp [h1], ?_, ?_, ?_, ?_, ?_⟩
      · simp [deleteLoop, hm, h2]
      · intro k
        simp only [deleteLoop, hm, h3, okRoutes_cons]
        simp
      · intro hn
        simp only [deleteLoop, hm]
        exact h4 hn
      · simp [deleteLoop, hm, h5]
      · simp

theorem addLoop_spec {σ E : Type} (m : RouteManager σ E) :
    ∀ (L : List Route) (st : ApplyState σ E), ∃ (res : List (Route × Bool))
      (es : List (ApplyError E)),
      res.map (·.1) = L
        ∧ (addLoop m L st).calls = st.calls ++ res.map (fun p => Call.add p.1 p.2)
        ∧ (∀ k, mapGet (addLoop m L st).applied k
            = match lastWithKey (okRoutes res) k with
              | some n => some n
              | none => mapGet st.applied k)
        ∧ ((mapKeys st.applied).Nodup → (mapKeys (addLoop m L st).applied).Nodup)
        ∧ (addLoop m L st).applyErrs = st.applyErrs ++ es
        ∧ (es = [] ↔ ∀ p ∈ res, p.2 = true)
  | [], st => ⟨[], [], by simp [addLoop, okRoutes, lastWithKey]⟩
  | r :: rs, st => by
    rcases hm : m.Add st.mgr r with ⟨s, _ | e⟩
    · obtain ⟨res, es, h1, h2, h3, h4, h5, h6⟩ := addLoop_spec m rs
        { mgr := s, applied := mapSet st.applied (keyOf r) r, applyErrs := st.applyErrs,
          calls := st.calls ++ [.add r true] }
      refine ⟨(r, true) :: res, es, by simp [h1], ?_, ?_, ?_, ?_, ?_⟩
      · simp [addLoop, hm, h2]
      · intro k
        simp only [addLoop, hm, h3, okRoutes_cons, if_true, lastWithKey, List.reverse_cons,
          List.find?_append]
        rcases hl : List.find? (fun r => decide (keyOf r = k)) (okRoutes res).reverse with _ | n
        · simp only [Option.none_or, mapGet_mapSet]
          by_cases hk : keyOf r = k
          · simp [List.find?, hk]
          · have hk2 : ¬ k = keyOf r := fun e => hk e.symm
            simp [List.find?, hk, hk2]
        · simp
      · intro hn
        simp only [addLoop, hm]
        exact h4 (nodup_mapSet _ _ _ hn)
      · simp [addLoop, hm, h5]
      · simp [h6]
    · obtain ⟨res, es, h1, h2, h3, h4, h5, h6⟩ := addLoop_spec m rs
        { mgr := s, applied := st.applied, applyErrs := st.applyErrs ++ [.add r e],
          calls := st.calls ++ [.add r false] }
      refine ⟨(r, false) :: res, ApplyError.add r e :: es, by simp [h1], ?_, ?_, ?_, ?_, ?_⟩
      · simp [addLoop, hm, h2]
      · intro k
        simp only [addLoop, hm, h3, okRoutes_cons]
        simp
      · intro hn
        simp only [addLoop, hm]
        exact h4 hn
      · simp [addLoop, hm, h5]
      · simp

theorem values_spec (m : RouteMap) (hnd : (mapKeys m).Nodup) (hk : Keyed m) :
    keysOf (mapValues m) = mapKeys m
      ∧ ∀ r, r ∈ mapValues m ↔ mapGet m (keyOf r) = some r := by
  constructor
  · simp only [keysOf, mapValues, mapKeys, List.map_map]
    apply List.map_congr_left
    intro kv hkv
    exact (hk kv hkv).symm
  · intro r
    simp only [mapValues, List.mem_map]
    constructor
    · rintro ⟨kv, hkv, rfl⟩
      rw [← hk kv hkv]
      exact (mem_iff_mapGet m hnd kv.1 kv.2).1 hkv
    · intro hg
      exact ⟨(keyOf r, r), (mem_iff_mapGet m hnd _ _).2 hg, rfl⟩

theorem lastWithKey_eq_none (ns : List Route) (k : String) (h : ¬ k ∈ keysOf ns) :
    lastWithKey ns k = none := by
  rcases hl : lastWithKey ns k with _ | n
  · rfl
  · have := lastWithKey_some ns k n hl
    exact absurd (List.mem_map.2 ⟨n, this.1, this.2⟩) h

theorem nodup_keys_inj (l : List Route) (h : (keysOf l).Nodup) :
    ∀ a ∈ l, ∀ b ∈ l, keyOf a = keyOf b → a = b :=
  fun _ ha _ hb hab => List.inj_on_of_nodup_map h ha hb hab

theorem lastWithKey_nodup (l : List Route) (h : (keysOf l).Nodup) (r : Route) :
    lastWithKey l (keyOf r) = some r ↔ r ∈ l := by
  rw [lastWithKey_noClash l (nodup_keys_inj l h)]
  simp

theorem okRoutes_sublist (res : List (Route × Bool)) :
    List.Sublist (okRoutes res) (res.map (·.1)) :=
  List.Sublist.map _ (List.filter_sublist _)

theorem mem_okRoutes (res : List (Route × Bool)) (r : Route) :
    r ∈ okRoutes res ↔ (r, true) ∈ res := by
  simp only [okRoutes, List.mem_map, List.mem_filter]
  constructor
  · rintro ⟨p, ⟨h1, h2⟩, rfl⟩
    have e : p = (p.1, true) := by rw [← h2]
    rw [← e]
    exact h1
  · intro h
    exact ⟨(r, true), ⟨h, rfl⟩, rfl⟩

/-- The map `applied` at the end of the two apply loops, for three lists whose keys are
pairwise distinct altogether: the route stored under the key of `r` is `r` exactly when
`r` was added without error, or is a `ToDel` route whose deletion did not succeed, or is
an `Unchanged` route. -/
theorem applied_spec (LU LD LA : List Route) (hnd : (keysOf (LA ++ (LD ++ LU))).Nodup)
    (resD resA : List (Route × Bool)) (hD : resD.map (·.1) = LD) (hA : resA.map (·.1) = LA)
    (get : String → Option Route)
    (hget : ∀ k, get k
      = match lastWithKey (okRoutes resA) k with
        | some n => some n
        | none =>
          if k ∈ keysOf (okRoutes resD) then none
          else
            match lastWithKey LD k with
            | some n => some n
            | none =>
              match lastWithKey LU k with
              | some n => some n
              | none => none) :
    (∀ k v, get k = some v → k = keyOf v)
      ∧ ∀ r, get (keyOf r) = some r
          ↔ r ∈ okRoutes resA ∨ (r ∈ LD ∧ ¬ r ∈ okRoutes resD) ∨ r ∈ LU := by
  simp only [keysOf, List.map_append] at hnd
  rw [List.nodup_append, List.nodup_append] at hnd
  obtain ⟨nA, ⟨nD, nU, dDU⟩, dA⟩ := hnd
  have sA : List.Sublist (okRoutes resA) LA := hA ▸ okRoutes_sublist resA
  have sD : List.Sublist (okRoutes resD) LD := hD ▸ okRoutes_sublist resD
  have nAok : (keysOf (okRoutes resA)).Nodup := (sA.map keyOf).nodup nA
  have nDok : (keysOf (okRoutes resD)).Nodup := (sD.map keyOf).nodup nD
  constructor
  · intro k v hv
    rw [hget] at hv
    split at hv
    · next n hn => cases hv; exact (lastWithKey_some _ _ _ hn).2.symm
    · split at hv
      · cases hv
      · split at hv
        · next n hn => cases hv; exact (lastWithKey_some _ _ _ hn).2.symm
        · split at hv
          · next n hn => cases hv; exact (lastWithKey_some _ _ _ hn).2.symm
          · cases hv
  · intro r
    have kA : ∀ x, x ∈ LD ++ LU → ¬ keyOf x ∈ keysOf (okRoutes resA) := by
      intro x hx hk
      exact dA ((sA.map keyOf).subset hk)
        (by rw [← List.map_append]; exact List.mem_map.2 ⟨x, hx, rfl⟩)
    rw [hget]
    constructor
    · intro hg
      split at hg
      · next n hn =>
        cases hg
        exact Or.inl (lastWithKey_some _ _ _ hn).1
      · split at hg
        · cases hg
        · next hkD =>
          split at hg
          · next n hn =>
            cases hg
            refine Or.inr (Or.inl ⟨(lastWithKey_some _ _ _ hn).1, ?_⟩)
            intro hr
            exact hkD (List.mem_map.2 ⟨_, hr, rfl⟩)
          · split at hg
            · next n hn =>
              cases hg
              exact Or.inr (Or.inr (lastWithKey_some _ _ _ hn).1)
            · cases hg
    · rintro (hr | ⟨hr, hnr⟩ | hr)
      · rw [(lastWithKey_nodup _ nAok r).2 hr]
      · rw [lastWithKey_eq_none _ _ (kA r (List.mem_append_left _ hr))]
        have hkD : ¬ keyOf r ∈ keysOf (okRoutes resD) := by
          intro hk
          obtain ⟨r2, hr2, hk2⟩ := List.mem_map.1 hk
          have := nodup_keys_inj LD nD r2 (sD.subset hr2) r hr hk2
          exact hnr (this ▸ hr2)
        simp only [hkD, if_false]
        rw [(lastWithKey_nodup _ nD r).2 hr]
      · rw [lastWithKey_eq_none _ _ (kA r (List.mem_append_right _ hr))]
        have hkLD : ¬ keyOf r ∈ keysOf LD := by
          intro hk
          exact dDU hk (List.mem_map.2 ⟨r, hr, rfl⟩)
        have hkD : ¬ keyOf r ∈ keysOf (okRoutes resD) := fun hk =>
          hkLD ((sD.map keyOf).subset hk)
        simp only [hkD, if_false]
        rw [lastWithKey_eq_none _ _ hkLD, (lastWithKey_nodup _ nU r).2 hr]

/-- The keys of the three lists of a diff are pairwise distinct altogether. -/
theorem DiffRoutes_keys_nodup (old desired : List Route) (d : DiffResult)
    (h : DiffRoutes old desired = .ok d) :
    (keysOf (d.ToAdd ++ (d.ToDel ++ d.Unchanged))).Nodup := by
  obtain ⟨⟨s1, s2, s3⟩, _⟩ := DiffRoutes_spec old desired d h
  obtain ⟨e1, e3, e2⟩ := DiffRoutes_keys old desired d h
  simp only [keysOf, List.map_append]
  rw [List.nodup_append, List.nodup_append]
  refine ⟨pairwise_keyLT_nodup _ s3, ⟨pairwise_keyLT_nodup _ s1, pairwise_keyLT_nodup _ s2, ?_⟩,
    ?_⟩
  · intro k hk1 hk2
    exact ((e1 k).1 hk1).2 ((e2 k).1 hk2).2
  · intro k hk1 hk2
    rcases List.mem_append.1 hk2 with hk2 | hk2
    · exact ((e3 k).1 hk1).2 ((e1 k).1 hk2).1
    · exact ((e3 k).1 hk1).2 ((e2 k).1 hk2).1

theorem joinErrors_none {E : Type} (errs : List (ApplyError E)) :
    joinErrors errs = none ↔ errs = [] := by
  cases errs <;> simp [joinErrors]

/-- One run of the part of `Reconcile` that follows the diff, for a diff whose keys are
pairwise distinct: the outcomes of the delete and add calls, the list handed to `Save`,
the calls made, the store afterwards, the result and when the error is `nil`. -/
theorem applyDiff_spec {σ τ E : Type} (m : RouteManager σ E) (st : RouteStore τ E)
    (w : World σ τ) (d : DiffResult)
    (hnd : (keysOf (d.ToAdd ++ (d.ToDel ++ d.Unchanged))).Nodup) :
    ∃ (resD resA : List (Route × Bool)) (saved : List Route),
      resD.map (·.1) = d.ToDel ∧ resA.map (·.1) = d.ToAdd
        ∧ (∀ r, r ∈ saved ↔
            r ∈ okRoutes resA ∨ (r ∈ d.ToDel ∧ ¬ r ∈ okRoutes resD) ∨ r ∈ d.Unchanged)
        ∧ List.Pairwise keyLT saved
        ∧ (applyDiff m st w d).2.calls
            = w.calls ++ (resD.map (fun p => Call.delete p.1 p.2)
              ++ (resA.map (fun p => Call.add p.1 p.2)
              ++ [Call.save saved (st.Save w.store saved).2.isNone]))
        ∧ (applyDiff m st w d).2.store = (st.Save w.store saved).1
        ∧ (applyDiff m st w d).1.1 = { Diff := d }
        ∧ ((applyDiff m st w d).1.2 = none ↔
            (∀ p ∈ resD, p.2 = true) ∧ (∀ p ∈ resA, p.2 = true)
              ∧ (st.Save w.store saved).2 = none) := by
  obtain ⟨uN, _, uG, _⟩ := builtMap_spec d.Unchanged
  obtain ⟨aN, _, aG⟩ := seedApplied_spec d.ToDel (seedApplied d.Unchanged []) uN
  obtain ⟨resD, esD, d1, d2, d3, d4, d5, d6⟩ := deleteLoop_spec m d.ToDel
    { mgr := w.mgr, applied := seedApplied d.ToDel (seedApplied d.Unchanged []),
      applyErrs := [], calls := w.calls }
  obtain ⟨resA, esA, a1, a2, a3, a4, a5, a6⟩ := addLoop_spec m d.ToAdd
    (deleteLoop m d.ToDel
      { mgr := w.mgr, applied := seedApplied d.ToDel (seedApplied d.Unchanged []),
        applyErrs := [], calls := w.calls })
  generalize hs1 : deleteLoop m d.ToDel
      { mgr := w.mgr, applied := seedApplied d.ToDel (seedApplied d.Unchanged []),
        applyErrs := [], calls := w.calls } = s1 at *
  generalize hs2 : addLoop m d.ToAdd s1 = s2 at *
  simp only at d2 d3 d4 d5
  have hN : (mapKeys s2.applied).Nodup := a4 (d4 aN)
  have hget : ∀ k, mapGet s2.applied k
      = match lastWithKey (okRoutes resA) k with
        | some n => some n
        | none =>
          if k ∈ keysOf (okRoutes resD) then none
          else
            match lastWithKey d.ToDel k with
            | some n => some n
            | none =>
              match lastWithKey d.Unchanged k with
              | some n => some n
              | none => none := by
    intro k
    rw [a3 k, d3 k, aG k, uG k]
    cases lastWithKey d.Unchanged k <;> rfl
  obtain ⟨hKeyed, hmem⟩ := applied_spec d.Unchanged d.ToDel d.ToAdd hnd resD resA d1 a1
    (mapGet s2.applied) hget
  have hK : Keyed s2.applied := (Keyed_iff _ hN).2 hKeyed
  obtain ⟨vk, vm⟩ := values_spec s2.applied hN hK
  have hcalls : s2.calls = w.calls ++ (resD.map (fun p => Call.delete p.1 p.2)
      ++ resA.map (fun p => Call.add p.1 p.2)) := by
    rw [a2, d2, List.append_assoc]
  have herrs : s2.applyErrs = esD ++ esA := by
    rw [a5, d5, List.nil_append]
  refine ⟨resD, resA, sortRoutes (mapValues s2.applied), d1, a1, ?_, ?_, ?_, ?_, ?_, ?_⟩
  · intro r
    rw [mem_sortRoutes, vm r, hmem r]
  · exact sortRoutes_strict _ (by rw [vk]; exact hN)
  · simp only [applyDiff, hs1, hs2]
    rcases hsv : st.Save w.store (sortRoutes (mapValues s2.applied)) with ⟨t, _ | e⟩
    · simp [hcalls]
    · simp [hcalls]
  · simp only [applyDiff, hs1, hs2]
    rcases hsv : st.Save w.store (sortRoutes (mapValues s2.applied)) with ⟨t, _ | e⟩ <;> rfl
  · simp only [applyDiff, hs1, hs2]
    rcases hsv : st.Save w.store (sortRoutes (mapValues s2.applied)) with ⟨t, _ | e⟩ <;> rfl
  · simp only [applyDiff, hs1, hs2]
    rcases hsv : st.Save w.store (sortRoutes (mapValues s2.applied)) with ⟨t, _ | e⟩
    · simp only [joinErrors_none, herrs, List.append_eq_nil, d6, a6, and_true, and_assoc]
    · simp [joinErrors_none]

/-- What `Reconcile` does once both collaborators are bound, `Load` has returned the
baseline and `DiffRoutes` has succeeded. -/
theorem Reconcile_eq {σ τ E : Type} (c : Controller σ τ E) (m : RouteManager σ E)
    (st : RouteStore τ E) (w : World σ τ) (desired old : List Route) (t : τ) (d : DiffResult)
    (hm : c.Manager = some m) (hst : c.Store = some st) (hl : st.Load w.store = (t, .ok old))
    (hd : DiffRoutes old desired = .ok d) :
    c.Reconcile w desired
      = applyDiff m st { mgr := w.mgr, store := t, calls := w.calls ++ [.load true] } d := by
  simp [Controller.Reconcile, hm, hst, hl, hd]

/-- The run of `Reconcile` past `Load` and `Diff`, as its calls and results. -/
theorem Reconcile_run {σ τ E : Type} (c : Controller σ τ E) (m : RouteManager σ E)
    (st : RouteStore τ E) (w : World σ τ) (desired old : List Route) (t : τ) (d : DiffResult)
    (hm : c.Manager = some m) (hst : c.Store = some st) (hl : st.Load w.store = (t, .ok old))
    (hd : DiffRoutes old desired = .ok d) :
    ∃ (resD resA : List (Route × Bool)) (saved : List Route),
      resD.map (·.1) = d.ToDel ∧ resA.map (·.1) = d.ToAdd
        ∧ (∀ r, r ∈ saved ↔
            r ∈ okRoutes resA ∨ (r ∈ d.ToDel ∧ ¬ r ∈ okRoutes resD) ∨ r ∈ d.Unchanged)
        ∧ List.Pairwise keyLT saved
        ∧ runCalls c w desired
            = Call.load true :: (resD.map (fun p => Call.delete p.1 p.2)
              ++ (resA.map (fun p => Call.add p.1 p.2)
              ++ [Call.save saved (st.Save t saved).2.isNone]))
        ∧ (c.Reconcile w desired).2.store = (st.Save t saved).1
        ∧ (c.Reconcile w desired).1.1 = { Diff := d }
        ∧ ((c.Reconcile w desired).1.2 = none ↔
            (∀ p ∈ resD, p.2 = true) ∧ (∀ p ∈ resA, p.2 = true) ∧ (st.Save t saved).2 = none) := by
  have he := Reconcile_eq c m st w desired old t d hm hst hl hd
  obtain ⟨resD, resA, saved, h1, h2, h3, h4, h5, h6, h7, h8⟩ := applyDiff_spec m st
    { mgr := w.mgr, store := t, calls := w.calls ++ [.load true] } d
    (DiffRoutes_keys_nodup old desired d hd)
  refine ⟨resD, resA, saved, h1, h2, h3, h4, ?_, ?_, ?_, ?_⟩
  · simp only [runCalls, he, h5, List.append_assoc, List.drop_left, List.singleton_append]
  · rw [he, h6]
  · rw [he, h7]
  · rw [he, h8]

theorem fst_unique (res : List (Route × Bool)) (h : (res.map (·.1)).Nodup) (r : Route)
    (h1 : (r, true) ∈ res) (h2 : (r, false) ∈ res) : False := by
  have := List.inj_on_of_nodup_map h h1 h2 rfl
  cases this

theorem mem_delete_calls (res : List (Route × Bool)) (r : Route) (b : Bool) :
    Call.delete r b ∈ res.map (fun p => Call.delete p.1 p.2) ↔ (r, b) ∈ res := by
  simp only [List.mem_map, Call.delete.injEq]
  constructor
  · rintro ⟨p, hp, h1, h2⟩
    have e : p = (r, b) := by rw [← h1, ← h2]
    rw [← e]; exact hp
  · intro h; exact ⟨(r, b), h, rfl, rfl⟩

theorem mem_add_calls (res : List (Route × Bool)) (r : Route) (b : Bool) :
    Call.add r b ∈ res.map (fun p => Call.add p.1 p.2) ↔ (r, b) ∈ res := by
  simp only [List.mem_map, Call.add.injEq]
  constructor
  · rintro ⟨p, hp, h1, h2⟩
    have e : p = (r, b) := by rw [← h1, ← h2]
    rw [← e]; exact hp
  · intro h; exact ⟨(r, b), h, rfl, rfl⟩

/-- Membership of a call in the calls of a run of the shape `Reconcile_run` gives. -/
theorem mem_run_calls (resD resA : List (Route × Bool)) (saved : List Route) (ok : Bool) :
    (∀ r b, Call.delete r b ∈ Call.load true :: (resD.map (fun p => Call.delete p.1 p.2)
        ++ (resA.map (fun p => Call.add p.1 p.2) ++ [Call.save saved ok])) ↔ (r, b) ∈ resD)
      ∧ (∀ r b, Call.add r b ∈ Call.load true :: (resD.map (fun p => Call.delete p.1 p.2)
        ++ (resA.map (fun p => Call.add p.1 p.2) ++ [Call.save saved ok])) ↔ (r, b) ∈ resA)
      ∧ ∀ s b, Call.save s b ∈ Call.load true :: (resD.map (fun p => Call.delete p.1 p.2)
        ++ (resA.map (fun p => Call.add p.1 p.2) ++ [Call.save saved ok]))
          ↔ s = saved ∧ b = ok := by
  refine ⟨?_, ?_, ?_⟩
  · intro r b
    rw [← mem_delete_calls]
    simp
  · intro r b
    rw [← mem_add_calls]
    simp
  · intro s b
    simp

theorem mem_of_res (res : List (Route × Bool)) (L : List Route) (h : res.map (·.1) = L)
    (r : Route) (b : Bool) (hr : (r, b) ∈ res) : r ∈ L := by
  rw [← h]; exact List.mem_map.2 ⟨(r, b), hr, rfl⟩

theorem keys_disjoint (d : DiffResult)
    (hnd : (keysOf (d.ToAdd ++ (d.ToDel ++ d.Unchanged))).Nodup) :
    (keysOf d.ToAdd).Nodup ∧ (keysOf d.ToDel).Nodup ∧ (keysOf d.Unchanged).Nodup
      ∧ (∀ a ∈ d.ToAdd, ∀ b ∈ d.ToDel ++ d.Unchanged, keyOf a ≠ keyOf b)
      ∧ ∀ a ∈ d.ToDel, ∀ b ∈ d.Unchanged, keyOf a ≠ keyOf b := by
  simp only [keysOf, List.map_append] at hnd
  rw [List.nodup_append, List.nodup_append] at hnd
  obtain ⟨nA, ⟨nD, nU, dDU⟩, dA⟩ := hnd
  refine ⟨nA, nD, nU, ?_, ?_⟩
  · intro a ha b hb he
    exact dA (List.mem_map.2 ⟨a, ha, rfl⟩)
      (by rw [← List.map_append]; exact List.mem_map.2 ⟨b, hb, he.symm⟩)
  · intro a ha b hb he
    exact dDU (List.mem_map.2 ⟨a, ha, rfl⟩) (List.mem_map.2 ⟨b, hb, he.symm⟩)

theorem filter_isManager (resD resA : List (Route × Bool)) (saved : List Route) (ok : Bool) :
    (Call.load true :: (resD.map (fun p => Call.delete p.1 p.2)
        ++ (resA.map (fun p => Call.add p.1 p.2) ++ [Call.save saved ok]))).filter Call.isManager
      = resD.map (fun p => Call.delete p.1 p.2) ++ resA.map (fun p => Call.add p.1 p.2) := by
  have hD : (resD.map (fun p => Call.delete p.1 p.2)).filter Call.isManager
      = resD.map (fun p => Call.delete p.1 p.2) :=
    List.filter_eq_self.2 (by
      intro a ha
      obtain ⟨p, _, rfl⟩ := List.mem_map.1 ha
      rfl)
  have hA : (resA.map (fun p => Call.add p.1 p.2)).filter Call.isManager
      = resA.map (fun p => Call.add p.1 p.2) :=
    List.filter_eq_self.2 (by
      intro a ha
      obtain ⟨p, _, rfl⟩ := List.mem_map.1 ha
      rfl)
  simp only [List.filter_cons, Call.isManager, List.filter_append, hD, hA, List.filter_nil]
  simp

/-- Converged baseline, up to key clashes: when `Load`, `DiffRoutes`, every Manager call and
`Save` succeed, `Reconcile` returns a `nil` error and the list handed to the Store is in
strictly ascending key order, holds exactly one route per desired key and nothing else;
each of its routes is the normalized form of a desired route or of a baseline route, and
of a desired route whenever a baseline route and a desired route with equal keys have
equal normalized forms. -/
theorem Reconcile_converged {σ τ E : Type} (c : Controller σ τ E)
    (m : RouteManager σ E) (st : RouteStore τ E) (w : World σ τ) (desired old : List Route)
    (t : τ) (d : DiffResult) (hm : c.Manager = some m) (hst : c.Store = some st)
    (hl : st.Load w.store = (t, .ok old)) (hd : DiffRoutes old desired = .ok d)
    (hok : ∀ x ∈ runCalls c w desired, x.ok = true) :
    (c.Reconcile w desired).1.2 = none
      ∧ ∃ saved, (runCalls c w desired).getLast? = some (Call.save saved true)
        ∧ (c.Reconcile w desired).2.store = (st.Save t saved).1
        ∧ List.Pairwise keyLT saved
        ∧ (∀ k, k ∈ keysOf saved ↔ k ∈ keysOf desired)
        ∧ (∀ r ∈ saved, (∃ x ∈ desired, x.Normalize = .ok r) ∨ ∃ x ∈ old, x.Normalize = .ok r)
        ∧ ((∀ a ∈ normList old, ∀ b ∈ normList desired, keyOf a = keyOf b → a = b) →
            ∀ r ∈ saved, ∃ x ∈ desired, x.Normalize = .ok r) := by
  obtain ⟨resD, resA, sv, h1, h2, h3, h4, h5, h6, _, h8⟩ :=
    Reconcile_run c m st w desired old t d hm hst hl hd
  obtain ⟨cD, cA, cS⟩ := mem_run_calls resD resA sv (st.Save t sv).2.isNone
  obtain ⟨kD, kA, kU⟩ := DiffRoutes_keys old desired d hd
  obtain ⟨oD, oU, oA⟩ := DiffRoutes_origin old desired d hd
  obtain ⟨ho, hdn⟩ := DiffRoutes_ok_inv old desired d hd
  rw [h5] at hok
  have okD : ∀ p ∈ resD, p.2 = true := fun p hp =>
    hok (Call.delete p.1 p.2) ((cD p.1 p.2).2 hp)
  have okA : ∀ p ∈ resA, p.2 = true := fun p hp =>
    hok (Call.add p.1 p.2) ((cA p.1 p.2).2 hp)
  have okS : (st.Save t sv).2.isNone = true :=
    hok (Call.save sv _) ((cS sv _).2 ⟨rfl, rfl⟩)
  have hmem : ∀ r, r ∈ sv ↔ r ∈ d.ToAdd ∨ r ∈ d.Unchanged := by
    intro r
    rw [h3 r]
    constructor
    · rintro (hA | ⟨hD, hnD⟩ | hU)
      · exact Or.inl (by rw [← h2]; exact (okRoutes_sublist resA).subset hA)
      · exfalso
        apply hnD
        rw [← h1] at hD
        obtain ⟨p, hp, rfl⟩ := List.mem_map.1 hD
        have e : p = (p.1, true) := by rw [← okD p hp]
        rw [mem_okRoutes, ← e]
        exact hp
      · exact Or.inr hU
    · rintro (hA | hU)
      · left
        rw [← h2] at hA
        obtain ⟨p, hp, rfl⟩ := List.mem_map.1 hA
        have e : p = (p.1, true) := by rw [← okA p hp]
        rw [mem_okRoutes, ← e]
        exact hp
      · exact Or.inr (Or.inr hU)
  refine ⟨h8.2 ⟨okD, okA, by simpa using okS⟩, sv, ?_, h6, h4, ?_, ?_, ?_⟩
  · rw [h5, okS]
    have e : ∀ (A B : List Call) (x y : Call), (y :: (A ++ (B ++ [x]))).getLast? = some x := by
      intro A B x y
      have e2 : y :: (A ++ (B ++ [x])) = (y :: (A ++ B)) ++ [x] := by simp
      rw [e2, List.getLast?_concat]
    exact e _ _ _ _
  · intro k
    constructor
    · intro hk
      obtain ⟨r, hr, rfl⟩ := List.mem_map.1 hk
      rcases (hmem r).1 hr with hA | hU
      · exact ((kA _).1 (List.mem_map.2 ⟨r, hA, rfl⟩)).1
      · exact ((kU _).1 (List.mem_map.2 ⟨r, hU, rfl⟩)).2
    · intro hk
      by_cases hko : k ∈ keysOf old
      · obtain ⟨r, hr, rfl⟩ := List.mem_map.1 ((kU k).2 ⟨hko, hk⟩)
        exact List.mem_map.2 ⟨r, (hmem r).2 (Or.inr hr), rfl⟩
      · obtain ⟨r, hr, rfl⟩ := List.mem_map.1 ((kA k).2 ⟨hk, hko⟩)
        exact List.mem_map.2 ⟨r, (hmem r).2 (Or.inl hr), rfl⟩
  · intro r hr
    rcases (hmem r).1 hr with hA | hU
    · exact Or.inl (oA r hA)
    · exact Or.inr (oU r hU)
  · intro hclash r hr
    rcases (hmem r).1 hr with hA | hU
    · exact oA r hA
    · have hk : keyOf r ∈ keysOf (normList desired) := by
        rw [keysOf_normList desired hdn]
        exact ((kU _).1 (List.mem_map.2 ⟨r, hU, rfl⟩)).2
      obtain ⟨b, hb, hkb⟩ := List.mem_map.1 hk
      have hrn : r ∈ normList old := (mem_normList old r).2 (oU r hU)
      have e := hclash r hrn b hb hkb.symm
      rw [e]
      exact (mem_normList desired b).1 hb

theorem Reconcile_converged_witness :
    ((memController okManager).Reconcile (memWorld sampleOld) sampleDesired).1.2 = none
      ∧ ∃ saved,
        (runCalls (memController okManager) (memWorld sampleOld) sampleDesired).getLast?
            = some (Call.save saved true)
        ∧ ((memController okManager).Reconcile (memWorld sampleOld) sampleDesired).2.store
            = ((MemoryStore String).Save sampleOld saved).1
        ∧ List.Pairwise keyLT saved
        ∧ (∀ k, k ∈ keysOf saved ↔ k ∈ keysOf sampleDesired)
        ∧ (∀ r ∈ saved, (∃ x ∈ sampleDesired, x.Normalize = .ok r)
            ∨ ∃ x ∈ sampleOld, x.Normalize = .ok r)
        ∧ ((∀ a ∈ normList sampleOld, ∀ b ∈ normList sampleDesired,
              keyOf a = keyOf b → a = b) →
            ∀ r ∈ saved, ∃ x ∈ sampleDesired, x.Normalize = .ok r) :=
  Reconcile_converged (memController okManager) okManager (MemoryStore String)
    (memWorld sampleOld) sampleDesired sampleOld sampleOld sampleDiff rfl rfl rfl (by decide)
    (by decide)

/-! ## Failure of the diff and of the run -/

theorem buildMap_error : ∀ (rs : List Route) (i : Nat) (m : RouteMap) (k : Nat) (e : NormError),
    buildMap rs i m = .error (k, e) ↔
      ∃ j, k = i + j ∧ (∃ r, rs[j]? = some r ∧ r.Normalize = .error e)
        ∧ ∀ j2, j2 < j → ∀ r, rs[j2]? = some r → Normalizes r
  | [], i, m, k, e => by
    simp only [buildMap]
    constructor
    · intro h; cases h
    · rintro ⟨j, _, ⟨r, hr, _⟩, _⟩
      simp at hr
  | x :: rs, i, m, k, e => by
    simp only [buildMap]
    rcases hx : x.Normalize with e2 | n
    · simp only [Except.error.injEq, Prod.mk.injEq]
      constructor
      · rintro ⟨rfl, rfl⟩
        exact ⟨0, rfl, ⟨x, by simp, hx⟩, fun j2 hj2 => absurd hj2 (Nat.not_lt_zero _)⟩
      · rintro ⟨j, hk, ⟨r, hr, hre⟩, hall⟩
        cases j with
        | zero =>
          simp only [List.getElem?_cons_zero, Option.some.injEq] at hr
          subst hr
          rw [hx] at hre
          cases hre
          exact ⟨hk.symm, rfl⟩
        | succ j =>
          obtain ⟨n, hn⟩ := hall 0 (Nat.succ_pos _) x (by simp)
          rw [hx] at hn
          cases hn
    · simp only
      rw [buildMap_error rs (i + 1) _ k e]
      constructor
      · rintro ⟨j, hk, hr, hall⟩
        refine ⟨j + 1, by omega, by simpa using hr, ?_⟩
        intro j2 hj2 r hr2
        cases j2 with
        | zero =>
          simp only [List.getElem?_cons_zero, Option.some.injEq] at hr2
          subst hr2
          exact ⟨n, hx⟩
        | succ j2 => exact hall j2 (by omega) r (by simpa using hr2)
      · rintro ⟨j, hk, ⟨r, hr, hre⟩, hall⟩
        cases j with
        | zero =>
          simp only [List.getElem?_cons_zero, Option.some.injEq] at hr
          subst hr
          rw [hx] at hre
          cases hre
        | succ j =>
          refine ⟨j, by omega, ⟨r, by simpa using hr, hre⟩, ?_⟩
          intro j2 hj2 r2 hr2
          exact hall (j2 + 1) (by omega) r2 (by simpa using hr2)

theorem buildMap_cases (rs : List Route) (i : Nat) (m : RouteMap) :
    ((∀ r ∈ rs, Normalizes r) ∧ buildMap rs i m = .ok (seedApplied (normList rs) m))
      ∨ ((∃ r ∈ rs, ¬ Normalizes r) ∧ ∃ k e, buildMap rs i m = .error (k, e)) := by
  by_cases h : ∀ r ∈ rs, Normalizes r
  · exact Or.inl ⟨h, buildMap_ok rs i m h⟩
  · right
    refine ⟨by simpa using h, ?_⟩
    rcases hb : buildMap rs i m with ⟨k, e⟩ | m2
    · exact ⟨k, e, rfl⟩
    · exact absurd (buildMap_ok_inv rs i m m2 hb) h

/-- `DiffRoutes` returns an error exactly when an element of one of its inputs does not
normalize. -/
theorem DiffRoutes_error_iff (old desired : List Route) :
    (∃ e, DiffRoutes old desired = .error e) ↔ ∃ r ∈ old ++ desired, ¬ Normalizes r := by
  constructor
  · rintro ⟨e, he⟩
    by_contra hno
    have hall : ∀ r ∈ old ++ desired, Normalizes r := by simpa using hno
    rw [DiffRoutes_ok old desired (fun r hr => hall r (List.mem_append_left _ hr))
      (fun r hr => hall r (List.mem_append_right _ hr))] at he
    cases he
  · rintro ⟨r, hr, hn⟩
    rcases hd : DiffRoutes old desired with e | d
    · exact ⟨e, rfl⟩
    · obtain ⟨ho, hdn⟩ := DiffRoutes_ok_inv old desired d hd
      rcases List.mem_append.1 hr with hr | hr
      · exact absurd (ho r hr) hn
      · exact absurd (hdn r hr) hn

/-- The early returns of `Reconcile`. -/
theorem Reconcile_abort {σ τ E : Type} (c : Controller σ τ E) (w : World σ τ)
    (desired : List Route)
    (h : c.Manager = none ∨ c.Store = none ∨ ∃ st, c.Store = some st
      ∧ ((∃ e, (st.Load w.store).2 = .error e)
        ∨ ∃ old, (st.Load w.store).2 = .ok old ∧ ∃ r ∈ old ++ desired, ¬ Normalizes r)) :
    (c.Reconcile w desired).1.1 = emptyResult
      ∧ (c.Reconcile w desired).1.2.isSome = true
      ∧ (∀ x ∈ runCalls c w desired, ∃ b, x = Call.load b)
      ∧ (c.Reconcile w desired).2.mgr = w.mgr
      ∧ (c.Manager = none ∨ c.Store = none → runCalls c w desired = []) := by
  rcases hm : c.Manager with _ | m
  · simp [Controller.Reconcile, runCalls, hm]
  · rcases hs : c.Store with _ | st
    · simp [Controller.Reconcile, runCalls, hm, hs]
    · have h2 : (∃ e, (st.Load w.store).2 = .error e)
          ∨ ∃ old, (st.Load w.store).2 = .ok old ∧ ∃ r ∈ old ++ desired, ¬ Normalizes r := by
        rcases h with h | h | ⟨st2, hst2, h⟩
        · rw [hm] at h; cases h
        · rw [hs] at h; cases h
        · rw [hs] at hst2; cases hst2; exact h
      rcases hl : st.Load w.store with ⟨t, e | old⟩
      · simp [Controller.Reconcile, runCalls, hm, hs, hl]
      · rw [hl] at h2
        rcases h2 with ⟨e, he⟩ | ⟨old2, ho, hbad⟩
        · cases he
        · simp only [Except.ok.injEq] at ho
          subst ho
          obtain ⟨e, he⟩ := (DiffRoutes_error_iff old desired).2 hbad
          simp [Controller.Reconcile, runCalls, hm, hs, hl, he]

theorem DiffRoutes_error_old (old desired : List Route) (i : Nat) (e : NormError) :
    DiffRoutes old desired = .error (.oldRoutes i e) ↔
      (∃ r, old[i]? = some r ∧ r.Normalize = .error e)
        ∧ ∀ j, j < i → ∀ r, old[j]? = some r → Normalizes r := by
  have hb := buildMap_error old 0 [] i e
  simp only [Nat.zero_add, exists_eq_left'] at hb
  rw [← hb]
  unfold DiffRoutes
  rcases h1 : buildMap old 0 [] with ⟨k, e2⟩ | m
  · simp
  · rcases h2 : buildMap desired 0 [] with ⟨k, e2⟩ | m2 <;> simp

theorem all_normalize_iff (rs : List Route) :
    (∀ r ∈ rs, Normalizes r) ↔ ∃ m, buildMap rs 0 [] = .ok m := by
  constructor
  · intro h; exact ⟨_, buildMap_ok rs 0 [] h⟩
  · rintro ⟨m, hm⟩; exact buildMap_ok_inv rs 0 [] m hm

theorem DiffRoutes_error_desired (old desired : List Route) (i : Nat) (e : NormError) :
    DiffRoutes old desired = .error (.desiredRoutes i e) ↔
      (∀ r ∈ old, Normalizes r) ∧ (∃ r, desired[i]? = some r ∧ r.Normalize = .error e)
        ∧ ∀ j, j < i → ∀ r, desired[j]? = some r → Normalizes r := by
  have hb := buildMap_error desired 0 [] i e
  simp only [Nat.zero_add, exists_eq_left'] at hb
  rw [← hb, all_normalize_iff old]
  unfold DiffRoutes
  rcases h1 : buildMap old 0 [] with ⟨k, e2⟩ | m
  · simp
  · rcases h2 : buildMap desired 0 [] with ⟨k, e2⟩ | m2 <;> simp

theorem normalized_Key (r n : Route) (h : r.Normalize = .ok n) : n.Key = .ok (keyOf n) := by
  have h2 := Normalize_idem r n h
  simp [Route.Key, keyOf, h2]

/-! ## A second run on the saved baseline -/

theorem normList_of_normalized : ∀ (l : List Route), (∀ r ∈ l, r.Normalize = .ok r) →
    normList l = l
  | [], _ => rfl
  | r :: l, h => by
    rw [normList_cons_ok r r l (h r (by simp)),
      normList_of_normalized l (fun x hx => h x (by simp [hx]))]

theorem call_cases (resD : List (Route × Bool)) (L : List Route) (h : resD.map (·.1) = L)
    (hn : (keysOf L).Nodup) (r : Route) (hr : r ∈ L) :
    (¬ r ∈ okRoutes resD) ↔ (r, false) ∈ resD := by
  constructor
  · intro hno
    rw [← h] at hr
    obtain ⟨p, hp, rfl⟩ := List.mem_map.1 hr
    rcases p with ⟨a, b⟩
    cases b
    · exact hp
    · exact absurd ((mem_okRoutes resD a).2 hp) hno
  · intro hf hok
    exact fst_unique resD (by rw [h]; exact List.Nodup.of_map _ hn) r
      ((mem_okRoutes resD r).1 hok) hf

/-- The diff of the saved baseline against the same desired routes, after a run on a
`MemoryStore`: `ToDel` is the routes whose deletion failed, `ToAdd` the routes whose
addition failed. -/
theorem rediff {σ E : Type} (c : Controller σ (List Route) E) (m : RouteManager σ E)
    (w : World σ (List Route)) (desired : List Route) (d : DiffResult)
    (hm : c.Manager = some m) (hst : c.Store = some (MemoryStore E))
    (hd : DiffRoutes w.store desired = .ok d) :
    ∃ d2, DiffRoutes (c.Reconcile w desired).2.store desired = .ok d2
      ∧ d2.ToDel = d.ToDel.filter
          (fun r => decide (Call.delete r false ∈ runCalls c w desired))
      ∧ d2.ToAdd = d.ToAdd.filter
          (fun r => decide (Call.add r false ∈ runCalls c w desired)) := by
  obtain ⟨resD, resA, sv, h1, h2, h3, h4, h5, h6, _, _⟩ :=
    Reconcile_run c m (MemoryStore E) w desired w.store w.store d hm hst rfl hd
  obtain ⟨cD, cA, _⟩ := mem_run_calls resD resA sv ((MemoryStore E).Save w.store sv).2.isNone
  obtain ⟨nA, nD, nU, dA, dDU⟩ := keys_disjoint d (DiffRoutes_keys_nodup _ desired d hd)
  obtain ⟨kD, kA, kU⟩ := DiffRoutes_keys _ desired d hd
  obtain ⟨oD, oU, oA⟩ := DiffRoutes_origin _ desired d hd
  obtain ⟨⟨sD, sU, sA⟩, mD, mU, mA⟩ := DiffRoutes_spec _ desired d hd
  obtain ⟨ho, hdn⟩ := DiffRoutes_ok_inv _ desired d hd
  have hstore : (c.Reconcile w desired).2.store = sv := by rw [h6]; rfl
  have okA_sub : ∀ r, r ∈ okRoutes resA → r ∈ d.ToAdd := fun r hr => by
    rw [← h2]; exact (okRoutes_sublist resA).subset hr
  have hnorm : ∀ r ∈ sv, r.Normalize = .ok r := by
    intro r hr
    rcases (h3 r).1 hr with hA | ⟨hD, _⟩ | hU
    · obtain ⟨x, _, hx⟩ := oA r (okA_sub r hA); exact Normalize_idem x r hx
    · obtain ⟨x, _, hx⟩ := oD r hD; exact Normalize_idem x r hx
    · obtain ⟨x, _, hx⟩ := oU r hU; exact Normalize_idem x r hx
  obtain ⟨d2, hd2⟩ : ∃ d2, DiffRoutes sv desired = .ok d2 :=
    ⟨_, DiffRoutes_ok sv desired (fun r hr => ⟨r, hnorm r hr⟩) hdn⟩
  obtain ⟨⟨tD, _, tA⟩, qD, _, qA⟩ := DiffRoutes_spec sv desired d2 hd2
  rw [normList_of_normalized sv hnorm] at qD
  have nsv : (keysOf sv).Nodup := pairwise_keyLT_nodup sv h4
  rw [hstore]
  refine ⟨d2, hd2, ?_, ?_⟩
  · apply strict_ext _ _ tD (List.Pairwise.sublist (List.filter_sublist _) sD)
    intro r
    rw [qD r, lastWithKey_nodup sv nsv r, h3 r, List.mem_filter, decide_eq_true_eq, h5, cD]
    constructor
    · rintro ⟨hA | ⟨hD, hnD⟩ | hU, hk⟩
      · exact absurd ((kA _).1 (List.mem_map.2 ⟨r, okA_sub r hA, rfl⟩)).1 hk
      · exact ⟨hD, (call_cases resD _ h1 nD r hD).1 hnD⟩
      · exact absurd ((kU _).1 (List.mem_map.2 ⟨r, hU, rfl⟩)).2 hk
    · rintro ⟨hD, hf⟩
      exact ⟨Or.inr (Or.inl ⟨hD, (call_cases resD _ h1 nD r hD).2 hf⟩),
        ((kD _).1 (List.mem_map.2 ⟨r, hD, rfl⟩)).2⟩
  · apply strict_ext _ _ tA (List.Pairwise.sublist (List.filter_sublist _) sA)
    intro r
    rw [qA r, List.mem_filter, decide_eq_true_eq, h5, cA, mA r]
    constructor
    · rintro ⟨hl, hk⟩
      have hkd : keyOf r ∈ keysOf desired := by
        rw [← keysOf_normList desired hdn]
        exact List.mem_map.2 ⟨r, (lastWithKey_some _ _ r hl).1, rfl⟩
      have hko : ¬ keyOf r ∈ keysOf w.store := by
        intro hko
        obtain ⟨u, hu, hku⟩ := List.mem_map.1 ((kU _).2 ⟨hko, hkd⟩)
        exact hk (List.mem_map.2 ⟨u, (h3 u).2 (Or.inr (Or.inr hu)), hku⟩)
      have hrA : r ∈ d.ToAdd := (mA r).2 ⟨hl, hko⟩
      refine ⟨⟨hl, hko⟩, (call_cases resA _ h2 nA r hrA).1 ?_⟩
      intro hok
      exact hk (List.mem_map.2 ⟨r, (h3 r).2 (Or.inl hok), rfl⟩)
    · rintro ⟨⟨hl, hko⟩, hf⟩
      have hrA : r ∈ d.ToAdd := (mA r).2 ⟨hl, hko⟩
      refine ⟨hl, ?_⟩
      intro hk
      obtain ⟨u, hu, hku⟩ := List.mem_map.1 hk
      rcases (h3 u).1 hu with hA | ⟨hD, _⟩ | hU
      · have e := nodup_keys_inj d.ToAdd nA u (okA_sub u hA) r hrA hku
        subst e
        exact (call_cases resA _ h2 nA u hrA).2 hf hA
      · exact dA r hrA u (List.mem_append_left _ hD) hku.symm
      · exact dA r hrA u (List.mem_append_right _ hU) hku.symm

/-! ## When `Normalize` fails -/

theorem normDst_error_iff (dst : String) :
    (∃ e, normDst dst = .error e) ↔
      toLower (trimSpace dst) = ""
        ∨ (toLower (trimSpace dst) ≠ "default" ∧ ParseCIDR (toLower (trimSpace dst)) = none) := by
  unfold normDst
  simp only
  by_cases h1 : toLower (trimSpace dst) = ""
  · simp [h1]
  · by_cases h2 : toLower (trimSpace dst) = "default"
    · simp [h1, h2]
    · rcases hp : ParseCIDR (toLower (trimSpace dst)) with _ | n <;> simp [h1, h2]

theorem normAddr_error_iff (a : String) (e0 : NormError) :
    (∃ e, normAddr a e0 = .error e) ↔ trimSpace a ≠ "" ∧ ParseIP (trimSpace a) = none := by
  unfold normAddr
  simp only
  by_cases h1 : trimSpace a = ""
  · simp [h1]
  · rcases hp : ParseIP (trimSpace a) with _ | ip <;> simp [h1]

theorem except_cases {ε α : Type} (x : Except ε α) :
    (∃ e, x = .error e) ∨ ∃ a, x = .ok a := by
  cases x
  · exact Or.inl ⟨_, rfl⟩
  · exact Or.inr ⟨_, rfl⟩

theorem Normalize_error_iff (r : Route) :
    (∃ e, r.Normalize = .error e) ↔
      toLower (trimSpace r.Dst) = ""
        ∨ (toLower (trimSpace r.Dst) ≠ "default"
          ∧ ParseCIDR (toLower (trimSpace r.Dst)) = none)
        ∨ (trimSpace r.Gateway ≠ "" ∧ ParseIP (trimSpace r.Gateway) = none)
        ∨ (trimSpace r.Src ≠ "" ∧ ParseIP (trimSpace r.Src) = none)
        ∨ r.Table < 0 ∨ r.Metric < 0 := by
  have hd := normDst_error_iff r.Dst
  have hg := normAddr_error_iff r.Gateway .invalidGateway
  have hs := normAddr_error_iff r.Src .invalidSrc
  rw [← or_assoc, ← hd, ← hg, ← hs]
  unfold Route.Normalize
  rcases h1 : normDst r.Dst with e | dst
  · simp
  · rcases h2 : normAddr r.Gateway .invalidGateway with e | gw
    · simp
    · rcases h3 : normAddr r.Src .invalidSrc with e | src
      · simp
      · by_cases ht : r.Table < 0
        · simp [ht]
        · by_cases hm : r.Metric < 0
          · simp [ht, hm]
          · simp [ht, hm]

/-! ## Stores, and the run that changes nothing -/

theorem saveNorm_ok : ∀ (rs : List Route) (i : Nat) (norm : List Route),
    (∀ r ∈ rs, Normalizes r) → saveNorm rs i norm = .ok (norm ++ normList rs)
  | [], i, norm, _ => by simp [saveNorm, normList]
  | r :: rs, i, norm, h => by
    obtain ⟨n, hn⟩ := h r (List.mem_cons_self _ _)
    have ih := saveNorm_ok rs (i + 1) (norm ++ [n]) (fun x hx => h x (List.mem_cons_of_mem _ hx))
    rw [saveNorm, hn]
    simp only
    rw [ih, normList_cons_ok r n rs hn, List.append_assoc, List.singleton_append]

theorem noop_diff (S : List Route) (d : DiffResult) (hn : ∀ r ∈ S, Normalizes r)
    (hd : DiffRoutes S S = .ok d) :
    d.ToAdd = [] ∧ d.ToDel = []
      ∧ ∀ r, r ∈ d.Unchanged ↔ lastWithKey (normList S) (keyOf r) = some r := by
  obtain ⟨_, hD, hU, hA⟩ := DiffRoutes_spec S S d hd
  have key : ∀ r, lastWithKey (normList S) (keyOf r) = some r → keyOf r ∈ keysOf S := by
    intro r hr
    rw [← keysOf_normList S hn]
    exact List.mem_map.2 ⟨r, (lastWithKey_some _ _ _ hr).1, rfl⟩
  refine ⟨?_, ?_, ?_⟩
  · rw [List.eq_nil_iff_forall_not_mem]
    intro r hr
    obtain ⟨h1, h2⟩ := (hA r).1 hr
    exact h2 (key r h1)
  · rw [List.eq_nil_iff_forall_not_mem]
    intro r hr
    obtain ⟨h1, h2⟩ := (hD r).1 hr
    exact h2 (key r h1)
  · intro r
    rw [hU r]
    exact ⟨fun h => h.1, fun h => ⟨h, key r h⟩⟩

theorem noop_run {σ τ E : Type} (c : Controller σ τ E) (m : RouteManager σ E)
    (st : RouteStore τ E) (w : World σ τ) (S : List Route) (t : τ) (d : DiffResult)
    (hm : c.Manager = some m) (hst : c.Store = some st) (hl : st.Load w.store = (t, .ok S))
    (hn : ∀ r ∈ S, Normalizes r) (hd : DiffRoutes S S = .ok d) :
    (c.Reconcile w S).1.1.Diff = d
      ∧ runCalls c w S
        = [Call.load true, Call.save d.Unchanged (st.Save t d.Unchanged).2.isNone] := by
  obtain ⟨zA, zD, _⟩ := noop_diff S d hn hd
  obtain ⟨⟨_, sU, _⟩, _⟩ := DiffRoutes_spec S S d hd
  obtain ⟨resD, resA, saved, h1, h2, h3, h4, h5, _, h7, _⟩ :=
    Reconcile_run c m st w S S t d hm hst hl hd
  rw [zD] at h1 h3
  rw [zA] at h2
  have eD := List.map_eq_nil_iff.1 h1
  have eA := List.map_eq_nil_iff.1 h2
  subst eD eA
  have es : saved = d.Unchanged := by
    apply strict_ext saved d.Unchanged h4 sU
    intro r
    rw [h3 r]
    simp [okRoutes]
  subst es
  refine ⟨?_, ?_⟩
  · rw [h7]
  · rw [h5]
    rfl

/-- The run that changes nothing: for every list `S` whose elements all normalize, with both
the baseline and the desired set equal to `S`: `DiffRoutes` succeeds with empty `ToAdd` and empty
`ToDel`; `Unchanged` is strictly ascending by key and holds, for each key of `S`, the
normalized form of the last element of `S` with that key; it holds exactly the normalized
forms of the elements of `S` when elements with equal keys have equal normalized forms.
A `Reconcile` run whose `Load` returns `S` returns that diff and makes exactly two calls:
the `Load`, and one `Save` with the list `Unchanged` — no `Add` and no `Delete`. -/
theorem Reconcile_noop {σ τ E : Type} (c : Controller σ τ E) (m : RouteManager σ E)
    (st : RouteStore τ E) (w : World σ τ) (S : List Route) (t : τ)
    (hm : c.Manager = some m) (hst : c.Store = some st) (hl : st.Load w.store = (t, .ok S))
    (hn : ∀ r ∈ S, Normalizes r) :
    ∃ d, DiffRoutes S S = .ok d ∧ d.ToAdd = [] ∧ d.ToDel = []
      ∧ List.Pairwise keyLT d.Unchanged
      ∧ (∀ r, r ∈ d.Unchanged ↔ lastWithKey (normList S) (keyOf r) = some r)
      ∧ (NoClash S → ∀ r, r ∈ d.Unchanged ↔ r ∈ normList S)
      ∧ (c.Reconcile w S).1.1.Diff = d
      ∧ runCalls c w S
        = [Call.load true, Call.save d.Unchanged (st.Save t d.Unchanged).2.isNone] := by
  obtain ⟨d, hd⟩ : ∃ d, DiffRoutes S S = .ok d := ⟨_, DiffRoutes_ok S S hn hn⟩
  obtain ⟨zA, zD, hU⟩ := noop_diff S d hn hd
  obtain ⟨⟨_, sU, _⟩, _⟩ := DiffRoutes_spec S S d hd
  obtain ⟨r1, r2⟩ := noop_run c m st w S t d hm hst hl hn hd
  refine ⟨d, hd, zA, zD, sU, hU, ?_, r1, r2⟩
  intro hc r
  rw [hU r, lastWithKey_noClash (normList S) hc]
  simp

theorem Reconcile_noop_witness :
    ∃ d, DiffRoutes sampleOld sampleOld = .ok d ∧ d.ToAdd = [] ∧ d.ToDel = []
      ∧ List.Pairwise keyLT d.Unchanged
      ∧ (∀ r, r ∈ d.Unchanged ↔ lastWithKey (normList sampleOld) (keyOf r) = some r)
      ∧ (NoClash sampleOld → ∀ r, r ∈ d.Unchanged ↔ r ∈ normList sampleOld)
      ∧ ((memController okManager).Reconcile (memWorld sampleOld) sampleOld).1.1.Diff = d
      ∧ runCalls (memController okManager) (memWorld sampleOld) sampleOld
        = [Call.load true,
            Call.save d.Unchanged ((MemoryStore String).Save sampleOld d.Unchanged).2.isNone] :=
  Reconcile_noop (memController okManager) okManager (MemoryStore String)
    (memWorld sampleOld) sampleOld sampleOld rfl rfl rfl (by decide)

/-! ## Masking as arithmetic -/

set_option maxRecDepth 100000 in
theorem byte_mask : ∀ x, x < 256 → ∀ j, j < 8 →
    x &&& (255 - 255 / 2 ^ j) = x / 2 ^ (8 - j) * 2 ^ (8 - j) := by
  decide

set_option maxRecDepth 100000 in
theorem byte_full : ∀ x, x < 256 → x &&& 255 = x := by
  decide

theorem bytesToNat_lt : ∀ (b : List Nat), (∀ x ∈ b, x < 256) → bytesToNat b < 256 ^ b.length
  | [], _ => by simp [bytesToNat]
  | x :: t, h => by
    have hx : x < 256 := h x (by simp)
    have ih := bytesToNat_lt t (fun y hy => h y (by simp [hy]))
    have h1 : x * 256 ^ t.length ≤ 255 * 256 ^ t.length := Nat.mul_le_mul_right _ (by omega)
    simp only [bytesToNat, List.length_cons, pow_succ]
    omega

theorem maskIP_cons (x y : Nat) (t m : List Nat) :
    maskIP (x :: t) (y :: m) = (x &&& y) :: maskIP t m := rfl

theorem mask_value : ∀ (l : Nat) (b : List Nat) (k : Nat), b.length = l →
    (∀ x ∈ b, x < 256) → k ≤ 8 * l →
    bytesToNat (maskIP b (CIDRMask l k)) = bytesToNat b / 2 ^ (8 * l - k) * 2 ^ (8 * l - k)
  | 0, b, k, hl, _, _ => by
    have hb : b = [] := List.length_eq_zero.1 hl
    subst hb
    simp [maskIP, CIDRMask, bytesToNat]
  | l + 1, [], k, hl, _, _ => by simp at hl
  | l + 1, x :: t, k, hl, hb, hk => by
    have hx : x < 256 := hb x (by simp)
    have ht : ∀ y ∈ t, y < 256 := fun y hy => hb y (by simp [hy])
    have hlt : t.length = l := by simpa using hl
    have hV := bytesToNat_lt t ht
    rw [hlt] at hV
    have hlen : ∀ k2, (maskIP t (CIDRMask l k2)).length = l := fun k2 => by
      rw [length_maskIP _ _ (by rw [hlt, length_CIDRMask]), hlt]
    have hP : (256 : Nat) ^ l = 2 ^ (8 * l) := by
      rw [show (256 : Nat) = 2 ^ 8 by norm_num, ← pow_mul]
    by_cases h8 : k ≥ 8
    · have ih := mask_value l t (k - 8) hlt ht (by omega)
      have he : 8 * (l + 1) - k = 8 * l - (k - 8) := by omega
      have hq : (2 : Nat) ^ (8 * l) = 2 ^ (8 * l - (8 * l - (k - 8))) * 2 ^ (8 * l - (k - 8)) := by
        rw [← pow_add]
        congr 1
        omega
      have hpos : 0 < (2 : Nat) ^ (8 * l - (k - 8)) := Nat.two_pow_pos _
      rw [CIDRMask, if_pos h8, maskIP_cons, bytesToNat, hlen, byte_full x hx, ih, bytesToNat,
        hlt, he, hP]
      generalize 8 * l - (k - 8) = e at hq hpos ⊢
      generalize bytesToNat t = V
      rw [hq, ← Nat.mul_assoc, Nat.add_comm (x * 2 ^ (8 * l - e) * 2 ^ e) V,
        Nat.add_mul_div_right _ _ hpos]
      ring_nf
    · have ih := mask_value l t 0 hlt ht (by omega)
      have hk8 : k < 8 := by omega
      have hz : bytesToNat (maskIP t (CIDRMask l 0)) = 0 := by
        rw [ih, Nat.sub_zero, ← hP, Nat.div_eq_of_lt hV, Nat.zero_mul]
      have he : 8 * (l + 1) - k = 8 * l + (8 - k) := by omega
      have hpos : 0 < (2 : Nat) ^ (8 * l) := Nat.two_pow_pos _
      rw [CIDRMask, if_neg h8, maskIP_cons, bytesToNat, hlen, byte_mask x hx k hk8, hz,
        bytesToNat, hlt, he, hP, pow_add, ← Nat.div_div_eq_div_mul,
        Nat.add_comm (x * 2 ^ (8 * l)) (bytesToNat t), Nat.add_mul_div_right _ _ hpos,
        ← hP, Nat.div_eq_of_lt hV]
      ring_nf

/-! ## The canonical destination -/

theorem cidrParts_spec (s : String) (a : Addr) (n : Nat) (h : cidrParts s = some (a, n)) :
    (a.bytes.length = 4 ∨ a.bytes.length = 16) ∧ (∀ x ∈ a.bytes, x < 256)
      ∧ a.BitLen = 8 * a.bytes.length ∧ n ≤ a.BitLen
      ∧ ParseCIDR s = some ⟨maskIP a.bytes (CIDRMask a.bytes.length n),
          CIDRMask a.bytes.length n⟩ := by
  unfold cidrParts at h
  by_cases hs : '/' ∈ s.data
  · rw [if_pos hs] at h
    rcases ha : ParseAddr (s.data.takeWhile (· ≠ '/')) with _ | a2
    · rw [ha] at h
      cases h
    · rw [ha] at h
      simp only at h
      rcases hn : dtoiAll ((s.data.dropWhile (· ≠ '/')).drop 1) 0 0 with _ | n2
      · rw [hn] at h
        cases h
      · rw [hn] at h
        simp only at h
        by_cases hle : n2 > a2.BitLen
        · rw [if_pos hle] at h
          cases h
        · rw [if_neg hle] at h
          cases h
          rcases ParseAddr_wf _ a ha with ⟨b, rfl, hl, hb⟩ | ⟨b, rfl, hl, hb⟩
          · have hpc : ParseCIDR s = some ⟨maskIP b (CIDRMask 4 n), CIDRMask 4 n⟩ := by
              unfold ParseCIDR
              rw [if_pos hs, ha]
              simp only [hn, if_neg hle]
            simp only [Addr.BitLen] at hle
            exact ⟨Or.inl hl, hb, by simp [Addr.BitLen, Addr.bytes, hl],
              by simp only [Addr.BitLen]; omega, by simp [hpc, Addr.bytes, hl]⟩
          · have hpc : ParseCIDR s = some ⟨maskIP b (CIDRMask 16 n), CIDRMask 16 n⟩ := by
              unfold ParseCIDR
              rw [if_pos hs, ha]
              simp only [hn, if_neg hle]
            simp only [Addr.BitLen] at hle
            exact ⟨Or.inr hl, hb, by simp [Addr.BitLen, Addr.bytes, hl],
              by simp only [Addr.BitLen]; omega, by simp [hpc, Addr.bytes, hl]⟩
  · rw [if_neg hs] at h
    cases h

theorem ParseCIDR_isSome (s : String) : (ParseCIDR s).isSome = (cidrParts s).isSome := by
  unfold cidrParts ParseCIDR
  by_cases hs : '/' ∈ s.data
  · simp only [hs, if_true]
    rcases ParseAddr (s.data.takeWhile (· ≠ '/')) with _ | a
    · rfl
    · simp only
      rcases dtoiAll ((s.data.dropWhile (· ≠ '/')).drop 1) 0 0 with _ | n
      · rfl
      · simp only
        by_cases hle : n > a.BitLen
        · simp [hle]
        · cases a <;> simp [hle]
  · simp [hs]

theorem net_text (b : List Nat) (n : Nat) (hb : ∀ x ∈ b, x < 256)
    (hl : b.length = 4 ∨ b.length = 16) (hn : n ≤ 8 * b.length) :
    (IPNet.mk (maskIP b (CIDRMask b.length n)) (CIDRMask b.length n)).String
      = ⟨ipStringL (maskIP b (CIDRMask b.length n)) ++ '/' :: uitoa
          (if b.length = 16 ∧ (To4 (maskIP b (CIDRMask b.length n))).isSome = true
            then n - 96 else n)⟩ := by
  have hlen : (maskIP b (CIDRMask b.length n)).length = b.length :=
    length_maskIP _ _ (by rw [length_CIDRMask])
  have hm : maskIP (maskIP b (CIDRMask b.length n))
      (CIDRMask (maskIP b (CIDRMask b.length n)).length n) = maskIP b (CIDRMask b.length n) := by
    rw [hlen, maskIP_idem]
  rcases hl with h4 | h16
  · have hct := canonical_text (maskIP b (CIDRMask b.length n)) n (maskIP_lt _ _ hb) hm
      (Or.inl ⟨by rw [hlen, h4], by omega⟩)
    rw [hlen] at hct
    rw [hct.1, if_neg (by omega)]
  · rcases hto4 : To4 (maskIP b (CIDRMask b.length n)) with _ | p4
    · have hct := canonical_text (maskIP b (CIDRMask b.length n)) n (maskIP_lt _ _ hb) hm
        (Or.inr ⟨by rw [hlen, h16], by omega, hto4⟩)
      rw [hlen] at hct
      rw [hct.1, if_neg (by simp)]
    · have hp := To4_bytes _ p4 hto4 (maskIP_lt _ _ hb)
      have hn128 : n ≤ 128 := by omega
      have hto4p : To4 p4 = some p4 := by simp [To4, hp.1]
      rw [h16] at hto4 ⊢
      simp [IPNet.String, networkNumberAndMask, hto4, length_CIDRMask, CIDRMask_drop12 n hn128,
        simpleMaskLength_CIDRMask4 (n - 96) (by omega), ipStringL, hto4p]

theorem dropWhile_pad (p : Char → Bool) : ∀ (pre rest : List Char), (∀ c ∈ pre, p c = true) →
    (pre ++ rest).dropWhile p = rest.dropWhile p
  | [], _, _ => rfl
  | c :: pre, rest, h => by
    rw [List.cons_append, List.dropWhile_cons_of_pos (h c (by simp))]
    exact dropWhile_pad p pre rest (fun x hx => h x (by simp [hx]))

theorem trimSpaceL_pad (pre core suf : List Char) (hp : ∀ c ∈ pre, isSpace c = true)
    (hs : ∀ c ∈ suf, isSpace c = true) (hc : ∀ c ∈ core, isSpace c = false) :
    trimSpaceL (pre ++ core ++ suf) = core := by
  have h1 : trimSpaceL (pre ++ core ++ suf) = trimSpaceL (core ++ suf) := by
    unfold trimSpaceL
    rw [List.append_assoc, dropWhile_pad isSpace pre _ hp]
  have h2 : trimSpaceL (core ++ suf) = trimSpaceL core := by
    cases core with
    | nil =>
      unfold trimSpaceL
      rw [List.nil_append, ← List.append_nil suf, dropWhile_pad isSpace suf [] hs]
    | cons a t =>
      have ha : isSpace a = false := hc a (by simp)
      unfold trimSpaceL
      rw [List.cons_append, List.dropWhile_cons_of_neg (by simp [ha]),
        List.dropWhile_cons_of_neg (by simp [ha]), ← List.cons_append]
      unfold List.rdropWhile
      rw [List.reverse_append,
        dropWhile_pad isSpace suf.reverse _ (fun c h => hs c (List.mem_reverse.1 h))]
  rw [h1, h2, trimSpaceL_of_noSpace core hc]

theorem normDst_default (pre u suf : List Char) (hp : ∀ c ∈ pre, isSpace c = true)
    (hs : ∀ c ∈ suf, isSpace c = true) (hu : u.map toLowerRune = "default".data) :
    normDst ⟨pre ++ u ++ suf⟩ = .ok "default" := by
  have hc : ∀ c ∈ u, isSpace c = false := by
    intro c hcu
    rw [← isSpace_toLowerRune]
    have hm : toLowerRune c ∈ "default".data := by
      rw [← hu]
      exact List.mem_map_of_mem _ hcu
    revert hm
    generalize toLowerRune c = x
    revert x
    decide
  have hd : toLower (trimSpace ⟨pre ++ u ++ suf⟩) = "default" := by
    apply (data_inj _ _).1
    show (trimSpaceL (pre ++ u ++ suf)).map toLowerRune = "default".data
    rw [trimSpaceL_pad pre u suf hp hs hc, hu]
  unfold normDst
  simp only [hd]
  decide

theorem normDst_net (dst : String) (a : Addr) (n : Nat)
    (h : cidrParts (toLower (trimSpace dst)) = some (a, n)) :
    ∃ nn : List Nat, nn.length = a.bytes.length ∧ (∀ x ∈ nn, x < 256)
      ∧ bytesToNat nn = bytesToNat a.bytes / 2 ^ (a.BitLen - n) * 2 ^ (a.BitLen - n)
      ∧ normDst dst = .ok ⟨ipStringL nn ++ '/' :: uitoa
          (if nn.length = 16 ∧ (To4 nn).isSome = true then n - 96 else n)⟩ := by
  obtain ⟨hl, hb, hbits, hn, hpc⟩ := cidrParts_spec _ a n h
  have hlen : (maskIP a.bytes (CIDRMask a.bytes.length n)).length = a.bytes.length :=
    length_maskIP _ _ (by rw [length_CIDRMask])
  refine ⟨maskIP a.bytes (CIDRMask a.bytes.length n), hlen, maskIP_lt _ _ hb, ?_, ?_⟩
  · rw [hbits]
    exact mask_value a.bytes.length a.bytes n rfl hb (by omega)
  · have hne : toLower (trimSpace dst) ≠ "" := by
      intro he
      rw [he, show cidrParts "" = none by decide] at h
      cases h
    have hnd : toLower (trimSpace dst) ≠ "default" := by
      intro he
      rw [he, show cidrParts "default" = none by decide] at h
      cases h
    unfold normDst
    simp only [hne, hnd, hpc, if_false, ne_eq, not_false_eq_true, if_true]
    rw [net_text a.bytes n hb hl (by omega), hlen]

/-! ## Last write wins -/

theorem normList_append (a b : List Route) : normList (a ++ b) = normList a ++ normList b := by
  simp [normList, List.filterMap_append]

theorem lastWithKey_concat (ns : List Route) (n : Route) (k : String) :
    lastWithKey (ns ++ [n]) k = if keyOf n = k then some n else lastWithKey ns k := by
  unfold lastWithKey
  rw [List.reverse_append, List.reverse_singleton, List.singleton_append, List.find?_cons]
  by_cases h : keyOf n = k
  · simp [h]
  · simp [h]

theorem lastWins_of_lastWithKey (rs : List Route) (hn : ∀ r ∈ rs, Normalizes r) (k : String)
    (r : Route) (h : lastWithKey (normList rs) k = some r) : lastWins rs k r := by
  induction rs using List.reverseRecOn with
  | nil =>
    simp [normList, lastWithKey] at h
  | append_singleton a x ih =>
    obtain ⟨n, hx⟩ := hn x (by simp)
    have hkx : keyOf n = keyOf x := keyOf_normalized x n hx
    have hnl : normList (a ++ [x]) = normList a ++ [n] := by
      rw [normList_append, normList_cons_ok x n [] hx]
      rfl
    rw [hnl, lastWithKey_concat] at h
    by_cases hk : keyOf n = k
    · rw [if_pos hk] at h
      cases h
      refine ⟨a.length, x, by simp, hx, by rw [← hkx, hk], ?_⟩
      intro j y hj hy
      rw [List.getElem?_eq_none (by simp; omega)] at hy
      cases hy
    · rw [if_neg hk] at h
      obtain ⟨i, x2, h1, h2, h3, h4⟩ := ih (fun y hy => hn y (by simp [hy])) h
      have hi : i < a.length := (List.getElem?_eq_some.1 h1).1
      refine ⟨i, x2, by rw [List.getElem?_append_left hi]; exact h1, h2, h3, ?_⟩
      intro j y hj hy
      by_cases hja : j < a.length
      · rw [List.getElem?_append_left hja] at hy
        exact h4 j y hj hy
      · have hjl : j = a.length := by
          have := (List.getElem?_eq_some.1 hy).1
          simp at this
          omega
        subst hjl
        simp at hy
        subst hy
        rw [← hkx]
        exact hk

theorem lastWins_unique (rs : List Route) (k : String) (r1 r2 : Route)
    (h1 : lastWins rs k r1) (h2 : lastWins rs k r2) : r1 = r2 := by
  obtain ⟨i, x, a1, a2, a3, a4⟩ := h1
  obtain ⟨j, y, b1, b2, b3, b4⟩ := h2
  have hij : i = j := by
    rcases Nat.lt_trichotomy i j with hlt | heq | hgt
    · exact absurd b3 (a4 j y hlt b1)
    · exact heq
    · exact absurd a3 (b4 i x hgt a1)
  subst hij
  rw [a1] at b1
  cases b1
  rw [a2] at b2
  cases b2
  rfl

theorem result_count (old desired : List Route) (d : DiffResult)
    (h : DiffRoutes old desired = .ok d) (k : String)
    (hk : k ∈ keysOf old ∨ k ∈ keysOf desired) :
    (keysOf (d.ToAdd ++ (d.ToDel ++ d.Unchanged))).count k = 1 := by
  obtain ⟨e1, e2, e3⟩ := DiffRoutes_keys old desired d h
  apply List.count_eq_one_of_mem (DiffRoutes_keys_nodup old desired d h)
  simp only [keysOf, List.map_append, List.mem_append]
  by_cases ho : k ∈ keysOf old
  · by_cases hd : k ∈ keysOf desired
    · exact Or.inr (Or.inr ((e3 k).2 ⟨ho, hd⟩))
    · exact Or.inr (Or.inl ((e1 k).2 ⟨ho, hd⟩))
  · rcases hk with hk | hk
    · exact absurd hk ho
    · exact Or.inl ((e2 k).2 ⟨hk, ho⟩)

theorem last_write (old desired : List Route) (d : DiffResult)
    (h : DiffRoutes old desired = .ok d) (k : String) :
    (∀ r, r ∈ d.ToDel ∨ r ∈ d.Unchanged → keyOf r = k → lastWins old k r)
      ∧ (∀ r, r ∈ d.ToAdd → keyOf r = k → lastWins desired k r)
      ∧ (∀ r, r ∈ d.Unchanged → keyOf r = k →
          (∀ a ∈ normList old, ∀ b ∈ normList desired, keyOf a = keyOf b → a = b) →
          lastWins desired k r) := by
  obtain ⟨ho, hd⟩ := DiffRoutes_ok_inv old desired d h
  obtain ⟨_, h1, h2, h3⟩ := DiffRoutes_spec old desired d h
  refine ⟨?_, ?_, ?_⟩
  · rintro r (hr | hr) rfl
    · exact lastWins_of_lastWithKey old ho _ r ((h1 r).1 hr).1
    · exact lastWins_of_lastWithKey old ho _ r ((h2 r).1 hr).1
  · rintro r hr rfl
    exact lastWins_of_lastWithKey desired hd _ r ((h3 r).1 hr).1
  · rintro r hr rfl hclash
    obtain ⟨hl, hkd⟩ := (h2 r).1 hr
    rw [← keysOf_normList desired hd] at hkd
    obtain ⟨b, hb⟩ := lastWithKey_of_mem (normList desired) (keyOf r) hkd
    obtain ⟨hbm, hbk⟩ := lastWithKey_some _ _ b hb
    have e : r = b := hclash r (lastWithKey_some _ _ r hl).1 b hbm hbk.symm
    rw [← e] at hb
    exact lastWins_of_lastWithKey desired hd _ r hb

theorem lastWins_clash : lastWins [clashA, clashB] (keyOf clashA) clashB
    ∧ ¬ lastWins [clashA, clashB] (keyOf clashA) clashA := by
  have hB : lastWins [clashA, clashB] (keyOf clashA) clashB := by
    refine ⟨1, clashB, rfl, by decide, by decide, ?_⟩
    intro j y hj hy
    rw [List.getElem?_eq_none (by simp; omega)] at hy
    cases hy
  refine ⟨hB, ?_⟩
  intro hA
  have := lastWins_unique _ _ _ _ hA hB
  revert this
  decide

/-- Last write wins within each input list: after a successful `DiffRoutes`, for every key
`k`: a route with key `k` in `ToDel` or `Unchanged` is the normalized form of the element of the old routes with
the largest index among those with key `k`; a route with key `k` in `ToAdd` is the
normalized form of the element of the desired routes with the largest index among those
with key `k`; a key of the old or of the desired routes occurs exactly once in the keys
of `ToAdd`, `ToDel` and `Unchanged` together; and a route with key `k` in `Unchanged` is
also the normalized form of the last desired element with key `k` when an old and a
desired route with equal keys always have equal normalized forms. -/
theorem DiffRoutes_last_write_wins (old desired : List Route) (d : DiffResult)
    (h : DiffRoutes old desired = .ok d) (k : String) :
    (∀ r, r ∈ d.ToDel ∨ r ∈ d.Unchanged → keyOf r = k → lastWins old k r)
      ∧ (∀ r, r ∈ d.ToAdd → keyOf r = k → lastWins desired k r)
      ∧ (k ∈ keysOf old ∨ k ∈ keysOf desired →
          (keysOf (d.ToAdd ++ (d.ToDel ++ d.Unchanged))).count k = 1)
      ∧ (∀ r, r ∈ d.Unchanged → keyOf r = k →
          (∀ a ∈ normList old, ∀ b ∈ normList desired, keyOf a = keyOf b → a = b) →
          lastWins desired k r) := by
  obtain ⟨h1, h2, h3⟩ := last_write old desired d h k
  exact ⟨h1, h2, result_count old desired d h k, h3⟩

theorem DiffRoutes_last_write_wins_witness :
    (∀ r, r ∈ (DiffResult.mk [] [clashB] []).ToDel ∨ r ∈ (DiffResult.mk [] [clashB] []).Unchanged →
        keyOf r = keyOf clashA → lastWins [clashA, clashB] (keyOf clashA) r)
      ∧ (∀ r, r ∈ (DiffResult.mk [] [clashB] []).ToAdd → keyOf r = keyOf clashA →
          lastWins [] (keyOf clashA) r)
      ∧ (keyOf clashA ∈ keysOf [clashA, clashB] ∨ keyOf clashA ∈ keysOf [] →
          (keysOf ((DiffResult.mk [] [clashB] []).ToAdd ++ ((DiffResult.mk [] [clashB] []).ToDel
            ++ (DiffResult.mk [] [clashB] []).Unchanged))).count (keyOf clashA) = 1)
      ∧ (∀ r, r ∈ (DiffResult.mk [] [clashB] []).Unchanged → keyOf r = keyOf clashA →
          (∀ a ∈ normList [clashA, clashB], ∀ b ∈ normList [], keyOf a = keyOf b → a = b) →
          lastWins [] (keyOf clashA) r) :=
  DiffRoutes_last_write_wins [clashA, clashB] [] (DiffResult.mk [] [clashB] []) (by decide)
    (keyOf clashA)

/-! ## The protocol vocabulary -/

theorem atoiDigits_some : ∀ (ds : List Char) (n v : Nat),
    atoiDigits ds n = some v ↔
      (∀ c ∈ ds, isDigit c) ∧ v = ds.foldl (fun a c => a * 10 + (c.toNat - 48)) n
  | [], n, v => by
    simp only [atoiDigits, List.foldl, Option.some.injEq, List.not_mem_nil, false_implies,
      implies_true, true_and]
    exact eq_comm
  | c :: s, n, v => by
    simp only [atoiDigits, decVal, List.foldl, List.mem_cons, forall_eq_or_imp]
    by_cases hc : 48 ≤ c.toNat ∧ c.toNat ≤ 57
    · rw [if_pos hc]
      simp only
      rw [atoiDigits_some s (n * 10 + (c.toNat - 48)) v]
      simp only [isDigit, hc, and_self, true_and]
    · rw [if_neg hc]
      simp [isDigit, hc]

theorem atoiDigits_zero (ds : List Char) (v : Nat) :
    atoiDigits ds 0 = some v ↔ (∀ c ∈ ds, isDigit c) ∧ v = decValue ds :=
  atoiDigits_some ds 0 v

theorem atoiDigits_none (ds : List Char) (h : ¬ ∀ c ∈ ds, isDigit c) :
    atoiDigits ds 0 = none := by
  rcases hv : atoiDigits ds 0 with _ | v
  · rfl
  · exact absurd ((atoiDigits_zero ds v).1 hv).1 h

theorem not_sign_of_digit (c : Char) (h : isDigit c) : ¬ (c = '-' ∨ c = '+') := by
  rintro (rfl | rfl) <;> revert h <;> decide

/-- What `Atoi` accepts, and the integer it returns. -/
theorem Atoi_spec (s : String) (n : Int) :
    Atoi s = some n ↔
      ∃ sign ds, s.data = sign ++ ds ∧ (sign = [] ∨ sign = ['+'] ∨ sign = ['-'])
        ∧ ds ≠ [] ∧ (∀ c ∈ ds, isDigit c)
        ∧ ((sign = ['-'] ∧ decValue ds ≤ 2 ^ 63 ∧ n = -(decValue ds : Int))
          ∨ (sign ≠ ['-'] ∧ decValue ds < 2 ^ 63 ∧ n = (decValue ds : Int))) := by
  unfold Atoi
  constructor
  · intro h
    rcases hs : s.data with _ | ⟨c, rest⟩
    · rw [hs] at h
      cases h
    · rw [hs] at h
      simp only at h
      by_cases hsign : c = '-' ∨ c = '+'
      · rw [if_pos hsign] at h
        by_cases hr : rest = []
        · rw [if_pos hr] at h
          cases h
        · rw [if_neg hr] at h
          rcases hv : atoiDigits rest 0 with _ | v
          · rw [hv] at h
            cases h
          · rw [hv] at h
            simp only at h
            obtain ⟨hd, rfl⟩ := (atoiDigits_zero rest v).1 hv
            rcases hsign with rfl | rfl
            · rw [if_pos rfl] at h
              by_cases hb : decValue rest ≤ 2 ^ 63
              · rw [if_pos hb] at h
                cases h
                exact ⟨['-'], rest, rfl, Or.inr (Or.inr rfl), hr, hd, Or.inl ⟨rfl, hb, rfl⟩⟩
              · rw [if_neg hb] at h
                cases h
            · rw [if_neg (by decide)] at h
              by_cases hb : decValue rest < 2 ^ 63
              · rw [if_pos hb] at h
                cases h
                exact ⟨['+'], rest, rfl, Or.inr (Or.inl rfl), hr, hd,
                  Or.inr ⟨by decide, hb, rfl⟩⟩
              · rw [if_neg hb] at h
                cases h
      · rw [if_neg hsign, if_neg (by simp)] at h
        rcases hv : atoiDigits (c :: rest) 0 with _ | v
        · rw [hv] at h
          cases h
        · rw [hv] at h
          simp only at h
          obtain ⟨hd, rfl⟩ := (atoiDigits_zero (c :: rest) v).1 hv
          rw [if_neg (fun e => hsign (Or.inl e))] at h
          by_cases hb : decValue (c :: rest) < 2 ^ 63
          · rw [if_pos hb] at h
            cases h
            exact ⟨[], c :: rest, rfl, Or.inl rfl, by simp, hd, Or.inr ⟨by simp, hb, rfl⟩⟩
          · rw [if_neg hb] at h
            cases h
  · rintro ⟨sign, ds, hs, hsign, hne, hd, hval⟩
    have hz := (atoiDigits_zero ds (decValue ds)).2 ⟨hd, rfl⟩
    rcases hsign with rfl | rfl | rfl
    · rcases ds with _ | ⟨c, rest⟩
      · exact absurd rfl hne
      · have hc := not_sign_of_digit c (hd c (by simp))
        rw [List.nil_append] at hs
        rw [hs]
        simp only
        rw [if_neg hc, if_neg (by simp), hz]
        simp only
        rw [if_neg (fun e => hc (Or.inl e))]
        rcases hval with ⟨hm, _⟩ | ⟨_, hb, rfl⟩
        · cases hm
        · rw [if_pos hb]
    · rw [hs]
      show (if (if '+' = '-' ∨ '+' = '+' then ds else '+' :: ds) = [] then none
        else match atoiDigits (if '+' = '-' ∨ '+' = '+' then ds else '+' :: ds) 0 with
          | none => none
          | some v => if '+' = '-' then (if v ≤ 2 ^ 63 then some (-(v : Int)) else none)
            else if v < 2 ^ 63 then some (v : Int) else none) = some n
      rw [if_pos (Or.inr rfl), if_neg hne, hz]
      simp only
      rw [if_neg (by decide)]
      rcases hval with ⟨hm, _⟩ | ⟨_, hb, rfl⟩
      · exact absurd hm (by decide)
      · rw [if_pos hb]
    · rw [hs]
      show (if (if '-' = '-' ∨ '-' = '+' then ds else '-' :: ds) = [] then none
        else match atoiDigits (if '-' = '-' ∨ '-' = '+' then ds else '-' :: ds) 0 with
          | none => none
          | some v => if '-' = '-' then (if v ≤ 2 ^ 63 then some (-(v : Int)) else none)
            else if v < 2 ^ 63 then some (v : Int) else none) = some n
      rw [if_pos (Or.inl rfl), if_neg hne, hz]
      simp only
      rw [if_pos trivial]
      rcases hval with ⟨_, hb, rfl⟩ | ⟨hm, _⟩
      · rw [if_pos hb]
      · exact absurd rfl hm

theorem Atoi_byte (q : String) (c : Int) :
    (∃ n, Atoi q = some n ∧ ¬ (n < 0 ∨ n > 255) ∧ c = n) ↔
      ∃ sign ds, q.data = sign ++ ds ∧ (sign = [] ∨ sign = ['+'] ∨ sign = ['-'])
        ∧ ds ≠ [] ∧ (∀ ch ∈ ds, isDigit ch) ∧ decValue ds ≤ 255
        ∧ (sign = ['-'] → decValue ds = 0) ∧ c = (decValue ds : Int) := by
  constructor
  · rintro ⟨n, hA, hr, hc⟩
    obtain ⟨sign, ds, h1, h2, h3, h4, h5⟩ := (Atoi_spec q n).1 hA
    refine ⟨sign, ds, h1, h2, h3, h4, ?_⟩
    rcases h5 with ⟨hm, _, hn⟩ | ⟨hm, _, hn⟩
    · have hz : decValue ds = 0 := by omega
      exact ⟨by omega, fun _ => hz, by omega⟩
    · exact ⟨by omega, fun e => absurd e hm, by omega⟩
  · rintro ⟨sign, ds, h1, h2, h3, h4, h5, h6, rfl⟩
    by_cases hm : sign = ['-']
    · have hz := h6 hm
      refine ⟨-(decValue ds : Int), (Atoi_spec q _).2 ⟨sign, ds, h1, h2, h3, h4,
        Or.inl ⟨hm, ?_, rfl⟩⟩, by omega, by omega⟩
      rw [hz]
      exact Nat.zero_le _
    · refine ⟨(decValue ds : Int), (Atoi_spec q _).2 ⟨sign, ds, h1, h2, h3, h4,
        Or.inr ⟨hm, lt_of_le_of_lt h5 (by norm_num), rfl⟩⟩, by omega, rfl⟩

theorem Atoi_names : Atoi "kernel" = none ∧ Atoi "boot" = none ∧ Atoi "static" = none
    ∧ Atoi "dhcp" = none := by
  decide

theorem pair_true (a c : Int) : ((a, true) : Int × Bool) = (c, true) ↔ c = a := by
  constructor
  · intro h
    exact (congrArg Prod.fst h).symm
  · rintro rfl
    rfl

theorem pair_false (c : Int) : ((0, false) : Int × Bool) = (c, true) ↔ False := by
  constructor
  · intro h
    have h2 := congrArg Prod.snd h
    simp at h2
  · exact False.elim

/-- The strings `parseProtocol` accepts, with the code it returns for each. -/
theorem parseProtocol_accepts (p : String) (c : Int) :
    parseProtocol p = (c, true) ↔
      (toLower (trimSpace p) = "" ∧ c = 0)
        ∨ (toLower (trimSpace p) = "kernel" ∧ c = 2)
        ∨ (toLower (trimSpace p) = "boot" ∧ c = 3)
        ∨ (toLower (trimSpace p) = "static" ∧ c = 4)
        ∨ (toLower (trimSpace p) = "dhcp" ∧ c = 16)
        ∨ ∃ sign ds, (toLower (trimSpace p)).data = sign ++ ds
          ∧ (sign = [] ∨ sign = ['+'] ∨ sign = ['-'])
          ∧ ds ≠ [] ∧ (∀ ch ∈ ds, isDigit ch) ∧ decValue ds ≤ 255
          ∧ (sign = ['-'] → decValue ds = 0) ∧ c = (decValue ds : Int) := by
  rw [← Atoi_byte]
  unfold parseProtocol
  simp only
  generalize toLower (trimSpace p) = q
  by_cases hq : q = ""
  · subst hq
    rw [if_pos rfl, pair_true]
    have hA : Atoi "" = none := by decide
    simp only [hA, true_and, false_and, exists_false, or_false]
    constructor
    · intro h
      exact Or.inl h
    · rintro (h | ⟨h, _⟩ | ⟨h, _⟩ | ⟨h, _⟩ | ⟨h, _⟩ | ⟨n, h, _⟩)
      · exact h
      · exact absurd h (by decide)
      · exact absurd h (by decide)
      · exact absurd h (by decide)
      · exact absurd h (by decide)
      · cases h
  · rw [if_neg hq]
    rcases hA : Atoi q with _ | n
    · simp only [hq, false_and, exists_false, or_false, false_or]
      by_cases h1 : q = "kernel"
      · subst h1
        rw [if_pos rfl, pair_true]
        simp [RTPROT_KERNEL]
      · rw [if_neg h1]
        by_cases h2 : q = "boot"
        · subst h2
          rw [if_pos rfl, pair_true]
          simp [RTPROT_BOOT]
        · rw [if_neg h2]
          by_cases h3 : q = "static"
          · subst h3
            rw [if_pos rfl, pair_true]
            simp [RTPROT_STATIC]
          · rw [if_neg h3]
            by_cases h4 : q = "dhcp"
            · subst h4
              rw [if_pos rfl, pair_true]
              simp [RTPROT_DHCP]
            · rw [if_neg h4, pair_false]
              simp [h1, h2, h3, h4]
    · have n1 : q ≠ "kernel" := by
        rintro rfl
        rw [Atoi_names.1] at hA
        cases hA
      have n2 : q ≠ "boot" := by
        rintro rfl
        rw [Atoi_names.2.1] at hA
        cases hA
      have n3 : q ≠ "static" := by
        rintro rfl
        rw [Atoi_names.2.2.1] at hA
        cases hA
      have n4 : q ≠ "dhcp" := by
        rintro rfl
        rw [Atoi_names.2.2.2] at hA
        cases hA
      simp only [hq, n1, n2, n3, n4, false_and, false_or, Option.some.injEq, exists_eq_left']
      by_cases hr : n < 0 ∨ n > 255
      · rw [if_pos hr, pair_false]
        simp [hr]
      · rw [if_neg hr, pair_true]
        simp [hr]

theorem parseProtocol_rejects (p : String) (h : (parseProtocol p).2 = false) :
    (parseProtocol p).1 = 0 := by
  unfold parseProtocol at h ⊢
  simp only at h ⊢
  generalize toLower (trimSpace p) = q at h ⊢
  by_cases hq : q = ""
  · rw [if_pos hq]
  · rw [if_neg hq] at h ⊢
    rcases hA : Atoi q with _ | n
    · rw [hA] at h
      simp only at h ⊢
      by_cases h1 : q = "kernel"
      · rw [if_pos h1] at h
        cases h
      · rw [if_neg h1] at h ⊢
        by_cases h2 : q = "boot"
        · rw [if_pos h2] at h
          cases h
        · rw [if_neg h2] at h ⊢
          by_cases h3 : q = "static"
          · rw [if_pos h3] at h
            cases h
          · rw [if_neg h3] at h ⊢
            by_cases h4 : q = "dhcp"
            · rw [if_pos h4] at h
              cases h
            · rw [if_neg h4]
    · rw [hA] at h
      simp only at h ⊢
      by_cases hr : n < 0 ∨ n > 255
      · rw [if_pos hr]
      · rw [if_neg hr] at h
        cases h

theorem digit_digitChar : ∀ n, n < 10 → isDigit (digitChar n) := by
  decide

theorem digit_decDigits : ∀ (f n : Nat), ∀ c ∈ decDigits f n, isDigit c
  | 0, _, c, hc => by simp [decDigits] at hc
  | f + 1, n, c, hc => by
    simp only [decDigits] at hc
    split at hc
    · rw [List.mem_singleton.1 hc]
      exact digit_digitChar _ (by omega)
    · rcases List.mem_append.1 hc with hc | hc
      · exact digit_decDigits f _ c hc
      · rw [List.mem_singleton.1 hc]
        exact digit_digitChar _ (by omega)

theorem uitoa_ne_nil (n : Nat) : uitoa n ≠ [] := by
  unfold uitoa
  simp only [decDigits]
  split <;> simp

theorem canon_uitoa (n : Nat) : toLower (trimSpace ⟨uitoa n⟩) = ⟨uitoa n⟩ := by
  have hp : ∀ c ∈ uitoa n, plainChar c = true := plain_decDigits _ _
  apply (data_inj _ _).1
  show (trimSpaceL (uitoa n)).map toLowerRune = uitoa n
  rw [trimSpaceL_plain _ hp, lower_plain _ hp]

/-- What `parseProtocol` does with the decimal text of a natural number. -/
theorem parseProtocol_uitoa (n : Nat) :
    parseProtocol ⟨uitoa n⟩ = if n ≤ 255 then ((n : Int), true) else (0, false) := by
  have hdig : ∀ c ∈ uitoa n, isDigit c := digit_decDigits _ _
  have hval : decValue (uitoa n) = n := decValue_decDigits (n + 1) n (by omega)
  by_cases hn : n ≤ 255
  · rw [if_pos hn, parseProtocol_accepts, canon_uitoa]
    refine Or.inr (Or.inr (Or.inr (Or.inr (Or.inr ⟨[], uitoa n, rfl, Or.inl rfl,
      uitoa_ne_nil n, hdig, by omega, fun e => (by cases e), by rw [hval]⟩))))
  · rw [if_neg hn]
    have hno : ∀ c, parseProtocol ⟨uitoa n⟩ ≠ (c, true) := by
      intro c hc
      rw [parseProtocol_accepts, canon_uitoa] at hc
      have hne := uitoa_ne_nil n
      have hmem : ∀ (s : String), (String.mk (uitoa n)) = s → ∀ c ∈ s.data, isDigit c := by
        rintro s rfl
        exact hdig
      rcases hc with ⟨h, _⟩ | ⟨h, _⟩ | ⟨h, _⟩ | ⟨h, _⟩ | ⟨h, _⟩ | ⟨sign, ds, h1, h2, h3, h4, h5, _⟩
      · exact hne (congrArg String.data h)
      · exact absurd (hmem _ h 'k' (by decide)) (by decide)
      · exact absurd (hmem _ h 'b' (by decide)) (by decide)
      · exact absurd (hmem _ h 's' (by decide)) (by decide)
      · exact absurd (hmem _ h 'd' (by decide)) (by decide)
      · have h1 : uitoa n = sign ++ ds := h1
        rcases h2 with rfl | rfl | rfl
        · rw [List.nil_append] at h1
          rw [← h1, hval] at h5
          exact hn h5
        · exact absurd (hdig '+' (by rw [h1]; simp)) (by decide)
        · exact absurd (hdig '-' (by rw [h1]; simp)) (by decide)
    rcases hpp : parseProtocol ⟨uitoa n⟩ with ⟨c, b⟩
    cases b
    · have := parseProtocol_rejects ⟨uitoa n⟩ (by rw [hpp])
      rw [hpp] at this
      simp only at this
      rw [this]
    · exact absurd hpp (hno c)

end LinuxRoute

/-! # The claims of the specification -/

namespace LinuxRoute

/-- C1. Normalization is idempotent: when `Normalize` succeeds on a route with result `n`,
`Normalize` succeeds on `n` too and returns `n` itself, all nine fields unchanged. -/
theorem Normalize_idempotent (r n : Route) (h : r.Normalize = .ok n) : n.Normalize = .ok n :=
  Normalize_idem r n h

theorem Normalize_idempotent_witness :
    (Route.mk " 10.0.0.1/24" "::FFFF:192.168.1.1" "eth0 " 100 10 "2001:DB8:0:0:0:0:0:1"
        "LINK" "\u00c9" "Static").Normalize
        = .ok (Route.mk "10.0.0.0/24" "192.168.1.1" "eth0" 100 10 "2001:db8::1"
          "link" "\u00e9" "static")
      ∧ (Route.mk "10.0.0.0/24" "192.168.1.1" "eth0" 100 10 "2001:db8::1"
          "link" "\u00e9" "static").Normalize
        = .ok (Route.mk "10.0.0.0/24" "192.168.1.1" "eth0" 100 10 "2001:db8::1"
          "link" "\u00e9" "static") :=
  ⟨by decide,
    Normalize_idempotent
      (Route.mk " 10.0.0.1/24" "::FFFF:192.168.1.1" "eth0 " 100 10 "2001:DB8:0:0:0:0:0:1"
        "LINK" "\u00c9" "Static") _ (by decide)⟩

/-- C2. Key stability: for routes `r1`, `r2` that both normalize, if the normalized routes
agree in every field then `Key r1 = Key r2`, and if the normalized routes differ in exactly
one of the nine fields then `Key r1 ≠ Key r2`. -/
theorem Key_stability (r1 r2 n1 n2 : Route) (h1 : r1.Normalize = .ok n1)
    (h2 : r2.Normalize = .ok n2) :
    ((∀ f, agreeOn f n1 n2) → r1.Key = r2.Key)
      ∧ ∀ f, differOnlyIn f n1 n2 → r1.Key ≠ r2.Key := by
  rw [Key_of_Normalize r1 n1 h1, Key_of_Normalize r2 n2 h2]
  constructor
  · intro h
    rw [Route_eq_of_agree n1 n2 h]
  · intro f hf hk
    exact formatKey_differ f n1 n2 hf (by simpa using hk)

theorem Key_stability_witness :
    ((∀ f, agreeOn f (Route.mk "10.0.0.0/24" "" "eth0" 0 0 "" "" "" "")
        (Route.mk "10.0.0.0/24" "" "eth0" 0 0 "" "" "" ""))
      → (Route.mk "10.0.0.1/24" "" "eth0" 0 0 "" "" "" "").Key
        = (Route.mk " 10.0.0.0/24 " "" "eth0" 0 0 "" "" "" "").Key)
      ∧ ∀ f, differOnlyIn f (Route.mk "10.0.0.0/24" "" "eth0" 0 0 "" "" "" "")
        (Route.mk "10.0.0.0/24" "" "eth0" 0 0 "" "" "" "")
        → (Route.mk "10.0.0.1/24" "" "eth0" 0 0 "" "" "" "").Key
          ≠ (Route.mk " 10.0.0.0/24 " "" "eth0" 0 0 "" "" "" "").Key :=
  Key_stability (Route.mk "10.0.0.1/24" "" "eth0" 0 0 "" "" "" "")
    (Route.mk " 10.0.0.0/24 " "" "eth0" 0 0 "" "" "" "") _ _ (by decide) (by decide)

/-- C3. `DiffRoutes` computes the keyed set difference: when every element of both inputs
normalizes, `DiffRoutes` succeeds; the keys of `ToDel` are exactly the keys of old routes
that are not keys of desired routes, the keys of `ToAdd` exactly the keys of desired
routes that are not keys of old routes, the keys of `Unchanged` exactly the keys in both;
and every returned route is the normalized form of an input element, `ToDel` and
`Unchanged` of an old one, `ToAdd` of a desired one. -/
theorem DiffRoutes_keyed_difference (old desired : List Route)
    (ho : ∀ r ∈ old, Normalizes r) (hd : ∀ r ∈ desired, Normalizes r) :
    ∃ d, DiffRoutes old desired = .ok d
      ∧ (∀ k, k ∈ keysOf d.ToDel ↔ k ∈ keysOf old ∧ ¬ k ∈ keysOf desired)
      ∧ (∀ k, k ∈ keysOf d.ToAdd ↔ k ∈ keysOf desired ∧ ¬ k ∈ keysOf old)
      ∧ (∀ k, k ∈ keysOf d.Unchanged ↔ k ∈ keysOf old ∧ k ∈ keysOf desired)
      ∧ (∀ n ∈ d.ToDel, ∃ r ∈ old, r.Normalize = .ok n)
      ∧ (∀ n ∈ d.Unchanged, ∃ r ∈ old, r.Normalize = .ok n)
      ∧ (∀ n ∈ d.ToAdd, ∃ r ∈ desired, r.Normalize = .ok n) := by
  have h := DiffRoutes_ok old desired ho hd
  obtain ⟨k1, k2, k3⟩ := DiffRoutes_keys old desired _ h
  obtain ⟨o1, o2, o3⟩ := DiffRoutes_origin old desired _ h
  exact ⟨_, h, k1, k2, k3, o1, o2, o3⟩

theorem DiffRoutes_keyed_difference_witness :
    ∃ d, DiffRoutes sampleOld sampleDesired = .ok d
      ∧ (∀ k, k ∈ keysOf d.ToDel ↔ k ∈ keysOf sampleOld ∧ ¬ k ∈ keysOf sampleDesired)
      ∧ (∀ k, k ∈ keysOf d.ToAdd ↔ k ∈ keysOf sampleDesired ∧ ¬ k ∈ keysOf sampleOld)
      ∧ (∀ k, k ∈ keysOf d.Unchanged ↔ k ∈ keysOf sampleOld ∧ k ∈ keysOf sampleDesired)
      ∧ (∀ n ∈ d.ToDel, ∃ r ∈ sampleOld, r.Normalize = .ok n)
      ∧ (∀ n ∈ d.Unchanged, ∃ r ∈ sampleOld, r.Normalize = .ok n)
      ∧ (∀ n ∈ d.ToAdd, ∃ r ∈ sampleDesired, r.Normalize = .ok n) :=
  DiffRoutes_keyed_difference sampleOld sampleDesired (by decide) (by decide)

/-- C4. Diff completeness: when `DiffRoutes` succeeds, every key of an old or a desired
route occurs exactly once in `ToAdd`, `ToDel` and `Unchanged` taken together (so in exactly
one of the three, and once there), and a key of neither input occurs in none of them. -/
theorem DiffRoutes_partition (old desired : List Route) (d : DiffResult)
    (h : DiffRoutes old desired = .ok d) :
    (∀ k, k ∈ keysOf old ∨ k ∈ keysOf desired →
        (keysOf d.ToAdd).count k + (keysOf d.ToDel).count k + (keysOf d.Unchanged).count k = 1)
      ∧ ∀ k, ¬ (k ∈ keysOf old ∨ k ∈ keysOf desired) →
        ¬ k ∈ keysOf d.ToAdd ∧ ¬ k ∈ keysOf d.ToDel ∧ ¬ k ∈ keysOf d.Unchanged := by
  obtain ⟨⟨s1, s2, s3⟩, _⟩ := DiffRoutes_spec old desired d h
  obtain ⟨e1, e3, e2⟩ := DiffRoutes_keys old desired d h
  constructor
  · intro k hk
    rw [count_keys _ s1, count_keys _ s2, count_keys _ s3]
    by_cases ha : k ∈ keysOf old <;> by_cases hb : k ∈ keysOf desired
    · simp [e1, e2, e3, ha, hb]
    · simp [e1, e2, e3, ha, hb]
    · simp [e1, e2, e3, ha, hb]
    · exact absurd hk (by simp [ha, hb])
  · intro k hk
    rw [e1, e2, e3]
    tauto

theorem DiffRoutes_partition_witness :
    (∀ k, k ∈ keysOf sampleOld ∨ k ∈ keysOf sampleDesired →
        (keysOf (diffMaps (seedApplied (normList sampleOld) [])
            (seedApplied (normList sampleDesired) [])).ToAdd).count k
          + (keysOf (diffMaps (seedApplied (normList sampleOld) [])
            (seedApplied (normList sampleDesired) [])).ToDel).count k
          + (keysOf (diffMaps (seedApplied (normList sampleOld) [])
            (seedApplied (normList sampleDesired) [])).Unchanged).count k = 1)
      ∧ ∀ k, ¬ (k ∈ keysOf sampleOld ∨ k ∈ keysOf sampleDesired) →
        ¬ k ∈ keysOf (diffMaps (seedApplied (normList sampleOld) [])
            (seedApplied (normList sampleDesired) [])).ToAdd
          ∧ ¬ k ∈ keysOf (diffMaps (seedApplied (normList sampleOld) [])
            (seedApplied (normList sampleDesired) [])).ToDel
          ∧ ¬ k ∈ keysOf (diffMaps (seedApplied (normList sampleOld) [])
            (seedApplied (normList sampleDesired) [])).Unchanged :=
  DiffRoutes_partition sampleOld sampleDesired _ (by decide)

/-- C5, the failing input. The routes `clashA` and `clashB` differ in scope and type and
share a key. With old routes `[clashA, clashB]` and no desired route, `DiffRoutes` returns
`ToDel = [clashB]`; with the two old routes swapped it returns `ToDel = [clashA]`. The
result depends on the order of the input, and one of the two routes that are in old and
not in desired is missing from `ToDel`. -/
theorem DiffRoutes_order_counterexample :
    [clashB, clashA].Perm [clashA, clashB]
      ∧ (resultOf (DiffRoutes [clashA, clashB] [])).ToDel = [clashB]
      ∧ (resultOf (DiffRoutes [clashB, clashA] [])).ToDel = [clashA]
      ∧ resultOf (DiffRoutes [clashB, clashA] []) ≠ resultOf (DiffRoutes [clashA, clashB] []) :=
  ⟨List.Perm.swap _ _ _, by decide, by decide, by decide⟩

/-- C6. Baseline truthfulness under partial failure: in a run of `Reconcile` that gets
past `Load` and `Diff` and whose `Save` succeeds, a route whose `Delete` returned an error
is in the saved baseline, and a route whose `Add` returned an error is not. -/
theorem Reconcile_baseline_truthful {σ τ E : Type} (c : Controller σ τ E)
    (m : RouteManager σ E) (st : RouteStore τ E) (w : World σ τ) (desired old : List Route)
    (t : τ) (d : DiffResult) (hm : c.Manager = some m) (hst : c.Store = some st)
    (hl : st.Load w.store = (t, .ok old)) (hd : DiffRoutes old desired = .ok d)
    (saved : List Route) (hs : Call.save saved true ∈ runCalls c w desired) :
    (∀ r, Call.delete r false ∈ runCalls c w desired → r ∈ saved)
      ∧ ∀ r, Call.add r false ∈ runCalls c w desired → ¬ r ∈ saved := by
  obtain ⟨resD, resA, sv, h1, h2, h3, _, h5, _⟩ :=
    Reconcile_run c m st w desired old t d hm hst hl hd
  obtain ⟨cD, cA, cS⟩ := mem_run_calls resD resA sv (st.Save t sv).2.isNone
  obtain ⟨nA, nD, _, dA, _⟩ := keys_disjoint d (DiffRoutes_keys_nodup old desired d hd)
  rw [h5] at hs ⊢
  obtain ⟨rfl, _⟩ := (cS saved true).1 hs
  constructor
  · intro r hr
    have hr2 := (cD r false).1 hr
    refine (h3 r).2 (Or.inr (Or.inl ⟨mem_of_res resD _ h1 r false hr2, ?_⟩))
    intro hok
    exact fst_unique resD (by rw [h1]; exact List.Nodup.of_map _ nD) r
      ((mem_okRoutes resD r).1 hok) hr2
  · intro r hr hsv
    have hr2 := (cA r false).1 hr
    have hrA := mem_of_res resA _ h2 r false hr2
    rcases (h3 r).1 hsv with hok | ⟨hD, _⟩ | hU
    · exact fst_unique resA (by rw [h2]; exact List.Nodup.of_map _ nA) r
        ((mem_okRoutes resA r).1 hok) hr2
    · exact dA r hrA r (List.mem_append_left _ hD) rfl
    · exact dA r hrA r (List.mem_append_right _ hU) rfl

theorem Reconcile_baseline_truthful_witness :
    (∀ r, Call.delete r false ∈ runCalls (memController addFailsManager) (memWorld sampleOld)
          sampleDesired →
        r ∈ [Route.mk "10.0.0.0/24" "192.168.1.1" "eth0" 100 0 "" "" "" ""])
      ∧ ∀ r, Call.add r false ∈ runCalls (memController addFailsManager) (memWorld sampleOld)
          sampleDesired →
        ¬ r ∈ [Route.mk "10.0.0.0/24" "192.168.1.1" "eth0" 100 0 "" "" "" ""] :=
  Reconcile_baseline_truthful (memController addFailsManager) addFailsManager
    (MemoryStore String) (memWorld sampleOld) sampleDesired sampleOld sampleOld sampleDiff
    rfl rfl rfl (by decide) _ (by decide)

/-- C7. Reconcile ordering: in a run of `Reconcile` that gets past `Load` and `Diff`, the
calls on the Manager are exactly one `Delete` per `ToDel` route, in the order of `ToDel`,
followed by one `Add` per `ToAdd` route, in the order of `ToAdd`, whatever the calls return;
both lists are in strictly ascending key order. So every `Delete` comes before every
`Add`. -/
theorem Reconcile_ordering {σ τ E : Type} (c : Controller σ τ E)
    (m : RouteManager σ E) (st : RouteStore τ E) (w : World σ τ) (desired old : List Route)
    (t : τ) (d : DiffResult) (hm : c.Manager = some m) (hst : c.Store = some st)
    (hl : st.Load w.store = (t, .ok old)) (hd : DiffRoutes old desired = .ok d) :
    ∃ (resD resA : List (Route × Bool)),
      resD.map (·.1) = d.ToDel ∧ resA.map (·.1) = d.ToAdd
        ∧ (runCalls c w desired).filter Call.isManager
            = resD.map (fun p => Call.delete p.1 p.2) ++ resA.map (fun p => Call.add p.1 p.2)
        ∧ List.Pairwise keyLT d.ToDel ∧ List.Pairwise keyLT d.ToAdd := by
  obtain ⟨resD, resA, sv, h1, h2, _, _, h5, _⟩ :=
    Reconcile_run c m st w desired old t d hm hst hl hd
  obtain ⟨⟨s1, _, s3⟩, _⟩ := DiffRoutes_spec old desired d hd
  exact ⟨resD, resA, h1, h2, by rw [h5, filter_isManager], s1, s3⟩

theorem Reconcile_ordering_witness :
    ∃ (resD resA : List (Route × Bool)),
      resD.map (·.1) = sampleDiff.ToDel ∧ resA.map (·.1) = sampleDiff.ToAdd
        ∧ (runCalls (memController failManager) (memWorld sampleOld) sampleDesired).filter
            Call.isManager
            = resD.map (fun p => Call.delete p.1 p.2) ++ resA.map (fun p => Call.add p.1 p.2)
        ∧ List.Pairwise keyLT sampleDiff.ToDel ∧ List.Pairwise keyLT sampleDiff.ToAdd :=
  Reconcile_ordering (memController failManager) failManager (MemoryStore String)
    (memWorld sampleOld) sampleDesired sampleOld sampleOld sampleDiff rfl rfl rfl (by decide)

/-- C8. Unconditional save: in a run of `Reconcile` with both collaborators bound in which
`Load` and `DiffRoutes` succeed, the calls are `Load`, then the Manager calls, then one
`Save`, whatever the Manager calls returned. The saved list is strictly ascending in key
order (so without duplicate keys) and is the applied working set: the routes added
without error, the `ToDel` routes not deleted without error, and the `Unchanged` routes. -/
theorem Reconcile_saves_once {σ τ E : Type} (c : Controller σ τ E)
    (m : RouteManager σ E) (st : RouteStore τ E) (w : World σ τ) (desired old : List Route)
    (t : τ) (d : DiffResult) (hm : c.Manager = some m) (hst : c.Store = some st)
    (hl : st.Load w.store = (t, .ok old)) (hd : DiffRoutes old desired = .ok d) :
    ∃ (mgrCalls : List Call) (saved : List Route) (ok : Bool),
      runCalls c w desired = Call.load true :: (mgrCalls ++ [Call.save saved ok])
        ∧ (∀ x ∈ mgrCalls, x.isManager = true)
        ∧ List.Pairwise keyLT saved
        ∧ ∀ r, r ∈ saved ↔
            Call.add r true ∈ mgrCalls
              ∨ (r ∈ d.ToDel ∧ ¬ Call.delete r true ∈ mgrCalls) ∨ r ∈ d.Unchanged := by
  obtain ⟨resD, resA, sv, h1, h2, h3, h4, h5, _⟩ :=
    Reconcile_run c m st w desired old t d hm hst hl hd
  refine ⟨resD.map (fun p => Call.delete p.1 p.2) ++ resA.map (fun p => Call.add p.1 p.2),
    sv, (st.Save t sv).2.isNone, by rw [h5, List.append_assoc], ?_, h4, ?_⟩
  · intro x hx
    rcases List.mem_append.1 hx with hx | hx
    · obtain ⟨p, _, rfl⟩ := List.mem_map.1 hx; rfl
    · obtain ⟨p, _, rfl⟩ := List.mem_map.1 hx; rfl
  · intro r
    have eA : Call.add r true ∈ resD.map (fun p => Call.delete p.1 p.2)
        ++ resA.map (fun p => Call.add p.1 p.2) ↔ r ∈ okRoutes resA := by
      rw [mem_okRoutes, ← mem_add_calls]
      simp
    have eD : Call.delete r true ∈ resD.map (fun p => Call.delete p.1 p.2)
        ++ resA.map (fun p => Call.add p.1 p.2) ↔ r ∈ okRoutes resD := by
      rw [mem_okRoutes, ← mem_delete_calls]
      simp
    rw [h3 r, eA, eD]

theorem Reconcile_saves_once_witness :
    ∃ (mgrCalls : List Call) (saved : List Route) (ok : Bool),
      runCalls (memController failManager) (memWorld sampleOld) sampleDesired
          = Call.load true :: (mgrCalls ++ [Call.save saved ok])
        ∧ (∀ x ∈ mgrCalls, x.isManager = true)
        ∧ List.Pairwise keyLT saved
        ∧ ∀ r, r ∈ saved ↔
            Call.add r true ∈ mgrCalls
              ∨ (r ∈ sampleDiff.ToDel ∧ ¬ Call.delete r true ∈ mgrCalls)
              ∨ r ∈ sampleDiff.Unchanged :=
  Reconcile_saves_once (memController failManager) failManager (MemoryStore String)
    (memWorld sampleOld) sampleDesired sampleOld sampleOld sampleDiff rfl rfl rfl (by decide)

/-- The claim C9 as stated fails: with a Manager whose `Add` returns an error, `Save` is
invoked all the same and the baseline in the store changes. -/
theorem Reconcile_save_counterexample :
    Call.add (Route.mk "192.168.2.0/24" "10.0.0.2" "eth0" 0 0 "" "" "" "") false
        ∈ runCalls (memController addFailsManager) (memWorld sampleOld) sampleDesired
      ∧ Call.save [Route.mk "10.0.0.0/24" "192.168.1.1" "eth0" 100 0 "" "" "" ""] true
        ∈ runCalls (memController addFailsManager) (memWorld sampleOld) sampleDesired
      ∧ ((memController addFailsManager).Reconcile (memWorld sampleOld) sampleDesired).2.store
        = [Route.mk "10.0.0.0/24" "192.168.1.1" "eth0" 100 0 "" "" "" ""]
      ∧ ((memController addFailsManager).Reconcile (memWorld sampleOld) sampleDesired).2.store
        ≠ (memWorld sampleOld).store := by
  decide

/-- C9, amended. `Reconcile` saves the desired routes as the new baseline only if apply
succeeded: in a run past `Load` and `Diff` in which some `Delete` or `Add` returns an error,
`Save` is still the last call, made with the applied working set, and the keys of the
saved list are not the keys of the desired routes. -/
theorem Reconcile_save_on_failure {σ τ E : Type} (c : Controller σ τ E)
    (m : RouteManager σ E) (st : RouteStore τ E) (w : World σ τ) (desired old : List Route)
    (t : τ) (d : DiffResult) (hm : c.Manager = some m) (hst : c.Store = some st)
    (hl : st.Load w.store = (t, .ok old)) (hd : DiffRoutes old desired = .ok d)
    (hfail : ∃ r, Call.delete r false ∈ runCalls c w desired
      ∨ Call.add r false ∈ runCalls c w desired) :
    ∃ (saved : List Route) (ok : Bool),
      (runCalls c w desired).getLast? = some (Call.save saved ok)
        ∧ ¬ ∀ k, k ∈ keysOf saved ↔ k ∈ keysOf desired := by
  obtain ⟨resD, resA, sv, h1, h2, h3, _, h5, _⟩ :=
    Reconcile_run c m st w desired old t d hm hst hl hd
  obtain ⟨cD, cA, _⟩ := mem_run_calls resD resA sv (st.Save t sv).2.isNone
  obtain ⟨nA, nD, _, dA, _⟩ := keys_disjoint d (DiffRoutes_keys_nodup old desired d hd)
  obtain ⟨kD, kA, _⟩ := DiffRoutes_keys old desired d hd
  refine ⟨sv, (st.Save t sv).2.isNone, ?_, ?_⟩
  · rw [h5]
    have e : ∀ (A B : List Call) (x y : Call), (y :: (A ++ (B ++ [x]))).getLast? = some x := by
      intro A B x y
      have e2 : y :: (A ++ (B ++ [x])) = (y :: (A ++ B)) ++ [x] := by simp
      rw [e2, List.getLast?_concat]
    exact e _ _ _ _
  · intro hall
    rw [h5] at hfail
    obtain ⟨r, hr | hr⟩ := hfail
    · have hr2 := (cD r false).1 hr
      have hrD := mem_of_res resD _ h1 r false hr2
      have hsv : r ∈ sv := by
        refine (h3 r).2 (Or.inr (Or.inl ⟨hrD, ?_⟩))
        intro hok
        exact fst_unique resD (by rw [h1]; exact List.Nodup.of_map _ nD) r
          ((mem_okRoutes resD r).1 hok) hr2
      have hk : keyOf r ∈ keysOf desired := (hall _).1 (List.mem_map.2 ⟨r, hsv, rfl⟩)
      exact ((kD _).1 (List.mem_map.2 ⟨r, hrD, rfl⟩)).2 hk
    · have hr2 := (cA r false).1 hr
      have hrA := mem_of_res resA _ h2 r false hr2
      have hk : keyOf r ∈ keysOf sv := (hall _).2 ((kA _).1 (List.mem_map.2 ⟨r, hrA, rfl⟩)).1
      obtain ⟨r2, hr2sv, hk2⟩ := List.mem_map.1 hk
      rcases (h3 r2).1 hr2sv with hok | ⟨hD, _⟩ | hU
      · have hr2A : r2 ∈ d.ToAdd := by
          rw [← h2]; exact (okRoutes_sublist resA).subset hok
        have e := nodup_keys_inj d.ToAdd nA r2 hr2A r hrA hk2
        subst e
        exact fst_unique resA (by rw [h2]; exact List.Nodup.of_map _ nA) r2
          ((mem_okRoutes resA r2).1 hok) hr2
      · exact dA r hrA r2 (List.mem_append_left _ hD) hk2.symm
      · exact dA r hrA r2 (List.mem_append_right _ hU) hk2.symm

theorem Reconcile_save_on_failure_witness :
    ∃ (saved : List Route) (ok : Bool),
      (runCalls (memController addFailsManager) (memWorld sampleOld) sampleDesired).getLast?
          = some (Call.save saved ok)
        ∧ ¬ ∀ k, k ∈ keysOf saved ↔ k ∈ keysOf sampleDesired :=
  Reconcile_save_on_failure (memController addFailsManager) addFailsManager
    (MemoryStore String) (memWorld sampleOld) sampleDesired sampleOld sampleOld sampleDiff
    rfl rfl rfl (by decide)
    ⟨Route.mk "192.168.2.0/24" "10.0.0.2" "eth0" 0 0 "" "" "" "", Or.inr (by decide)⟩

/-- C10, the failing input. The baseline `[clashB]` holds a route with the key of the
desired route `clashA` and another scope and type. With a Manager that always succeeds the
run makes no Manager call, every call succeeds, the error is `nil`, and `Save` is called
with `[clashB]`: the store keeps the baseline route, not the normalized desired route. -/
theorem Reconcile_converged_counterexample :
    ((memController okManager).Reconcile (memWorld [clashB]) [clashA]).1.2.isNone = true
      ∧ runCalls (memController okManager) (memWorld [clashB]) [clashA]
        = [Call.load true, Call.save [clashB] true]
      ∧ ((memController okManager).Reconcile (memWorld [clashB]) [clashA]).2.store = [clashB]
      ∧ clashA.Normalize = .ok clashA
      ∧ ((memController okManager).Reconcile (memWorld [clashB]) [clashA]).2.store
        ≠ [clashA] := by
  decide

/-- C11. Fail-safe abort: if the Manager or the Store is `nil`, or `Load` returns an
error, or an element of the baseline or of the desired routes does not normalize, then
`Reconcile` returns the empty result with an error, the only call it can have made is
`Load` (so no `Add`, no `Delete`, no `Save`), the Manager is left as it was, and with a
`nil` collaborator it makes no call at all. -/
theorem Reconcile_fail_safe {σ τ E : Type} (c : Controller σ τ E) (w : World σ τ)
    (desired : List Route)
    (h : c.Manager = none ∨ c.Store = none ∨ ∃ st, c.Store = some st
      ∧ ((∃ e, (st.Load w.store).2 = .error e)
        ∨ ∃ old, (st.Load w.store).2 = .ok old ∧ ∃ r ∈ old ++ desired, ¬ Normalizes r)) :
    (c.Reconcile w desired).1.1 = emptyResult
      ∧ (c.Reconcile w desired).1.2.isSome = true
      ∧ (∀ x ∈ runCalls c w desired, ∃ b, x = Call.load b)
      ∧ (c.Reconcile w desired).2.mgr = w.mgr
      ∧ (c.Manager = none ∨ c.Store = none → runCalls c w desired = []) :=
  Reconcile_abort c w desired h

theorem Reconcile_fail_safe_witness :
    ((memController okManager).Reconcile (memWorld sampleOld)
        [Route.mk "10.0.0.0/33" "" "" 0 0 "" "" "" ""]).1.1 = emptyResult
      ∧ ((memController okManager).Reconcile (memWorld sampleOld)
        [Route.mk "10.0.0.0/33" "" "" 0 0 "" "" "" ""]).1.2.isSome = true
      ∧ (∀ x ∈ runCalls (memController okManager) (memWorld sampleOld)
          [Route.mk "10.0.0.0/33" "" "" 0 0 "" "" "" ""], ∃ b, x = Call.load b)
      ∧ ((memController okManager).Reconcile (memWorld sampleOld)
        [Route.mk "10.0.0.0/33" "" "" 0 0 "" "" "" ""]).2.mgr = (memWorld sampleOld).mgr
      ∧ ((memController okManager).Manager = none ∨ (memController okManager).Store = none →
        runCalls (memController okManager) (memWorld sampleOld)
          [Route.mk "10.0.0.0/33" "" "" 0 0 "" "" "" ""] = []) :=
  Reconcile_fail_safe (memController okManager) (memWorld sampleOld)
    [Route.mk "10.0.0.0/33" "" "" 0 0 "" "" "" ""]
    (Or.inr (Or.inr ⟨MemoryStore String, rfl, Or.inr ⟨sampleOld, rfl,
      Route.mk "10.0.0.0/33" "" "" 0 0 "" "" "" "", by simp, by decide⟩⟩))

/-- C12. `Reconcile` returns the plan, not the outcome: in a run that gets past `Load`
and `Diff` the returned `Diff` is the result of `DiffRoutes` on the baseline and the
desired routes, whatever the Manager calls and `Save` returned, and the returned error is
not `nil` exactly when a `Delete`, an `Add` or the `Save` call returned an error. -/
theorem Reconcile_returns_plan {σ τ E : Type} (c : Controller σ τ E)
    (m : RouteManager σ E) (st : RouteStore τ E) (w : World σ τ) (desired old : List Route)
    (t : τ) (d : DiffResult) (hm : c.Manager = some m) (hst : c.Store = some st)
    (hl : st.Load w.store = (t, .ok old)) (hd : DiffRoutes old desired = .ok d) :
    (c.Reconcile w desired).1.1.Diff = d
      ∧ ((c.Reconcile w desired).1.2.isSome = true ↔
          (∃ r, Call.delete r false ∈ runCalls c w desired)
            ∨ (∃ r, Call.add r false ∈ runCalls c w desired)
            ∨ ∃ s, Call.save s false ∈ runCalls c w desired) := by
  obtain ⟨resD, resA, sv, _, _, _, _, h5, _, h7, h8⟩ :=
    Reconcile_run c m st w desired old t d hm hst hl hd
  obtain ⟨cD, cA, cS⟩ := mem_run_calls resD resA sv (st.Save t sv).2.isNone
  refine ⟨by rw [h7], ?_⟩
  rw [h5]
  have hnone : (c.Reconcile w desired).1.2.isSome = true ↔ ¬ (c.Reconcile w desired).1.2 = none := by
    cases (c.Reconcile w desired).1.2 <;> simp
  rw [hnone, h8]
  constructor
  · intro hno
    by_contra hall
    apply hno
    refine ⟨?_, ?_, ?_⟩
    · intro p hp
      by_contra hp2
      apply hall
      left
      refine ⟨p.1, (cD p.1 false).2 ?_⟩
      have e : p = (p.1, false) := by
        rcases p with ⟨a, b⟩
        cases b
        · rfl
        · exact absurd rfl hp2
      rw [← e]; exact hp
    · intro p hp
      by_contra hp2
      apply hall
      right; left
      refine ⟨p.1, (cA p.1 false).2 ?_⟩
      have e : p = (p.1, false) := by
        rcases p with ⟨a, b⟩
        cases b
        · rfl
        · exact absurd rfl hp2
      rw [← e]; exact hp
    · by_contra hs
      apply hall
      right; right
      refine ⟨sv, (cS sv false).2 ⟨rfl, ?_⟩⟩
      cases hsv : (st.Save t sv).2
      · exact absurd hsv hs
      · rfl
  · rintro (⟨r, hr⟩ | ⟨r, hr⟩ | ⟨s, hs⟩) ⟨hD, hA, hS⟩
    · have := hD (r, false) ((cD r false).1 hr)
      cases this
    · have := hA (r, false) ((cA r false).1 hr)
      cases this
    · have := ((cS s false).1 hs).2
      rw [hS] at this
      cases this

theorem Reconcile_returns_plan_witness :
    ((memController addFailsManager).Reconcile (memWorld sampleOld) sampleDesired).1.1.Diff
        = sampleDiff
      ∧ (((memController addFailsManager).Reconcile (memWorld sampleOld)
          sampleDesired).1.2.isSome = true ↔
          (∃ r, Call.delete r false
              ∈ runCalls (memController addFailsManager) (memWorld sampleOld) sampleDesired)
            ∨ (∃ r, Call.add r false
              ∈ runCalls (memController addFailsManager) (memWorld sampleOld) sampleDesired)
            ∨ ∃ s, Call.save s false
              ∈ runCalls (memController addFailsManager) (memWorld sampleOld) sampleDesired) :=
  Reconcile_returns_plan (memController addFailsManager) addFailsManager (MemoryStore String)
    (memWorld sampleOld) sampleDesired sampleOld sampleOld sampleDiff rfl rfl rfl (by decide)

/-- C13. Retry re-diffs only the remaining discrepancy: after a run of `Reconcile` on a
`MemoryStore` that gets past `Load` and `Diff`, `DiffRoutes` of the saved baseline against
the same desired routes succeeds, its `ToDel` is the list of the first run's `ToDel`
routes whose `Delete` returned an error and its `ToAdd` the list of the first run's `ToAdd`
routes whose `Add` returned an error; and when no call of the first run returned an error,
a second `Reconcile` with the same desired routes makes no call on the Manager. -/
theorem Reconcile_retry {σ E : Type} (c : Controller σ (List Route) E) (m : RouteManager σ E)
    (w : World σ (List Route)) (desired : List Route) (d : DiffResult)
    (hm : c.Manager = some m) (hst : c.Store = some (MemoryStore E))
    (hd : DiffRoutes w.store desired = .ok d) :
    ∃ d2, DiffRoutes (c.Reconcile w desired).2.store desired = .ok d2
      ∧ d2.ToDel = d.ToDel.filter
          (fun r => decide (Call.delete r false ∈ runCalls c w desired))
      ∧ d2.ToAdd = d.ToAdd.filter
          (fun r => decide (Call.add r false ∈ runCalls c w desired))
      ∧ ((∀ x ∈ runCalls c w desired, x.ok = true) →
          (runCalls c (c.Reconcile w desired).2 desired).filter Call.isManager = []) := by
  obtain ⟨d2, hd2, eD, eA⟩ := rediff c m w desired d hm hst hd
  refine ⟨d2, hd2, eD, eA, ?_⟩
  intro hok
  obtain ⟨resD, resA, sv, h1, h2, _, _, h5, _⟩ :=
    Reconcile_run c m (MemoryStore E) (c.Reconcile w desired).2 desired
      (c.Reconcile w desired).2.store (c.Reconcile w desired).2.store d2 hm hst rfl hd2
  have zD : d2.ToDel = [] := by
    rw [eD, List.filter_eq_nil_iff]
    intro r _ hr
    have := hok _ (of_decide_eq_true hr)
    cases this
  have zA : d2.ToAdd = [] := by
    rw [eA, List.filter_eq_nil_iff]
    intro r _ hr
    have := hok _ (of_decide_eq_true hr)
    cases this
  rw [zD] at h1
  rw [zA] at h2
  rw [h5, filter_isManager, List.map_eq_nil_iff.1 h1, List.map_eq_nil_iff.1 h2]
  rfl

theorem Reconcile_retry_witness :
    ∃ d2, DiffRoutes ((memController addFailsManager).Reconcile (memWorld sampleOld)
          sampleDesired).2.store sampleDesired = .ok d2
      ∧ d2.ToDel = sampleDiff.ToDel.filter
          (fun r => decide (Call.delete r false
            ∈ runCalls (memController addFailsManager) (memWorld sampleOld) sampleDesired))
      ∧ d2.ToAdd = sampleDiff.ToAdd.filter
          (fun r => decide (Call.add r false
            ∈ runCalls (memController addFailsManager) (memWorld sampleOld) sampleDesired))
      ∧ ((∀ x ∈ runCalls (memController addFailsManager) (memWorld sampleOld) sampleDesired,
            x.ok = true) →
          (runCalls (memController addFailsManager)
            ((memController addFailsManager).Reconcile (memWorld sampleOld) sampleDesired).2
            sampleDesired).filter Call.isManager = []) :=
  Reconcile_retry (memController addFailsManager) addFailsManager (memWorld sampleOld)
    sampleDesired sampleDiff rfl rfl (by decide)

/-- C14. `Normalize` fails if and only if a field is malformed: it returns an error
exactly when the trimmed, lower-cased dst is empty, or is neither `default` nor a
parseable CIDR, or the trimmed gateway is non-empty and not a parseable IP, or the
trimmed src is non-empty and not a parseable IP, or table is negative, or metric is
negative; in every other case it returns a route. -/
theorem Normalize_fails_iff (r : Route) :
    ((∃ e, r.Normalize = .error e) ↔
        toLower (trimSpace r.Dst) = ""
          ∨ (toLower (trimSpace r.Dst) ≠ "default"
            ∧ ParseCIDR (toLower (trimSpace r.Dst)) = none)
          ∨ (trimSpace r.Gateway ≠ "" ∧ ParseIP (trimSpace r.Gateway) = none)
          ∨ (trimSpace r.Src ≠ "" ∧ ParseIP (trimSpace r.Src) = none)
          ∨ r.Table < 0 ∨ r.Metric < 0)
      ∧ ((∃ n, r.Normalize = .ok n) ↔
        ¬ (toLower (trimSpace r.Dst) = ""
          ∨ (toLower (trimSpace r.Dst) ≠ "default"
            ∧ ParseCIDR (toLower (trimSpace r.Dst)) = none)
          ∨ (trimSpace r.Gateway ≠ "" ∧ ParseIP (trimSpace r.Gateway) = none)
          ∨ (trimSpace r.Src ≠ "" ∧ ParseIP (trimSpace r.Src) = none)
          ∨ r.Table < 0 ∨ r.Metric < 0)) := by
  refine ⟨Normalize_error_iff r, ?_⟩
  rw [← Normalize_error_iff r]
  constructor
  · rintro ⟨n, hn⟩ ⟨e, he⟩
    rw [hn] at he
    cases he
  · intro hno
    rcases except_cases r.Normalize with he | hn
    · exact absurd he hno
    · exact hn

/-- C15, counterexample. The destination `::ffff:10.0.0.1/120` is a parseable CIDR with
a sixteen-byte address and prefix length 120, and `Normalize` rewrites it to
`10.0.0.0/24`: the prefix length is not kept. -/
theorem Normalize_dst_counterexample :
    cidrParts "::ffff:10.0.0.1/120"
        = some (Addr.v6 [0, 0, 0, 0, 0, 0, 0, 0, 0, 0, 255, 255, 10, 0, 0, 1], 120)
      ∧ (Route.mk "::ffff:10.0.0.1/120" "" "" 0 0 "" "" "" "").Normalize
        = .ok (Route.mk "10.0.0.0/24" "" "" 0 0 "" "" "" "") := by
  decide

/-- C15, amended. Let `Normalize` succeed on a route. If the trimmed, lower-cased dst is
a parseable CIDR with address `a` and prefix length `n` (and it is one exactly when
`ParseCIDR` accepts it), the new dst is the text of the address `nn`, then `/`, then a
prefix length in decimal, where `nn` has the bytes of `a` with the host bits zeroed: as a
number, the value of `a` rounded down to a multiple of two to the number of host bits.
The prefix length printed is `n`, except when `nn` is an IPv4-mapped IPv6 address, which
is printed as the IPv4 address with prefix length `n - 96`. If the dst is the word
`default` in any letter case between runs of white space, the new dst is `default`. -/
theorem Normalize_dst_canonical (r out : Route) (h : r.Normalize = .ok out) :
    (∀ a n, cidrParts (toLower (trimSpace r.Dst)) = some (a, n) →
        ∃ nn : List Nat, nn.length = a.bytes.length ∧ (∀ x ∈ nn, x < 256)
          ∧ bytesToNat nn = bytesToNat a.bytes / 2 ^ (a.BitLen - n) * 2 ^ (a.BitLen - n)
          ∧ out.Dst = ⟨ipStringL nn ++ '/' :: uitoa
              (if nn.length = 16 ∧ (To4 nn).isSome = true then n - 96 else n)⟩)
      ∧ ((ParseCIDR (toLower (trimSpace r.Dst))).isSome
          = (cidrParts (toLower (trimSpace r.Dst))).isSome)
      ∧ (∀ pre u suf : List Char, r.Dst = ⟨pre ++ u ++ suf⟩ →
          (∀ c ∈ pre, isSpace c = true) → (∀ c ∈ suf, isSpace c = true) →
          u.map toLowerRune = "default".data → out.Dst = "default") := by
  have hd := (Normalize_fields r out h).1
  refine ⟨?_, ParseCIDR_isSome _, ?_⟩
  · intro a n hp
    obtain ⟨nn, h1, h2, h3, h4⟩ := normDst_net r.Dst a n hp
    rw [hd] at h4
    exact ⟨nn, h1, h2, h3, Except.ok.inj h4⟩
  · intro pre u suf he hp hs hu
    rw [he, normDst_default pre u suf hp hs hu] at hd
    exact (Except.ok.inj hd).symm

theorem Normalize_dst_canonical_witness :
    (∀ a n, cidrParts (toLower (trimSpace hostBitsRoute.Dst)) = some (a, n) →
        ∃ nn : List Nat, nn.length = a.bytes.length ∧ (∀ x ∈ nn, x < 256)
          ∧ bytesToNat nn = bytesToNat a.bytes / 2 ^ (a.BitLen - n) * 2 ^ (a.BitLen - n)
          ∧ (Route.mk "10.0.0.0/24" "" "" 0 0 "" "" "" "").Dst = ⟨ipStringL nn ++ '/' :: uitoa
              (if nn.length = 16 ∧ (To4 nn).isSome = true then n - 96 else n)⟩)
      ∧ ((ParseCIDR (toLower (trimSpace hostBitsRoute.Dst))).isSome
          = (cidrParts (toLower (trimSpace hostBitsRoute.Dst))).isSome)
      ∧ (∀ pre u suf : List Char, hostBitsRoute.Dst = ⟨pre ++ u ++ suf⟩ →
          (∀ c ∈ pre, isSpace c = true) → (∀ c ∈ suf, isSpace c = true) →
          u.map toLowerRune = "default".data →
          (Route.mk "10.0.0.0/24" "" "" 0 0 "" "" "" "").Dst = "default") :=
  Normalize_dst_canonical hostBitsRoute (Route.mk "10.0.0.0/24" "" "" 0 0 "" "" "" "")
    (by decide)

/-- C16. `DiffRoutes` fails atomically on bad input: it returns an error exactly when an
element of `old` or `desired` does not normalize; the error names index `i` of the old
routes exactly when element `i` of `old` fails with that error and every earlier element
of `old` normalizes; it names index `i` of the desired routes exactly when all of `old`
normalizes, element `i` of `desired` fails with that error and every earlier element of
`desired` normalizes; and with an error the returned `DiffResult` is empty. -/
theorem DiffRoutes_fails_atomically (old desired : List Route) :
    ((∃ e, DiffRoutes old desired = .error e) ↔ ∃ r ∈ old ++ desired, ¬ Normalizes r)
      ∧ (∀ i e, DiffRoutes old desired = .error (.oldRoutes i e) ↔
          (∃ r, old[i]? = some r ∧ r.Normalize = .error e)
            ∧ ∀ j, j < i → ∀ r, old[j]? = some r → Normalizes r)
      ∧ (∀ i e, DiffRoutes old desired = .error (.desiredRoutes i e) ↔
          (∀ r ∈ old, Normalizes r) ∧ (∃ r, desired[i]? = some r ∧ r.Normalize = .error e)
            ∧ ∀ j, j < i → ∀ r, desired[j]? = some r → Normalizes r)
      ∧ ∀ e, DiffRoutes old desired = .error e →
          resultOf (DiffRoutes old desired) = { ToAdd := [], ToDel := [], Unchanged := [] } := by
  refine ⟨DiffRoutes_error_iff old desired, DiffRoutes_error_old old desired,
    DiffRoutes_error_desired old desired, ?_⟩
  intro e he
  rw [he]
  rfl

/-- C17. Sorted output: when `DiffRoutes` succeeds, each of `ToAdd`, `ToDel` and
`Unchanged` is in strictly ascending order of the keys of its routes (Go's order on
strings), so no key occurs twice in a list; the key of each of these routes is computed
without error. -/
theorem DiffRoutes_sorted (old desired : List Route) (d : DiffResult)
    (h : DiffRoutes old desired = .ok d) :
    List.Pairwise (fun a b => strLess (keyOf a) (keyOf b) = true) d.ToAdd
      ∧ List.Pairwise (fun a b => strLess (keyOf a) (keyOf b) = true) d.ToDel
      ∧ List.Pairwise (fun a b => strLess (keyOf a) (keyOf b) = true) d.Unchanged
      ∧ (keysOf d.ToAdd).Nodup ∧ (keysOf d.ToDel).Nodup ∧ (keysOf d.Unchanged).Nodup
      ∧ ∀ r, r ∈ d.ToAdd ∨ r ∈ d.ToDel ∨ r ∈ d.Unchanged → r.Key = .ok (keyOf r) := by
  obtain ⟨⟨s1, s2, s3⟩, _⟩ := DiffRoutes_spec old desired d h
  obtain ⟨o1, o2, o3⟩ := DiffRoutes_origin old desired d h
  refine ⟨s3, s1, s2, pairwise_keyLT_nodup _ s3, pairwise_keyLT_nodup _ s1,
    pairwise_keyLT_nodup _ s2, ?_⟩
  rintro r (hr | hr | hr)
  · obtain ⟨x, _, hx⟩ := o3 r hr
    exact normalized_Key x r hx
  · obtain ⟨x, _, hx⟩ := o1 r hr
    exact normalized_Key x r hx
  · obtain ⟨x, _, hx⟩ := o2 r hr
    exact normalized_Key x r hx

theorem DiffRoutes_sorted_witness :
    List.Pairwise (fun a b => strLess (keyOf a) (keyOf b) = true) sampleDrop.ToAdd
      ∧ List.Pairwise (fun a b => strLess (keyOf a) (keyOf b) = true) sampleDrop.ToDel
      ∧ List.Pairwise (fun a b => strLess (keyOf a) (keyOf b) = true) sampleDrop.Unchanged
      ∧ (keysOf sampleDrop.ToAdd).Nodup ∧ (keysOf sampleDrop.ToDel).Nodup
      ∧ (keysOf sampleDrop.Unchanged).Nodup
      ∧ ∀ r, r ∈ sampleDrop.ToAdd ∨ r ∈ sampleDrop.ToDel ∨ r ∈ sampleDrop.Unchanged →
          r.Key = .ok (keyOf r) :=
  DiffRoutes_sorted sampleOld.reverse [] sampleDrop (by decide)

/-- C18, the failing input. `MemoryStore.Save` stores a copy of its argument as it is:
for every list a `Load` after `Save` returns the very list that was saved. For the list
holding one route with destination `10.0.0.1/24`, which normalizes, `Load` therefore
returns destination `10.0.0.1/24` and not the normalized `10.0.0.0/24`, whereas the
loop of `FileStore.Save` turns the same list into its normalized form. -/
theorem MemoryStore_Save_unnormalized :
    (∀ (E : Type) (t rs : List Route), ((MemoryStore E).Save t rs).2 = none
        ∧ ((MemoryStore E).Load ((MemoryStore E).Save t rs).1).2 = .ok rs)
      ∧ hostBitsRoute.Normalize = .ok (Route.mk "10.0.0.0/24" "" "" 0 0 "" "" "" "")
      ∧ ((MemoryStore String).Load ((MemoryStore String).Save [] [hostBitsRoute]).1).2
        = .ok [Route.mk "10.0.0.1/24" "" "" 0 0 "" "" "" ""]
      ∧ saveNorm [hostBitsRoute] 0 [] = .ok [Route.mk "10.0.0.0/24" "" "" 0 0 "" "" "" ""] :=
  ⟨fun _ _ _ => ⟨rfl, rfl⟩, by decide, by decide, by decide⟩

/-- C19, the failing input. The two routes `clashA` and `clashB` normalize to themselves,
yet with both the baseline and the desired set equal to the list of the two, `Unchanged`
holds `clashB` only: it is not the full normalized set. -/
theorem DiffRoutes_noop_counterexample :
    (∀ r ∈ [clashA, clashB], Normalizes r)
      ∧ normList [clashA, clashB] = [clashA, clashB]
      ∧ DiffRoutes [clashA, clashB] [clashA, clashB]
        = .ok { ToAdd := [], ToDel := [], Unchanged := [clashB] }
      ∧ ¬ clashA ∈ (resultOf (DiffRoutes [clashA, clashB] [clashA, clashB])).Unchanged := by
  decide

/-- C20, the failing input. The routes `clashA` (scope `a|type=b`, empty type) and
`clashB` (scope `a`, type `b|type=`) both normalize, to themselves, and `Key` returns the
same string for both, yet they differ in the fields scope and type; with baseline
`clashB` and desired set `clashA`, the route returned in `Unchanged` is `clashB`, which is
not the normalized desired route. -/
theorem Key_collision :
    clashA.Normalize = .ok clashA ∧ clashB.Normalize = .ok clashB
      ∧ clashA.Key
        = .ok "dst=default|gw=|dev=|table=0|metric=0|src=|scope=a|type=b|type=|proto="
      ∧ clashB.Key
        = .ok "dst=default|gw=|dev=|table=0|metric=0|src=|scope=a|type=b|type=|proto="
      ∧ clashA.Scope ≠ clashB.Scope ∧ clashA.Type_ ≠ clashB.Type_
      ∧ DiffRoutes [clashB] [clashA] = .ok { ToAdd := [], ToDel := [], Unchanged := [clashB] }
      ∧ clashB ≠ clashA := by
  decide

/-- C21, the failing input. With old routes `[clashA]` and desired routes `[clashA, clashB]`,
the two desired routes have the same key and the one with the largest index is `clashB`,
yet the route in the result for that key is `clashA`, the copy of the old routes, and
`ToAdd` is empty although `clashB` is a desired route that is not among the old ones. -/
theorem DiffRoutes_last_write_counterexample :
    DiffRoutes [clashA] [clashA, clashB]
        = .ok { ToAdd := [], ToDel := [], Unchanged := [clashA] }
      ∧ keyOf clashA = keyOf clashB
      ∧ lastWins [clashA, clashB] (keyOf clashA) clashB
      ∧ ¬ lastWins [clashA, clashB] (keyOf clashA) clashA :=
  ⟨by decide, by decide, lastWins_clash.1, lastWins_clash.2⟩

/-- C22, counterexample. The raw non-negative integer code `256`, written in decimal, is
rejected, and the empty string, which is neither one of the four names nor an integer, is
accepted with code 0. -/
theorem parseProtocol_counterexample :
    parseProtocol "256" = (0, false) ∧ parseProtocol "" = (0, true) := by
  decide

/-- C22, amended. `parseProtocol` trims white space and lower-cases its argument. It then
accepts exactly: the empty text, with code 0; the names `kernel`, `boot`, `static` and
`dhcp`, with the codes 2, 3, 4 and 16; and a text made of an optional sign `+` or `-`
followed by one or more decimal digits whose value is at most 255 (and is 0 after `-`),
with that value as the code. Every other text is rejected, with code 0. In particular the
decimal text of a number `n` is accepted with code `n` when `n ≤ 255` and rejected
otherwise, and a name may be written with any capitals Unicode lower-cases to its letters,
such as the Kelvin sign for `k`. -/
theorem parseProtocol_vocabulary :
    (∀ (p : String) (c : Int), parseProtocol p = (c, true) ↔
        (toLower (trimSpace p) = "" ∧ c = 0)
          ∨ (toLower (trimSpace p) = "kernel" ∧ c = 2)
          ∨ (toLower (trimSpace p) = "boot" ∧ c = 3)
          ∨ (toLower (trimSpace p) = "static" ∧ c = 4)
          ∨ (toLower (trimSpace p) = "dhcp" ∧ c = 16)
          ∨ ∃ sign ds, (toLower (trimSpace p)).data = sign ++ ds
            ∧ (sign = [] ∨ sign = ['+'] ∨ sign = ['-'])
            ∧ ds ≠ [] ∧ (∀ ch ∈ ds, isDigit ch) ∧ decValue ds ≤ 255
            ∧ (sign = ['-'] → decValue ds = 0) ∧ c = (decValue ds : Int))
      ∧ (∀ p : String, (parseProtocol p).2 = false → (parseProtocol p).1 = 0)
      ∧ (∀ n : Nat, parseProtocol ⟨uitoa n⟩ = if n ≤ 255 then ((n : Int), true) else (0, false))
      ∧ parseProtocol "kernel" = (RTPROT_KERNEL, true)
      ∧ parseProtocol "boot" = (RTPROT_BOOT, true)
      ∧ parseProtocol "static" = (RTPROT_STATIC, true)
      ∧ parseProtocol "dhcp" = (RTPROT_DHCP, true)
      ∧ parseProtocol " \u212aERNEL " = (RTPROT_KERNEL, true)
      ∧ parseProtocol "STAT\u0130C" = (RTPROT_STATIC, true) :=
  ⟨parseProtocol_accepts, parseProtocol_rejects, parseProtocol_uitoa, by decide, by decide,
    by decide, by decide, by decide, by decide⟩

end LinuxRoute
